import Mathlib

/-! RDataFrame evaluation nodes: `RDefine`, `RFilter` and `RVariation`.

A shallow embedding of the per-bulk caching logic, of the children and stop counters and of the
registries of varied nodes of `tree/dataframe/inc/ROOT/RDF/RDefine.hxx`, `RFilter.hxx` and
`RVariation.hxx`.

* C++ vectors are Lean lists; an out-of-range `operator[]` (undefined behaviour in C++)
  makes the embedded operation return `none`.
* `std::size_t` values are natural numbers; `std::numeric_limits<std::size_t>::max()` is
  `sizeMax`.  `ULong64_t` counters are reduced modulo `2 ^ 64` after each addition.
* User expressions are pure functions.  Every operation that can invoke a user expression
  also returns the list of invocations it made, in order (the instrumented-expression view
  used by the testable properties of the specification).
* Shared pointers between filters are positions in the list of filters of a graph; a method
  that recurses along predecessors takes a fuel argument.
-/

namespace ROOT

/-- The value of `std::numeric_limits<std::size_t>::max()` on a 64-bit platform. -/
def sizeMax : Nat := 2 ^ 64 - 1

/-- Modelled from the spec: the entry mask `RMaskedEntryRange` (its header is not part of the
sources at hand).  It is a fixed-capacity bit vector `fMask` over one bulk of rows together with
the bulk stamp `fBegin` (entry number of the first row of the bulk, `-1` when unset). -/
structure RMaskedEntryRange where
  fMask : List Bool
  fBegin : Int
deriving DecidableEq, Repr

namespace RMaskedEntryRange

/-- The bulk stamp of the mask. -/
def FirstEntry (m : RMaskedEntryRange) : Int := m.fBegin

/-- The call `SetFirstEntry(stamp)`. -/
def SetFirstEntry (m : RMaskedEntryRange) (e : Int) : RMaskedEntryRange :=
  { m with fBegin := e }

/-- The call `SetAll(bool)`: every bit takes the given value, the capacity is unchanged. -/
def SetAll (m : RMaskedEntryRange) (b : Bool) : RMaskedEntryRange :=
  { m with fMask := List.replicate m.fMask.length b }

/-- The call `Count(size)`: number of set bits among the first `size`. -/
def Count (m : RMaskedEntryRange) (size : Nat) : Nat :=
  (m.fMask.take size).count true

/-- The bit of row `i`, read as `false` beyond the capacity. -/
def bit (m : RMaskedEntryRange) (i : Nat) : Bool := m.fMask.getD i false

/-- The call `Contains(requested, size)`: the lowest index below `size` at which `other` requests a
row that `self` does not cover, or the "fully covered" sentinel `sizeMax`. -/
def Contains (self other : RMaskedEntryRange) (size : Nat) : Nat :=
  match (List.range size).find? (fun i => other.bit i && !self.bit i) with
  | some i => i
  | none => sizeMax

/-- Reading `mask[i]`; out of range is `none`. -/
def get (m : RMaskedEntryRange) (i : Nat) : Option Bool := m.fMask[i]?

/-- Writing `mask[i] = b`; out of range is `none`. -/
def set (m : RMaskedEntryRange) (i : Nat) (b : Bool) : Option RMaskedEntryRange :=
  if i < m.fMask.length then some { m with fMask := m.fMask.set i b } else none

end RMaskedEntryRange

/-- Modelled from the spec: the event mask `REventMask(requestedMask, bulkSize)` handed to a batched
expression (its header is not part of the sources at hand): the active-row mask and the bulk
size. -/
structure REventMask where
  fMask : RMaskedEntryRange
  fSize : Nat
deriving DecidableEq, Repr

/-- The call `REventMask::Size()`. -/
def REventMask.Size (m : REventMask) : Nat := m.fSize

/-- Modelled from the spec: the parts of the orchestration loop `RLoopManager` that the nodes call
(its header is not part of the sources at hand).  `CheckFilters` is the answer of the data source
at the root of a chain of filters; the two counters record the `IncrChildrenCount` and
`StopProcessing` calls received. -/
structure RLoopManager where
  fNSlots : Nat
  fMaxEventsPerBulk : Nat
  GetUniqueRDFEntry : Nat → Int
  CheckFilters : Nat → Int → Nat → RMaskedEntryRange
  fNChildren : Nat
  fNStopsReceived : Nat

/-- Modelled from the spec: a column reader (`RColumnReaderBase`, external).  `Load(mask, bulkSize)`
returns a contiguous view of the input values of the bulk; the view is indexed by the row's
position in the bulk.  The values of all input columns of a row are gathered in one `α`. -/
structure RColumnReaderBase (α : Type) where
  Load : RMaskedEntryRange → Nat → Nat → α

/-- Reduction of the result of an unsigned 64-bit operation (`std::size_t`, `ULong64_t`). -/
def wrap64 (x : Nat) : Nat := x % 2 ^ 64

/-- Writing `v[i] = x` in a vector; out of range is `none`. -/
def assignAt {γ : Type} (v : List γ) (i : Nat) (x : γ) : Option (List γ) :=
  if i < v.length then some (v.set i x) else none

/-- The expression of an `RDefine`.  The first three shapes are the row-wise expressions, one per
`ExtraArgsForDefine` tag (`None`, `Slot`, `SlotAndEntry`); the last one is the batched expression
(`kUsingBulkAPI`), which receives the event mask, the results buffer and the input views and
fills the buffer. -/
inductive DefineExpression (α β : Type) where
  | none (f : α → β)
  | slot (f : Nat → α → β)
  | slotAndEntry (f : Nat → Int → α → β)
  | bulk (f : REventMask → List β → List α → List β)

/-- The constant `kUsingBulkAPI`. -/
def DefineExpression.kUsingBulkAPI {α β : Type} : DefineExpression α β → Bool
  | .bulk _ => true
  | _ => false

/-- One invocation of the user expression: row-wise on the row at `idx`, or batched with the
event mask it was handed. -/
inductive ExprCall where
  | row (idx : Nat)
  | bulk (m : REventMask)
deriving DecidableEq, Repr

/-- The state of an `RDefine<F, ExtraArgsTag>`.  `maskStep` and `resultsStep` stand for the
constants `CacheLineStep<RMaskedEntryRange>()` and `CacheLineStep<RetType_t>()`, whose definition
is not part of the sources at hand. -/
structure RDefine (α β : Type) where
  fName : String
  fType : String
  fColumnNames : List String
  fVariation : String
  fVariationDeps : List String
  fLoopManager : RLoopManager
  fExpression : DefineExpression α β
  fLastResults : List (List β)
  fValueReaders : List (RColumnReaderBase α)
  fValuePtrs : List (Nat → α)
  fMask : List RMaskedEntryRange
  maskStep : Nat
  resultsStep : Nat

namespace RDefine

variable {α β : Type}

/-- The user expression applied to the input values `x` of one row, with the extra arguments its
`ExtraArgsForDefine` tag asks for (a batched expression is never applied to a single row, so that
case is `none`). -/
def applyRow (e : DefineExpression α β) (slot : Nat) (entry : Int) (x : α) : Option β :=
  match e with
  | .none f => some (f x)
  | .slot f => some (f slot x)
  | .slotAndEntry f => some (f slot entry x)
  | .bulk _ => Option.none

/-- The three row-wise overloads of `EvalExpr`: the expression applied to the input values found
at `fValuePtrs[slot] + idx`. -/
def EvalExpr (d : RDefine α β) (slot idx : Nat) (entry : Int) : Option β := do
  let ptrs ← d.fValuePtrs[slot]?
  applyRow d.fExpression slot entry (ptrs idx)

/-- The loop `for (i = 0; i < bulkSize; ++i) if (requestedMask[i]) results[i] = EvalExpr(...)` of the
row-wise `UpdateHelper`, from index `i` for `k` more iterations.  Returns the buffer and the
rows evaluated. -/
def newBulkLoop (d : RDefine α β) (slot : Nat) (requestedMask : RMaskedEntryRange)
    (rdfentry_start : Int) : Nat → Nat → List β → Option (List β × List ExprCall)
  | _, 0, results => some (results, [])
  | i, k + 1, results => do
    let requested ← requestedMask.get i
    if requested then
      let value ← d.EvalExpr slot i (rdfentry_start + i)
      let results ← assignAt results i value
      let (results, calls) ← newBulkLoop d slot requestedMask rdfentry_start (i + 1) k results
      some (results, ExprCall.row i :: calls)
    else
      newBulkLoop d slot requestedMask rdfentry_start (i + 1) k results

/-- The loop `for (i = firstNewIdx; i < bulkSize; ++i) if (requestedMask[i] && !valueMask[i]) ...`
of the row-wise `UpdateHelper`, from index `i` for `k` more iterations.  Returns the buffer, the
value mask and the rows evaluated. -/
def gapLoop (d : RDefine α β) (slot : Nat) (requestedMask : RMaskedEntryRange)
    (rdfentry_start : Int) :
    Nat → Nat → List β → RMaskedEntryRange → Option (List β × RMaskedEntryRange × List ExprCall)
  | _, 0, results, valueMask => some (results, valueMask, [])
  | i, k + 1, results, valueMask => do
    let requested ← requestedMask.get i
    let known ← if requested then valueMask.get i else some false
    if requested && !known then
      let value ← d.EvalExpr slot i (rdfentry_start + i)
      let results ← assignAt results i value
      let valueMask ← valueMask.set i true
      let (results, valueMask, calls) ←
        gapLoop d slot requestedMask rdfentry_start (i + 1) k results valueMask
      some (results, valueMask, ExprCall.row i :: calls)
    else
      gapLoop d slot requestedMask rdfentry_start (i + 1) k results valueMask

/-- The non-bulk overload of `UpdateHelper`. -/
def UpdateHelperRow (d : RDefine α β) (slot : Nat) (requestedMask : RMaskedEntryRange)
    (bulkSize firstNewIdx : Nat) : Option (RDefine α β × List ExprCall) := do
  let results ← d.fLastResults[slot * d.resultsStep]?
  let valueMask ← d.fMask[slot * d.maskStep]?
  let rdfentry_start := d.fLoopManager.GetUniqueRDFEntry slot
  if firstNewIdx = 0 then
    let (results, calls) ← newBulkLoop d slot requestedMask rdfentry_start 0 bulkSize results
    some ({ d with fLastResults := d.fLastResults.set (slot * d.resultsStep) results,
                   fMask := d.fMask.set (slot * d.maskStep) requestedMask }, calls)
  else
    let value ← d.EvalExpr slot firstNewIdx (rdfentry_start + firstNewIdx)
    let results ← assignAt results firstNewIdx value
    let firstNewIdx1 := firstNewIdx + 1
    let (results, valueMask, calls) ←
      gapLoop d slot requestedMask rdfentry_start firstNewIdx1 (bulkSize - firstNewIdx1)
        results valueMask
    some ({ d with fLastResults := d.fLastResults.set (slot * d.resultsStep) results,
                   fMask := d.fMask.set (slot * d.maskStep) valueMask },
          ExprCall.row firstNewIdx :: calls)

/-- The bulk overload of `UpdateHelper` together with `EvalBulkExpr`: the expression is invoked
once with the event mask, the results buffer and the input views of size `m.Size()`. -/
def UpdateHelperBulk (d : RDefine α β) (f : REventMask → List β → List α → List β) (slot : Nat)
    (requestedMask : RMaskedEntryRange) (bulkSize : Nat) :
    Option (RDefine α β × List ExprCall) := do
  let eventMask : REventMask := ⟨requestedMask, bulkSize⟩
  let results ← d.fLastResults[slot * d.resultsStep]?
  let ptrs ← d.fValuePtrs[slot]?
  let results := f eventMask results ((List.range eventMask.Size).map ptrs)
  if slot * d.maskStep < d.fMask.length then
    some ({ d with fLastResults := d.fLastResults.set (slot * d.resultsStep) results,
                   fMask := d.fMask.set (slot * d.maskStep) requestedMask },
          [ExprCall.bulk eventMask])
  else Option.none

/-- The tail of `RDefine::Update`: the readers of the slot load the bulk (`std::transform` over
`fValueReaders[slot]` into `fValuePtrs[slot]`), then the call is dispatched to the bulk or to the
row-wise `UpdateHelper` according to the shape of the expression. -/
def loadAndDispatch (d : RDefine α β) (slot : Nat) (requestedMask : RMaskedEntryRange)
    (bulkSize firstNewIdx : Nat) : Option (RDefine α β × List ExprCall) := do
  let reader ← d.fValueReaders[slot]?
  let ptrs ← assignAt d.fValuePtrs slot (reader.Load requestedMask bulkSize)
  let d := { d with fValuePtrs := ptrs }
  match d.fExpression with
  | .bulk f => UpdateHelperBulk d f slot requestedMask bulkSize
  | _ => UpdateHelperRow d slot requestedMask bulkSize firstNewIdx

/-- The method `RDefine::Update(slot, requestedMask, bulkSize)`.  Returns the new state and the
invocations of the expression made during the call. -/
def Update (d : RDefine α β) (slot : Nat) (requestedMask : RMaskedEntryRange) (bulkSize : Nat) :
    Option (RDefine α β × List ExprCall) := do
  let valueMask ← d.fMask[slot * d.maskStep]?
  if valueMask.FirstEntry ≠ requestedMask.FirstEntry then
    -- new bulk
    let valueMask := (valueMask.SetAll false).SetFirstEntry requestedMask.FirstEntry
    let d := { d with fMask := d.fMask.set (slot * d.maskStep) valueMask }
    loadAndDispatch d slot requestedMask bulkSize 0
  else
    let firstNewIdx := valueMask.Contains requestedMask bulkSize
    if firstNewIdx = sizeMax then
      some (d, [])
    else
      loadAndDispatch d slot requestedMask bulkSize firstNewIdx

/-- The slot `slot` of the define is laid out for bulks of capacity `cap`: its mask, results
buffer, reader and value pointers exist, and mask and buffer have `cap` elements. -/
def SlotReady (d : RDefine α β) (slot cap : Nat) : Prop :=
  (∃ vm, d.fMask[slot * d.maskStep]? = some vm ∧ vm.fMask.length = cap) ∧
  (∃ res, d.fLastResults[slot * d.resultsStep]? = some res ∧ res.length = cap) ∧
  slot < d.fValueReaders.length ∧ slot < d.fValuePtrs.length

/-- The rows below `n`, in ascending order, that satisfy `p`, as expression invocations. -/
def rowCalls (p : Nat → Bool) (i k : Nat) : List ExprCall :=
  ((List.range' i k).filter p).map ExprCall.row

/-- A sequence of `Update` calls on one slot.  Each call comes with the state of the loop manager
at the time of the call (the loop manager is an external object the define only points to), the
requested mask and the bulk size. -/
def UpdateSeq (d : RDefine α β) (slot : Nat) :
    List (RLoopManager × RMaskedEntryRange × Nat) → Option (RDefine α β)
  | [] => some d
  | (lm, m, n) :: calls => do
    let r ← ({ d with fLoopManager := lm }).Update slot m n
    UpdateSeq r.1 slot calls

/-- Cache validity of a slot: every row below the size of the cached bulk that the cached mask
marks as computed holds the expression applied to that row's inputs.  `size`, `entryOf` and
`inputs` give, for a bulk stamp, the number of rows of the bulk, the unique entry number of its
first row and the input values of its rows. -/
def CacheValid (d : RDefine α β) (slot : Nat) (size : Int → Nat) (entryOf : Int → Int)
    (inputs : Int → Nat → α) : Prop :=
  ∀ vm res, d.fMask[slot * d.maskStep]? = some vm →
    d.fLastResults[slot * d.resultsStep]? = some res →
    ∀ i, i < size vm.fBegin → vm.bit i = true →
      res[i]? = applyRow d.fExpression slot (entryOf vm.fBegin + i) (inputs vm.fBegin i)

/-- A call of a sequence is well formed for bulks of capacity `cap`: the mask has `cap` bits, the
bulk size is the size of the stamped bulk and fits the capacity, and the loop manager reports the
entry number of the stamped bulk. -/
def CallOk (slot cap : Nat) (size : Int → Nat) (entryOf : Int → Int)
    (c : RLoopManager × RMaskedEntryRange × Nat) : Prop :=
  c.2.1.fMask.length = cap ∧ c.2.2 = size c.2.1.fBegin ∧ c.2.2 ≤ cap ∧
    c.1.GetUniqueRDFEntry slot = entryOf c.2.1.fBegin

/-- The readers of the slot return the same input values for a requested row throughout one bulk
stamp. -/
def ReadersStable (d : RDefine α β) (slot : Nat) (inputs : Int → Nat → α) : Prop :=
  ∀ r, d.fValueReaders[slot]? = some r →
    ∀ (m : RMaskedEntryRange) (n i : Nat), i < n → m.bit i = true →
      r.Load m n i = inputs m.fBegin i

end RDefine

/-- The state of an `RFilter<FilterF, PrevNodeRaw>` without its predecessor.  `maskStep` and
`counterStep` stand for the constants `CacheLineStep<RMaskedEntryRange>()` and
`CacheLineStep<ULong64_t>()`, whose definition is not part of the sources at hand. -/
structure RFilter (α : Type) where
  fName : String
  fVariation : String
  fVariations : List String
  fColumnNames : List String
  fNChildren : Nat
  fNStopsReceived : Nat
  fFilter : α → Bool
  fValueReaders : List (RColumnReaderBase α)
  fValuePtrs : List (Nat → α)
  fMask : List RMaskedEntryRange
  fAccepted : List Nat
  fRejected : List Nat
  maskStep : Nat
  counterStep : Nat

/-- A chain of filters down to its data source: the loop manager, or a filter with its
predecessor `fPrevNode`. -/
inductive RNode (α : Type) where
  | loopManager (lm : RLoopManager)
  | filter (f : RFilter α) (fPrevNode : RNode α)

/-- What a `CheckFilters` call does besides updating the state: `check level slot entry bulkSize`
is a call of `CheckFilters` made on the node at `level` by its successor, `eval level idx` is an
evaluation of the predicate of the filter at `level` on the row at `idx`.  The level of a node is
the number of filters between it and the loop manager, itself included. -/
inductive FilterEvent where
  | check (level slot : Nat) (entry : Int) (bulkSize : Nat)
  | eval (level idx : Nat)
deriving DecidableEq, Repr

/-- The level of the node an event belongs to. -/
def FilterEvent.level : FilterEvent → Nat
  | check level _ _ _ => level
  | eval level _ => level

/-- Whether the event is an evaluation of the predicate of the filter at `level`. -/
def FilterEvent.isEvalAt (level : Nat) : FilterEvent → Bool
  | check _ _ _ _ => false
  | eval l _ => decide (l = level)

namespace RFilter

variable {α : Type}

/-- The method `EvalFilter(slot, idx)`: the predicate applied to the input values found at
`fValuePtrs[slot] + idx`. -/
def EvalFilter (f : RFilter α) (slot idx : Nat) : Option Bool := do
  let ptrs ← f.fValuePtrs[slot]?
  some (f.fFilter (ptrs idx))

/-- The loop of `CheckFilters`, from index `i` for `k` more iterations:
`flag = mask[i]; flag = flag && EvalFilter(slot, i); accepted += flag`.  The predicate is
evaluated only when the flag is set.  Returns the mask, the value of `accepted` (a `std::size_t`)
and the rows on which the predicate was evaluated. -/
def filterLoop (f : RFilter α) (slot : Nat) :
    Nat → Nat → RMaskedEntryRange → Nat → Option (RMaskedEntryRange × Nat × List Nat)
  | _, 0, mask, accepted => some (mask, accepted, [])
  | i, k + 1, mask, accepted => do
    let flag ← mask.get i
    if flag then
      let value ← f.EvalFilter slot i
      let mask ← mask.set i value
      let accepted := wrap64 (accepted + value.toNat)
      let (mask, accepted, rows) ← filterLoop f slot (i + 1) k mask accepted
      some (mask, accepted, i :: rows)
    else
      let mask ← mask.set i false
      let accepted := wrap64 (accepted + false.toNat)
      filterLoop f slot (i + 1) k mask accepted

end RFilter

namespace RNode

variable {α : Type}

/-- The level of a node: the number of filters between it and the loop manager, itself
included. -/
def level : RNode α → Nat
  | loopManager _ => 0
  | filter _ prev => prev.level + 1

/-- The method `CheckFilters(slot, entry, bulkSize)` of a node.  Returns the new state of the
chain, the mask the call returns and the events of the call. -/
def CheckFilters : RNode α → Nat → Int → Nat →
    Option (RNode α × RMaskedEntryRange × List FilterEvent)
  | loopManager lm, slot, entry, bulkSize =>
    some (loopManager lm, lm.CheckFilters slot entry bulkSize, [])
  | filter f prev, slot, entry, bulkSize => do
    let mask ← f.fMask[slot * f.maskStep]?
    if entry ≠ mask.FirstEntry then
      let (prev1, mask, prevEvents) ← prev.CheckFilters slot entry bulkSize
      let reader ← f.fValueReaders[slot]?
      let ptrs ← assignAt f.fValuePtrs slot (reader.Load mask bulkSize)
      let f := { f with fValuePtrs := ptrs }
      let processed := mask.Count bulkSize
      let (mask, accepted, rows) ← f.filterLoop slot 0 bulkSize mask 0
      let nAccepted ← f.fAccepted[slot * f.counterStep]?
      let fAccepted ← assignAt f.fAccepted (slot * f.counterStep) (wrap64 (nAccepted + accepted))
      let nRejected ← f.fRejected[slot * f.counterStep]?
      let fRejected ← assignAt f.fRejected (slot * f.counterStep)
        (wrap64 (nRejected + wrap64 (processed + 2 ^ 64 - accepted)))
      let fMask ← assignAt f.fMask (slot * f.maskStep) mask
      some (filter { f with fMask := fMask, fAccepted := fAccepted, fRejected := fRejected } prev1,
        mask,
        FilterEvent.check prev.level slot entry bulkSize :: prevEvents
          ++ rows.map (FilterEvent.eval (prev.level + 1)))
    else
      some (filter f prev, mask, [])

/-- The data source at the root of a chain. -/
def source : RNode α → RLoopManager
  | loopManager lm => lm
  | filter _ prev => prev.source

/-- Every filter of the chain has cached stamp `e` for the slot. -/
def AllStamped : RNode α → Nat → Int → Prop
  | loopManager _, _, _ => True
  | filter f prev, slot, e =>
    (∃ m, f.fMask[slot * f.maskStep]? = some m ∧ m.FirstEntry = e) ∧ AllStamped prev slot e

/-- No filter of the chain holds the cached stamp `e` for the slot while one of its predecessors
holds another stamp. -/
def HitsClosed : RNode α → Nat → Int → Prop
  | loopManager _, _, _ => True
  | filter f prev, slot, e =>
    (∀ m, f.fMask[slot * f.maskStep]? = some m → m.FirstEntry = e → AllStamped prev slot e) ∧
      HitsClosed prev slot e

/-- The slot `slot` of the filter is laid out for bulks of capacity `cap`: its cached mask has
`cap` bits and its reader, value pointers and counters exist. -/
def FilterReady (f : RFilter α) (slot cap : Nat) : Prop :=
  (∃ m, f.fMask[slot * f.maskStep]? = some m ∧ m.fMask.length = cap) ∧
  slot < f.fValueReaders.length ∧ slot < f.fValuePtrs.length ∧
  slot * f.counterStep < f.fAccepted.length ∧ slot * f.counterStep < f.fRejected.length

/-- Every filter of the chain is laid out for bulks of capacity `cap` in the slot, and the source
answers `CheckFilters(slot, e, n)` with a mask of `cap` bits. -/
def ChainReady : RNode α → Nat → Nat → Int → Nat → Prop
  | loopManager lm, slot, cap, e, n => (lm.CheckFilters slot e n).fMask.length = cap
  | filter f prev, slot, cap, e, n => FilterReady f slot cap ∧ ChainReady prev slot cap e n

end RNode

/-- The end-to-end scenario of the specification: one slot, bulks of capacity 4, the input
column `x = [1, 2, 3, 4]`. -/
def scenarioReader : RColumnReaderBase Nat := ⟨fun _ _ i => [1, 2, 3, 4].getD i 0⟩

/-- The loop manager of the scenario: one slot, bulks of at most 4 rows, a source that accepts
every row. -/
def scenarioLoopManager : RLoopManager :=
  { fNSlots := 1, fMaxEventsPerBulk := 4, GetUniqueRDFEntry := fun _ => 0,
    CheckFilters := fun _ e _ => ⟨[true, true, true, true], e⟩, fNChildren := 0,
    fNStopsReceived := 0 }

/-- The computed column `y = 2 * x` of the scenario, with the given cached mask. -/
def scenarioDefine (cached : RMaskedEntryRange) : RDefine Nat Nat :=
  { fName := "y", fType := "int", fColumnNames := ["x"], fVariation := "nominal",
    fVariationDeps := [], fLoopManager := scenarioLoopManager,
    fExpression := DefineExpression.none (fun x => 2 * x),
    fLastResults := [[0, 0, 0, 0]], fValueReaders := [scenarioReader],
    fValuePtrs := [fun _ => 0], fMask := [cached], maskStep := 1, resultsStep := 1 }

/-- The filter `x > 2` of the scenario, unnamed, with the given cached mask and zero counters. -/
def scenarioFilter (cached : RMaskedEntryRange) : RFilter Nat :=
  { fName := "", fVariation := "nominal", fVariations := [], fColumnNames := ["x"],
    fNChildren := 0, fNStopsReceived := 0, fFilter := fun x => decide (2 < x),
    fValueReaders := [scenarioReader], fValuePtrs := [fun _ => 0], fMask := [cached],
    fAccepted := [0], fRejected := [0], maskStep := 1, counterStep := 1 }

/-- The chain of the scenario: the filter `x > 2` on the loop manager. -/
def scenarioChain (cached : RMaskedEntryRange) : RNode Nat :=
  RNode.filter (scenarioFilter cached) (RNode.loopManager scenarioLoopManager)

/-- A chain of two scenario filters on the loop manager; `c1` is the cached mask of the filter
next to the loop manager, `c2` the cached mask of the last filter. -/
def scenarioChain2 (c1 c2 : RMaskedEntryRange) : RNode Nat :=
  RNode.filter (scenarioFilter c2) (scenarioChain c1)

/-- A call that a node makes on a predecessor during the activation and shutdown protocol:
`stopProcessing level` is a call of `StopProcessing` on the node at `level`,
`incrChildrenCount level` a call of `IncrChildrenCount` on the node at `level`. -/
inductive NodeCall where
  | stopProcessing (level : Nat)
  | incrChildrenCount (level : Nat)
deriving DecidableEq, Repr

/-- The level of the node a call is made on. -/
def NodeCall.level : NodeCall → Nat
  | stopProcessing level => level
  | incrChildrenCount level => level

namespace RNode

variable {α : Type}

/-- The method `StopProcessing()`.  Returns the new state of the chain and the calls made on
predecessors.  On the loop manager the call is recorded in its counter.  The counters
`fNStopsReceived` and `fNChildren` are declared in `RNodeBase`, which is not part of the sources
at hand; they are natural numbers here. -/
def StopProcessing : RNode α → RNode α × List NodeCall
  | loopManager lm => (loopManager { lm with fNStopsReceived := lm.fNStopsReceived + 1 }, [])
  | filter f prev =>
    let f1 := { f with fNStopsReceived := f.fNStopsReceived + 1 }
    if f1.fNStopsReceived = f1.fNChildren then
      let r := prev.StopProcessing
      (filter f1 r.1, NodeCall.stopProcessing prev.level :: r.2)
    else
      (filter f1 prev, [])

/-- The method `IncrChildrenCount()`.  Returns the new state of the chain and the calls made on
predecessors.  On the loop manager the call is recorded in its counter. -/
def IncrChildrenCount : RNode α → RNode α × List NodeCall
  | loopManager lm => (loopManager { lm with fNChildren := lm.fNChildren + 1 }, [])
  | filter f prev =>
    let f1 := { f with fNChildren := f.fNChildren + 1 }
    if f1.fNChildren = 1 ∧ f1.fName = "" then
      let r := prev.IncrChildrenCount
      (filter f1 r.1, NodeCall.incrChildrenCount prev.level :: r.2)
    else
      (filter f1 prev, [])

/-- The method `TriggerChildrenCount()` of a filter; `none` is the failure of the assertion
`!fName.empty()`.  On the loop manager, whose sources are not at hand, it does nothing. -/
def TriggerChildrenCount : RNode α → Option (RNode α × List NodeCall)
  | loopManager lm => some (loopManager lm, [])
  | filter f prev =>
    if f.fName = "" then none
    else
      let r := prev.IncrChildrenCount
      some (filter f r.1, NodeCall.incrChildrenCount prev.level :: r.2)

/-- The state of the chain after `k` calls of `StopProcessing` on its last node. -/
def StopProcessingTimes : Nat → RNode α → RNode α
  | 0, node => node
  | k + 1, node => StopProcessingTimes k node.StopProcessing.1

/-- The state of the chain after `k` calls of `IncrChildrenCount` on its last node. -/
def IncrChildrenCountTimes : Nat → RNode α → RNode α
  | 0, node => node
  | k + 1, node => IncrChildrenCountTimes k node.IncrChildrenCount.1

/-- The value of `fNChildren` of the last node of the chain. -/
def childrenCount : RNode α → Nat
  | loopManager lm => lm.fNChildren
  | filter f _ => f.fNChildren

/-- The value of `fNStopsReceived` of the last node of the chain. -/
def stopsReceived : RNode α → Nat
  | loopManager lm => lm.fNStopsReceived
  | filter f _ => f.fNStopsReceived

end RNode

/-- The scenario filter with a name, a number of children and a number of stops received. -/
def scenarioConsumer (name : String) (children stops : Nat) : RFilter Nat :=
  { scenarioFilter ⟨[true, true, true, true], -1⟩ with
    fName := name, fNChildren := children, fNStopsReceived := stops }

/-- The filter `scenarioConsumer` on the loop manager of the scenario. -/
def scenarioConsumerChain (name : String) (children stops : Nat) : RNode Nat :=
  RNode.filter (scenarioConsumer name children stops) (RNode.loopManager scenarioLoopManager)

/-- The predecessor `fPrevNode` of the last node of a chain (the loop manager has none and is
returned itself). -/
def RNode.fPrevNode {α : Type} : RNode α → RNode α
  | RNode.loopManager lm => RNode.loopManager lm
  | RNode.filter _ prev => prev

/-- Lookup in a `std::unordered_map<std::string, T>`, kept as an association list:
`m.find(key)`. -/
def mapFind {γ : Type} : List (String × γ) → String → Option γ
  | [], _ => none
  | (k, v) :: rest, key => if k = key then some v else mapFind rest key

/-- The assignment `m[key] = x` in a `std::unordered_map<std::string, T>`: the entry of `key` is
replaced, or created when there is none. -/
def mapAssign {γ : Type} : List (String × γ) → String → γ → List (String × γ)
  | [], key, x => [(key, x)]
  | (k, v) :: rest, key, x =>
    if k = key then (k, x) :: rest else (k, v) :: mapAssign rest key x

/-- What the vectors of a freshly constructed node hold: the value-initialised result `zero`, and
the null reader and null value pointer, which stand for unspecified ones here (calling through a
null pointer is undefined behaviour). -/
structure Blank (α β : Type) where
  zero : β
  nullReader : RColumnReaderBase α
  nullPtr : Nat → α

/-- Modelled from the spec: the entry mask a node holds for a slot before `InitSlot`, of the
capacity of a bulk, with the unset stamp `-1` (the constructor of `RMaskedEntryRange` is not part
of the sources at hand). -/
def RMaskedEntryRange.unset (capacity : Nat) : RMaskedEntryRange :=
  ⟨List.replicate capacity false, -1⟩

/-- The result of `GetVariedDefine`: a reference to the define itself or to the varied define
registered under a variation name. -/
inductive DefineRef where
  | self
  | varied (variationName : String)
deriving DecidableEq, Repr

/-- An `RDefine` object with its member `fVariedDefines`: `state` holds the other members, and
each varied define is itself the state of an `RDefine` built by `MakeVariations`. -/
structure RDefineNode (α β : Type) where
  state : RDefine α β
  fVariedDefines : List (String × RDefine α β)

namespace RDefine

variable {α β : Type}

/-- The constructor `RDefine(name, type, expression, columns, colRegister, lm, variationName)`.
The members set by the constructor of `RDefineBase`, which is not part of the sources at hand,
are modelled from the spec: name, type, column names and variation name as given, one unset mask
per slot, and `variationDeps` for the variations the column register reports for the columns.
The registration with the loop manager has no counterpart here. -/
def construct (blank : Blank α β) (name type : String) (expression : DefineExpression α β)
    (columns variationDeps : List String) (lm : RLoopManager) (maskStep resultsStep : Nat)
    (variationName : String) : RDefine α β :=
  { fName := name, fType := type, fColumnNames := columns, fVariation := variationName,
    fVariationDeps := variationDeps, fLoopManager := lm, fExpression := expression,
    fLastResults := List.replicate (lm.fNSlots * resultsStep)
      (List.replicate lm.fMaxEventsPerBulk blank.zero),
    fValueReaders := List.replicate lm.fNSlots blank.nullReader,
    fValuePtrs := List.replicate lm.fNSlots blank.nullPtr,
    fMask := List.replicate (lm.fNSlots * maskStep)
      (RMaskedEntryRange.unset lm.fMaxEventsPerBulk),
    maskStep := maskStep, resultsStep := resultsStep }

end RDefine

namespace RDefineNode

variable {α β : Type}

/-- One iteration of the loop of `MakeVariations`.  Returns the new state and the list of the
variations for which a varied define was constructed (empty or `[variation]`). -/
def makeVariation (blank : Blank α β) (n : RDefineNode α β) (variation : String) :
    RDefineNode α β × List String :=
  if variation ∉ n.state.fVariationDeps then
    -- this Defined quantity does not depend on this variation
    (n, [])
  else if (mapFind n.fVariedDefines variation).isSome then
    -- we already have this variation stored
    (n, [])
  else
    let variedDefine := RDefine.construct blank n.state.fName n.state.fType n.state.fExpression
      n.state.fColumnNames n.state.fVariationDeps n.state.fLoopManager n.state.maskStep
      n.state.resultsStep variation
    ({ n with fVariedDefines := mapAssign n.fVariedDefines variation variedDefine }, [variation])

/-- The method `MakeVariations(variations)`.  Returns the new state and the variations for which a
varied define was constructed, in order. -/
def MakeVariations (blank : Blank α β) :
    RDefineNode α β → List String → RDefineNode α β × List String
  | n, [] => (n, [])
  | n, variation :: rest =>
    let r := makeVariation blank n variation
    let rs := MakeVariations blank r.1 rest
    (rs.1, r.2 ++ rs.2)

/-- A sequence of `MakeVariations` calls. -/
def MakeVariationsSeq (blank : Blank α β) :
    RDefineNode α β → List (List String) → RDefineNode α β
  | n, [] => n
  | n, variations :: rest => MakeVariationsSeq blank (MakeVariations blank n variations).1 rest

/-- The method `GetVariedDefine(variationName)`; `none` is the failure of its assertion.  Returns
the state after the call and the reference returned. -/
def GetVariedDefine (n : RDefineNode α β) (variationName : String) :
    Option (RDefineNode α β × DefineRef) :=
  match mapFind n.fVariedDefines variationName with
  | none =>
    if variationName ∈ n.state.fVariationDeps then none else some (n, DefineRef.self)
  | some _ => some (n, DefineRef.varied variationName)

/-- The define a reference designates. -/
def get (n : RDefineNode α β) : DefineRef → Option (RDefine α β)
  | DefineRef.self => some n.state
  | DefineRef.varied variationName => mapFind n.fVariedDefines variationName

/-- The call `Update(slot, requestedMask, bulkSize)` on the define a reference designates. -/
def Update (n : RDefineNode α β) (ref : DefineRef) (slot : Nat)
    (requestedMask : RMaskedEntryRange) (bulkSize : Nat) :
    Option (RDefineNode α β × List ExprCall) :=
  match ref with
  | DefineRef.self => do
    let r ← n.state.Update slot requestedMask bulkSize
    some ({ n with state := r.1 }, r.2)
  | DefineRef.varied variationName => do
    let varied ← mapFind n.fVariedDefines variationName
    let r ← varied.Update slot requestedMask bulkSize
    some ({ n with fVariedDefines := mapAssign n.fVariedDefines variationName r.1 }, r.2)

end RDefineNode

/-- The blank values of the scenario. -/
def scenarioBlank : Blank Nat Nat :=
  { zero := 0, nullReader := ⟨fun _ _ _ => 0⟩, nullPtr := fun _ => 0 }

/-- The computed column `y = 2 * x` of the scenario as constructed, depending on the variations
`"x:up"` and `"x:down"`, with no varied define yet. -/
def scenarioDefineNode : RDefineNode Nat Nat :=
  { state := RDefine.construct scenarioBlank "y" "int" (DefineExpression.none (fun x => 2 * x))
      ["x"] ["x:up", "x:down"] scenarioLoopManager 1 1 "nominal",
    fVariedDefines := [] }

/-- The registry of varied defines is well formed for the define `d`: the state of the node is
`d`, every key is a variation `d` depends on, and the entry of a key is the define constructed
from the members of `d` for that variation. -/
def RDefineNode.RegistryOk {α β : Type} (blank : Blank α β) (d : RDefine α β)
    (n : RDefineNode α β) : Prop :=
  n.state = d ∧
    ∀ k v, mapFind n.fVariedDefines k = some v →
      k ∈ d.fVariationDeps ∧
        v = RDefine.construct blank d.fName d.fType d.fExpression d.fColumnNames
          d.fVariationDeps d.fLoopManager d.maskStep d.resultsStep k

/-- The expression of an `RVariation<F, IsSingleColumn>`: for a single varied column it returns
one value per variation (`RVec<T>`), for several columns varied jointly one vector of values per
column (`RVec<RVec<T>>`). -/
inductive VaryExpression (α γ : Type) where
  | single (f : α → List γ)
  | multi (f : α → List (List γ))

/-- The type `Result_t` of the storage of an `RVariation` for one slot: indexed by variation and
row of the bulk for a single column, by column, variation and row of the bulk otherwise. -/
inductive VaryResults (γ : Type) where
  | single (v : List (List γ))
  | multi (v : List (List (List γ)))

/-- The state of an `RVariation<F, IsSingleColumn>`.  The template parameter `IsSingleColumn` is
the shape of `fExpression` and of the elements of `fLastResults`.  `maskStep` and `resultsStep`
stand for the constants `CacheLineStep<RMaskedEntryRange>()` and `CacheLineStep<Result_t>()`,
whose definition is not part of the sources at hand. -/
structure RVariation (α γ : Type) where
  fColNames : List String
  fVariationNames : List String
  fInputColumns : List String
  fType : String
  fLoopManager : RLoopManager
  fExpression : VaryExpression α γ
  fLastResults : List (VaryResults γ)
  fValueReaders : List (RColumnReaderBase α)
  fValuePtrs : List (Nat → α)
  fMask : List RMaskedEntryRange
  maskStep : Nat
  resultsStep : Nat

namespace RVariation

variable {α γ : Type}

/-- The loop over the variations of `AssignResults`, from index `i` for `k` more iterations:
`storage[i][bulkIdx] = value i`, where `value i` reads the `i`-th value returned by the
expression (`none` when there is no such value). -/
def assignLoop (value : Nat → Option γ) (bulkIdx : Nat) :
    Nat → Nat → List (List γ) → Option (List (List γ))
  | _, 0, storage => some storage
  | i, k + 1, storage => do
    let x ← value i
    let bulk ← storage[i]?
    let bulk ← assignAt bulk bulkIdx x
    let storage ← assignAt storage i bulk
    assignLoop value bulkIdx (i + 1) k storage

/-- The function `AssignResults` for a single column:
`for (i < resStorage.size()) resStorage[i][bulkIdx] = tmpResults[i]`. -/
def AssignResultsSingle (resStorage : List (List γ)) (tmpResults : List γ) (bulkIdx : Nat) :
    Option (List (List γ)) :=
  assignLoop (fun i => tmpResults[i]?) bulkIdx 0 resStorage.length resStorage

/-- The loop over the columns of `AssignResults` for several columns, from column `c` for `k`
more iterations. -/
def assignColumnsLoop (tmpResults : List (List γ)) (bulkIdx nVariations : Nat) :
    Nat → Nat → List (List (List γ)) → Option (List (List (List γ)))
  | _, 0, storage => some storage
  | c, k + 1, storage => do
    let column ← storage[c]?
    let column ← assignLoop (fun i => (tmpResults[c]?).bind (fun t => t[i]?)) bulkIdx 0
      nVariations column
    let storage ← assignAt storage c column
    assignColumnsLoop tmpResults bulkIdx nVariations (c + 1) k storage

/-- The function `AssignResults` for several columns:
`nCols = resStorage.size(); nVariations = resStorage[0].size();`
`resStorage[colIdx][varIdx][bulkIdx] = tmpResults[colIdx][varIdx]`. -/
def AssignResultsMulti (resStorage : List (List (List γ))) (tmpResults : List (List γ))
    (bulkIdx : Nat) : Option (List (List (List γ))) := do
  let first ← resStorage[0]?
  assignColumnsLoop tmpResults bulkIdx first.length 0 resStorage.length resStorage

/-- The method `UpdateHelper(slot, idx)`: the expression is applied to the input values found at
`fValuePtrs[slot] + idx` and its results are assigned into `fLastResults[slot * step]`.  A single
column expression with a storage for several columns, or the converse, is excluded by the
template parameter `IsSingleColumn` and is `none` here. -/
def UpdateHelper (v : RVariation α γ) (slot idx : Nat) : Option (RVariation α γ) := do
  let ptrs ← v.fValuePtrs[slot]?
  let storage ← v.fLastResults[slot * v.resultsStep]?
  match v.fExpression, storage with
  | VaryExpression.single f, VaryResults.single st => do
    let st ← AssignResultsSingle st (f (ptrs idx)) idx
    some { v with fLastResults := v.fLastResults.set (slot * v.resultsStep) (VaryResults.single st) }
  | VaryExpression.multi f, VaryResults.multi st => do
    let st ← AssignResultsMulti st (f (ptrs idx)) idx
    some { v with fLastResults := v.fLastResults.set (slot * v.resultsStep) (VaryResults.multi st) }
  | _, _ => none

/-- The loop `for (i = firstNewIdx; i < bulkSize; ++i) if (requestedMask[i] && !valueMask[i]) ...`
of `Update`, from index `i` for `k` more iterations.  Returns the state, the value mask and the
rows on which the expression was invoked. -/
def updateLoop (slot : Nat) (requestedMask : RMaskedEntryRange) :
    Nat → Nat → RVariation α γ → RMaskedEntryRange →
    Option (RVariation α γ × RMaskedEntryRange × List ExprCall)
  | _, 0, v, valueMask => some (v, valueMask, [])
  | i, k + 1, v, valueMask => do
    let requested ← requestedMask.get i
    let known ← if requested then valueMask.get i else some false
    if requested && !known then
      let v ← v.UpdateHelper slot i
      let valueMask ← valueMask.set i true
      let (v, valueMask, calls) ← updateLoop slot requestedMask (i + 1) k v valueMask
      some (v, valueMask, ExprCall.row i :: calls)
    else
      updateLoop slot requestedMask (i + 1) k v valueMask

/-- The tail of `RVariation::Update`: the readers of the slot load the bulk, then the loop runs
from `firstNewIdx`. -/
def loadAndLoop (v : RVariation α γ) (slot : Nat) (requestedMask : RMaskedEntryRange)
    (bulkSize firstNewIdx : Nat) : Option (RVariation α γ × List ExprCall) := do
  let reader ← v.fValueReaders[slot]?
  let ptrs ← assignAt v.fValuePtrs slot (reader.Load requestedMask bulkSize)
  let v := { v with fValuePtrs := ptrs }
  let valueMask ← v.fMask[slot * v.maskStep]?
  let (v, valueMask, calls) ←
    updateLoop slot requestedMask firstNewIdx (bulkSize - firstNewIdx) v valueMask
  some ({ v with fMask := v.fMask.set (slot * v.maskStep) valueMask }, calls)

/-- The method `RVariation::Update(slot, requestedMask, bulkSize)`.  Returns the new state and the
invocations of the expression made during the call. -/
def Update (v : RVariation α γ) (slot : Nat) (requestedMask : RMaskedEntryRange)
    (bulkSize : Nat) : Option (RVariation α γ × List ExprCall) := do
  let valueMask ← v.fMask[slot * v.maskStep]?
  if valueMask.FirstEntry ≠ requestedMask.FirstEntry then
    -- new bulk
    let valueMask := (valueMask.SetAll false).SetFirstEntry requestedMask.FirstEntry
    let v := { v with fMask := v.fMask.set (slot * v.maskStep) valueMask }
    loadAndLoop v slot requestedMask bulkSize 0
  else
    let firstNewIdx := valueMask.Contains requestedMask bulkSize
    if firstNewIdx = sizeMax then
      some (v, [])
    else
      loadAndLoop v slot requestedMask bulkSize firstNewIdx

/-- The storage of a slot has its constructed shape and the expression fills it: for a single
column, `nTags` bulks of `cap` rows and an expression returning at least `nTags` values; for
several columns, `nCols ≥ 1` columns of `nTags` bulks of `cap` rows and an expression returning
at least `nCols` vectors of at least `nTags` values. -/
def Fits (e : VaryExpression α γ) (storage : VaryResults γ) (nCols nTags cap : Nat) : Prop :=
  match e, storage with
  | VaryExpression.single f, VaryResults.single st =>
    st.length = nTags ∧ (∀ bulk, bulk ∈ st → bulk.length = cap) ∧ ∀ x, nTags ≤ (f x).length
  | VaryExpression.multi f, VaryResults.multi st =>
    st.length = nCols ∧ 1 ≤ nCols ∧
      (∀ column, column ∈ st → column.length = nTags ∧ ∀ bulk, bulk ∈ column → bulk.length = cap) ∧
      ∀ x c, c < nCols → ∃ t, (f x)[c]? = some t ∧ nTags ≤ t.length
  | _, _ => False

/-- The slot `slot` of the variation is laid out for bulks of capacity `cap`: its mask has `cap`
bits, its reader and value pointers exist, and its storage fits the expression. -/
def SlotReady (v : RVariation α γ) (slot nCols nTags cap : Nat) : Prop :=
  (∃ vm, v.fMask[slot * v.maskStep]? = some vm ∧ vm.fMask.length = cap) ∧
  (∃ st, v.fLastResults[slot * v.resultsStep]? = some st ∧ Fits v.fExpression st nCols nTags cap) ∧
  slot < v.fValueReaders.length ∧ slot < v.fValuePtrs.length

end RVariation

/-- The variation of the scenario: the column `x` varied to `x - 1` (`"x:down"`) and `x + 1`
(`"x:up"`), one slot, bulks of capacity 4, with the given cached mask. -/
def scenarioVariation (cached : RMaskedEntryRange) : RVariation Nat Nat :=
  { fColNames := ["x"], fVariationNames := ["x:down", "x:up"], fInputColumns := ["x"],
    fType := "int", fLoopManager := scenarioLoopManager,
    fExpression := VaryExpression.single (fun x => [x - 1, x + 1]),
    fLastResults := [VaryResults.single [[0, 0, 0, 0], [0, 0, 0, 0]]],
    fValueReaders := [scenarioReader], fValuePtrs := [fun _ => 0], fMask := [cached],
    maskStep := 1, resultsStep := 1 }

/-- The state `v1` differs from `v` at most in the content of `fLastResults`. -/
def RVariation.SameButResults {α γ : Type} (v v1 : RVariation α γ) : Prop :=
  v1.fExpression = v.fExpression ∧ v1.fValueReaders = v.fValueReaders ∧
    v1.fValuePtrs = v.fValuePtrs ∧ v1.fMask = v.fMask ∧ v1.maskStep = v.maskStep ∧
    v1.resultsStep = v.resultsStep ∧ v1.fLastResults.length = v.fLastResults.length

/-- The storage of the slot exists and fits the expression, and the value pointers of the slot
exist. -/
def RVariation.StorageReady {α γ : Type} (v : RVariation α γ) (slot nCols nTags cap : Nat) :
    Prop :=
  slot < v.fValuePtrs.length ∧
    ∃ st, v.fLastResults[slot * v.resultsStep]? = some st ∧
      RVariation.Fits v.fExpression st nCols nTags cap

/-- The storage of a single varied column (empty for a storage of several columns). -/
def VaryResults.singleStorage {γ : Type} : VaryResults γ → List (List γ)
  | VaryResults.single st => st
  | VaryResults.multi _ => []

/-- The insertion `m.insert({key, x})` in a `std::unordered_map<std::string, T>`: an existing
entry of `key` is kept. -/
def mapInsert {γ : Type} (m : List (String × γ)) (key : String) (x : γ) : List (String × γ) :=
  match mapFind m key with
  | some _ => m
  | none => mapAssign m key x

/-- A shared pointer to a node of the computation graph: the loop manager, or the filter with
the given identity. -/
inductive NodeRef where
  | loopManager
  | filter (id : Nat)
deriving DecidableEq, Repr

/-- An `RFilter` object of a computation graph: its state, its predecessor `fPrevNodePtr` and its
registry `fVariedFilters` of varied filters. -/
structure RFilterNode (α : Type) where
  state : RFilter α
  fPrevNodePtr : NodeRef
  fVariedFilters : List (String × NodeRef)

/-- A computation graph: the loop manager and the filters constructed so far; the identity of a
filter is its position in `nodes`.  The other members stand for what the sources at hand do not
give: the `CacheLineStep` constants, the null reader and value pointer of fresh vectors, and
`filterVariations prevVariations columns`, the variations that the constructor of `RFilterBase`
computes for a filter from those of its predecessor and from its columns. -/
structure RGraph (α : Type) where
  fLoopManager : RLoopManager
  nodes : List (RFilterNode α)
  maskStep : Nat
  counterStep : Nat
  nullReader : RColumnReaderBase α
  nullPtr : Nat → α
  filterVariations : List String → List String → List String

/-- The outcome of `GetVariedFilter`: the pointer returned, or the failure of one of its
assertions.  The last two outcomes belong to the embedding: a pointer to a filter that is not in
the graph, and recursion that did not reach the loop manager within the fuel given. -/
inductive VariedResult where
  | ok (ref : NodeRef)
  | assertion
  | dangling
  | fuel
deriving DecidableEq, Repr

namespace RFilter

variable {α : Type}

/-- The constructor `RFilter(f, columns, pd, colRegister, name, variationName)`.  The members set
by the constructor of `RFilterBase`, which is not part of the sources at hand, are modelled from
the spec: name, column names, variations and variation name as given, children and stop counts
at zero, and per slot an unset mask and zero counters.  The registration with the loop manager
has no counterpart here. -/
def construct (nullReader : RColumnReaderBase α) (nullPtr : Nat → α) (f : α → Bool)
    (columns variations : List String) (lm : RLoopManager) (maskStep counterStep : Nat)
    (name variationName : String) : RFilter α :=
  { fName := name, fVariation := variationName, fVariations := variations,
    fColumnNames := columns, fNChildren := 0, fNStopsReceived := 0, fFilter := f,
    fValueReaders := List.replicate lm.fNSlots nullReader,
    fValuePtrs := List.replicate lm.fNSlots nullPtr,
    fMask := List.replicate (lm.fNSlots * maskStep)
      (RMaskedEntryRange.unset lm.fMaxEventsPerBulk),
    fAccepted := List.replicate (lm.fNSlots * counterStep) 0,
    fRejected := List.replicate (lm.fNSlots * counterStep) 0,
    maskStep := maskStep, counterStep := counterStep }

end RFilter

namespace RGraph

variable {α : Type}

/-- The call `GetVariations()` on the node a pointer designates (none for the loop manager). -/
def GetVariations (g : RGraph α) : NodeRef → List String
  | NodeRef.loopManager => []
  | NodeRef.filter id =>
    match g.nodes[id]? with
    | some node => node.state.fVariations
    | none => []

/-- The resolution of the predecessor in `GetVariedFilter`: the nominal predecessor, or the
result of `GetVariedFilter` on it (`recurse`) when it is not the loop manager and has the
variation among its variations. -/
def resolvePrev (recurse : RGraph α → Nat → String → RGraph α × VariedResult) (g : RGraph α)
    (fPrevNodePtr : NodeRef) (variationName : String) : RGraph α × VariedResult :=
  match fPrevNodePtr with
  | NodeRef.loopManager => (g, VariedResult.ok NodeRef.loopManager)
  | NodeRef.filter pid =>
    match g.nodes[pid]? with
    | none => (g, VariedResult.dangling)
    | some prev =>
      if variationName ∈ prev.state.fVariations then recurse g pid variationName
      else (g, VariedResult.ok (NodeRef.filter pid))

/-- The end of `GetVariedFilter`: the varied filter is constructed on `prevNode` with the
predicate, the column names and the name of the filter `id`, and inserted in the registry of
that filter; the pointer the registry holds for the variation after the insertion is returned
(when the registry already holds one, the insertion does nothing and the filter just constructed
is destroyed). -/
def attach (g : RGraph α) (id : Nat) (variationName : String) (prevNode : NodeRef) :
    RGraph α × VariedResult :=
  match g.nodes[id]? with
  | none => (g, VariedResult.dangling)
  | some node =>
    let variedFilter := RFilter.construct g.nullReader g.nullPtr node.state.fFilter
      node.state.fColumnNames
      (g.filterVariations (g.GetVariations prevNode) node.state.fColumnNames)
      g.fLoopManager g.maskStep g.counterStep node.state.fName variationName
    match mapFind node.fVariedFilters variationName with
    | some ref => (g, VariedResult.ok ref)
    | none =>
      let newRef := NodeRef.filter g.nodes.length
      let nodes := g.nodes ++ [{ state := variedFilter, fPrevNodePtr := prevNode,
                                 fVariedFilters := [] }]
      let registry := mapInsert node.fVariedFilters variationName newRef
      ({ g with nodes := nodes.set id { node with fVariedFilters := registry } },
        VariedResult.ok newRef)

/-- The method `GetVariedFilter(variationName)` of the filter `id`.  Returns the graph after the
call and the outcome.  The recursion on the predecessor is bounded by `fuel`. -/
def GetVariedFilter : Nat → RGraph α → Nat → String → RGraph α × VariedResult
  | 0, g, _, _ => (g, VariedResult.fuel)
  | fuel + 1, g, id, variationName =>
    match g.nodes[id]? with
    | none => (g, VariedResult.dangling)
    | some node =>
      -- Only the nominal filter should be asked to produce varied filters
      if node.state.fVariation ≠ "nominal" then (g, VariedResult.assertion)
      -- nobody should ask for a varied filter for the nominal variation
      else if variationName = "nominal" then (g, VariedResult.assertion)
      -- nor for a variation on which this filter does not depend
      else if variationName ∉ node.state.fVariations then (g, VariedResult.assertion)
      else
        match mapFind node.fVariedFilters variationName with
        | some ref => (g, VariedResult.ok ref)
        | none =>
          match resolvePrev (GetVariedFilter fuel) g node.fPrevNodePtr variationName with
          | (g1, VariedResult.ok prevNode) => attach g1 id variationName prevNode
          | (g1, failure) => (g1, failure)

end RGraph

/-- A graph of two nominal filters: `"cut1"` (filter 0) on the loop manager, depending on the
variation `"x:up"`, and `"cut2"` (filter 1) on `"cut1"`, depending on `"x:up"` and `"y:up"`. -/
def scenarioGraph : RGraph Nat :=
  { fLoopManager := scenarioLoopManager,
    nodes := [
      { state := RFilter.construct scenarioBlank.nullReader scenarioBlank.nullPtr
          (fun x => decide (2 < x)) ["x"] ["x:up"] scenarioLoopManager 1 1 "cut1" "nominal",
        fPrevNodePtr := NodeRef.loopManager, fVariedFilters := [] },
      { state := RFilter.construct scenarioBlank.nullReader scenarioBlank.nullPtr
          (fun x => decide (x < 4)) ["x"] ["x:up", "y:up"] scenarioLoopManager 1 1 "cut2"
          "nominal",
        fPrevNodePtr := NodeRef.filter 0, fVariedFilters := [] }],
    maskStep := 1, counterStep := 1, nullReader := scenarioBlank.nullReader,
    nullPtr := scenarioBlank.nullPtr, filterVariations := fun prev _ => prev }

/-- The observable part of a graph: for each filter its name, its variation, its predecessor and
its registry of varied filters. -/
def RGraph.shape {α : Type} (g : RGraph α) :
    List (String × String × NodeRef × List (String × NodeRef)) :=
  g.nodes.map (fun n => (n.state.fName, n.state.fVariation, n.fPrevNodePtr, n.fVariedFilters))

/-- The graph `g1` extends `g` for the variation `t`: every filter of `g` is in `g1` with the
same state and predecessor and with a registry that differs at most by a new entry for `t`, which
then designates a filter that is not in `g`. -/
def RGraph.Extends {α : Type} (t : String) (g g1 : RGraph α) : Prop :=
  g.nodes.length ≤ g1.nodes.length ∧
    ∀ (i : Nat) (node : RFilterNode α), g.nodes[i]? = some node →
      ∃ node1 : RFilterNode α, g1.nodes[i]? = some node1 ∧ node1.state = node.state ∧
        node1.fPrevNodePtr = node.fPrevNodePtr ∧
        (∀ k, k ≠ t → mapFind node1.fVariedFilters k = mapFind node.fVariedFilters k) ∧
        (∀ r, mapFind node.fVariedFilters t = some r →
          mapFind node1.fVariedFilters t = some r) ∧
        (∀ r, mapFind node1.fVariedFilters t = some r →
          mapFind node.fVariedFilters t = some r ∨
            ∃ j, r = NodeRef.filter j ∧ g.nodes.length ≤ j ∧ j < g1.nodes.length)

namespace RGraph

variable {α : Type}

/-- The predecessor of the filter `i` is the loop manager, or a nominal filter of the graph that
was constructed before the filter `i`. -/
def prevOk (g : RGraph α) (i : Nat) (node : RFilterNode α) : Bool :=
  match node.fPrevNodePtr with
  | NodeRef.loopManager => true
  | NodeRef.filter p =>
    decide (p < i) &&
      (match g.nodes[p]? with
        | some prev => decide (prev.state.fVariation = "nominal")
        | none => false)

/-- The graph is as the construction of nominal filters leaves it: every nominal filter hangs on
the loop manager or on a nominal filter constructed before it. -/
def Forward (g : RGraph α) : Prop :=
  ∀ (i : Nat) (node : RFilterNode α), g.nodes[i]? = some node →
    node.state.fVariation = "nominal" → g.prevOk i node = true

/-- The registry of the filter `id` holds pointers to filters of the graph, and no two variations
share one. -/
def RegistryInv (g : RGraph α) (id : Nat) : Prop :=
  ∀ node : RFilterNode α, g.nodes[id]? = some node →
    (∀ k r, mapFind node.fVariedFilters k = some r →
      ∃ j, r = NodeRef.filter j ∧ j < g.nodes.length) ∧
    ∀ k1 k2 r, mapFind node.fVariedFilters k1 = some r →
      mapFind node.fVariedFilters k2 = some r → k1 = k2

/-- The graph after a sequence of calls `GetVariedFilter(variationName)`, each given by its fuel,
the filter it is called on and the variation. -/
def GetVariedFilterSeq (g : RGraph α) : List (Nat × Nat × String) → RGraph α
  | [] => g
  | call :: rest => GetVariedFilterSeq (g.GetVariedFilter call.1 call.2.1 call.2.2).1 rest

end RGraph

namespace RNode

variable {α : Type}

/-- Every filter of the chain is unnamed and has `fNChildren` and `fNStopsReceived` at zero. -/
def UnnamedFresh : RNode α → Prop
  | loopManager _ => True
  | filter f prev =>
    f.fName = "" ∧ f.fNChildren = 0 ∧ f.fNStopsReceived = 0 ∧ UnnamedFresh prev

/-- Every filter of the chain has `fNChildren` equal to `k`. -/
def AllChildrenCount : RNode α → Nat → Prop
  | loopManager _, _ => True
  | filter f prev, k => f.fNChildren = k ∧ AllChildrenCount prev k

/-- Every filter of the chain has one child and has received no stop. -/
def Armed : RNode α → Prop
  | loopManager _ => True
  | filter f prev => f.fNChildren = 1 ∧ f.fNStopsReceived = 0 ∧ Armed prev

end RNode

/-- A chain of three unnamed scenario filters on the loop manager of the scenario, with all
counters at zero. -/
def scenarioUnnamedChain : RNode Nat :=
  RNode.filter (scenarioConsumer "" 0 0)
    (RNode.filter (scenarioConsumer "" 0 0) (scenarioConsumerChain "" 0 0))

/-- The computed column `y = 2 * x` of the scenario with a batched expression: the expression
writes `2 * x` in the buffer for the rows that the event mask marks below its size and leaves
the other elements of the buffer as they are. -/
def scenarioBulkDefine (cached : RMaskedEntryRange) : RDefine Nat Nat :=
  { scenarioDefine cached with
    fExpression := DefineExpression.bulk (fun m results xs =>
      (List.range results.length).map (fun i =>
        if m.fMask.bit i && decide (i < m.Size) then 2 * xs.getD i 0 else results.getD i 0)) }

/-- Modelled from the spec: one entry of a cut-flow report (`RCutFlowReport` is not part of the
sources at hand): the name of a filter with its pass and fail counts. -/
structure TCutInfo where
  fName : String
  fPass : Nat
  fFail : Nat
deriving DecidableEq, Repr

namespace RFilter

variable {α : Type}

/-- The entry of a filter in a cut-flow report: its name and its accepted and rejected counters
accumulated over the slots (`ULong64_t` additions). -/
def cutInfo (f : RFilter α) : TCutInfo :=
  { fName := f.fName,
    fPass := f.fAccepted.foldl (fun a b => wrap64 (a + b)) 0,
    fFail := f.fRejected.foldl (fun a b => wrap64 (a + b)) 0 }

/-- Modelled from the spec: the method `FillReport(rep)` of `RFilterBase`, which is not part of
the sources at hand.  A named filter adds its entry at the end of the report; an unnamed filter
is skipped. -/
def FillReport (f : RFilter α) (rep : List TCutInfo) : List TCutInfo :=
  if f.fName = "" then rep else rep ++ [f.cutInfo]

end RFilter

namespace RNode

variable {α : Type}

/-- The method `PartialReport(rep)`: the predecessor reports first, then `FillReport(rep)`.
Returns the report and the levels of the filters on which `FillReport` was invoked, in order.
On the loop manager, whose sources are not at hand, nothing is added (modelled from the spec:
counts belong to filters). -/
def PartialReport : RNode α → List TCutInfo → List TCutInfo × List Nat
  | loopManager _, rep => (rep, [])
  | filter f prev, rep =>
    let r := prev.PartialReport rep
    (f.FillReport r.1, r.2 ++ [prev.level + 1])

/-- The method `Report(rep)`, whose body in `RFilter` is the call `PartialReport(rep)`. -/
def Report (node : RNode α) (rep : List TCutInfo) : List TCutInfo × List Nat :=
  node.PartialReport rep

/-- The filters of a chain, from the one next to the source to the last one. -/
def filters : RNode α → List (RFilter α)
  | loopManager _ => []
  | filter f prev => prev.filters ++ [f]

end RNode

/-- A chain of an unnamed scenario filter followed by the scenario filter named `"cut"`. -/
def scenarioReportChain : RNode Nat :=
  RNode.filter (scenarioConsumer "cut" 0 0) (scenarioConsumerChain "" 0 0)

/-- A chain of the scenario filters named `"a"` and `"b"`, `"a"` next to the source. -/
def scenarioNamedChain : RNode Nat :=
  RNode.filter (scenarioConsumer "b" 0 0) (scenarioConsumerChain "a" 0 0)

/-- The method `RFilter::InitSlot(r, slot)`: `fValueReaders[slot]` receives the readers resolved
for the slot (`GetColumnReaders`, external, given here as `readers`), and
`fMask[slot].SetFirstEntry(-1)`. -/
def RFilter.InitSlot {α : Type} (f : RFilter α) (readers : RColumnReaderBase α) (slot : Nat) :
    Option (RFilter α) := do
  let fValueReaders ← assignAt f.fValueReaders slot readers
  let mask ← f.fMask[slot]?
  some { f with fValueReaders := fValueReaders,
                fMask := f.fMask.set slot (mask.SetFirstEntry (-1)) }

/-- The method `RVariation::InitSlot(r, slot)`: `fValueReaders[slot]` receives the readers
resolved for the slot, and `fMask[slot].SetFirstEntry(-1)`. -/
def RVariation.InitSlot {α γ : Type} (v : RVariation α γ) (readers : RColumnReaderBase α)
    (slot : Nat) : Option (RVariation α γ) := do
  let fValueReaders ← assignAt v.fValueReaders slot readers
  let mask ← v.fMask[slot]?
  some { v with fValueReaders := fValueReaders,
                fMask := v.fMask.set slot (mask.SetFirstEntry (-1)) }

/-- The method `RDefine::InitSlot(r, slot)`: `fValueReaders[slot]` receives the readers resolved
for the slot, and `fMask[slot * CacheLineStep<RMaskedEntryRange>()].SetFirstEntry(-1)`. -/
def RDefine.InitSlot {α β : Type} (d : RDefine α β) (readers : RColumnReaderBase α)
    (slot : Nat) : Option (RDefine α β) := do
  let fValueReaders ← assignAt d.fValueReaders slot readers
  let mask ← d.fMask[slot * d.maskStep]?
  some { d with fValueReaders := fValueReaders,
                fMask := d.fMask.set (slot * d.maskStep) (mask.SetFirstEntry (-1)) }

/-- The scenario filter laid out for three slots with a cache-line step of 2: six mask entries,
of which slot `s` uses the entry `2 * s`, all holding the bulk stamped `5` of an earlier task in
which rows 2 and 3 passed. -/
def scenarioFilterSlots : RFilter Nat :=
  { scenarioFilter ⟨[false, false, true, true], 5⟩ with
    fValueReaders := List.replicate 3 scenarioReader,
    fValuePtrs := List.replicate 3 (fun _ => 0),
    fMask := List.replicate 6 ⟨[false, false, true, true], 5⟩,
    fAccepted := List.replicate 6 0, fRejected := List.replicate 6 0,
    maskStep := 2, counterStep := 2 }

/-- The scenario variation laid out for three slots with a cache-line step of 2 for the masks:
six mask entries, of which slot `s` uses the entry `2 * s`, all holding the bulk stamped `5` of
an earlier task with every row computed. -/
def scenarioVariationSlots : RVariation Nat Nat :=
  { scenarioVariation ⟨[true, true, true, true], 5⟩ with
    fLastResults := List.replicate 3 (VaryResults.single [[0, 0, 0, 0], [0, 0, 0, 0]]),
    fValueReaders := List.replicate 3 scenarioReader,
    fValuePtrs := List.replicate 3 (fun _ => 0),
    fMask := List.replicate 6 ⟨[true, true, true, true], 5⟩,
    maskStep := 2, resultsStep := 1 }

/-- The index `std::distance(l.begin(), std::find(l.begin(), l.end(), x))`: the position of the
first occurrence of `x` in `l`, or the length of `l` when `std::find` returns `l.end()`. -/
def distanceToFind : List String → String → Nat
  | [], _ => 0
  | y :: rest, x => if y = x then 0 else distanceToFind rest x + 1

/-- The address `GetValuePtr` returns: the start (element 0) of the vector over the rows of the
bulk found in the storage `fLastResults[storage]` at `[varIdx]` (single column) or at
`[colIdx][varIdx]` (several columns). -/
inductive ValueAddress where
  | single (storage varIdx : Nat)
  | multi (storage colIdx varIdx : Nat)
deriving DecidableEq, Repr

/-- The outcome of `GetValuePtr`: the address, the failure of one of its assertions, or an
access out of the range of a vector. -/
inductive ValuePtrResult where
  | ok (address : ValueAddress)
  | assertion
  | outOfRange
deriving DecidableEq, Repr

namespace VaryResults

variable {γ : Type}

/-- The element of the storage for column `c`, variation `t` and row `i`; a storage for a single
column has no column index. -/
def value : VaryResults γ → Nat → Nat → Nat → Option γ
  | single st, _, t, i => (st[t]?).bind (fun bulk => bulk[i]?)
  | multi st, c, t, i => (st[c]?).bind (fun column => (column[t]?).bind (fun bulk => bulk[i]?))

/-- The storage has the shape that `ResizeResults(storage, nCols, nTags, cap)` gives it. -/
def Shaped : VaryResults γ → Nat → Nat → Nat → Prop
  | single st, _, nTags, cap => st.length = nTags ∧ ∀ bulk, bulk ∈ st → bulk.length = cap
  | multi st, nCols, nTags, cap =>
    st.length = nCols ∧
      ∀ column, column ∈ st → column.length = nTags ∧ ∀ bulk, bulk ∈ column → bulk.length = cap

end VaryResults

/-- The value that the expression returns on the input values `x` for column `c` and variation
`t`; an expression for a single column has no column index. -/
def VaryExpression.returned {α γ : Type} : VaryExpression α γ → α → Nat → Nat → Option γ
  | VaryExpression.single f, x, _, t => (f x)[t]?
  | VaryExpression.multi f, x, c, t => ((f x)[c]?).bind (fun column => column[t]?)

namespace RVariation

variable {α γ : Type}

/-- The two overloads of `ResizeResults`, selected by the shape of the expression: `nVariations`
vectors of `maxBulkSize` elements for a single column, `nCols` times that otherwise. -/
def ResizeResults (e : VaryExpression α γ) (zero : γ) (nCols nVariations maxBulkSize : Nat) :
    VaryResults γ :=
  match e with
  | VaryExpression.single _ =>
    VaryResults.single (List.replicate nVariations (List.replicate maxBulkSize zero))
  | VaryExpression.multi _ =>
    VaryResults.multi
      (List.replicate nCols (List.replicate nVariations (List.replicate maxBulkSize zero)))

/-- The constructor of `RVariation`.  The members set by the constructor of `RVariationBase`,
which is not part of the sources at hand, are modelled from the spec: the column names, the
names of the variations (one per tag), the type and the input columns as given, and one unset
mask per slot. -/
def construct (blank : Blank α γ) (colNames variationNames : List String)
    (expression : VaryExpression α γ) (type : String) (lm : RLoopManager)
    (inputColNames : List String) (maskStep resultsStep : Nat) : RVariation α γ :=
  { fColNames := colNames, fVariationNames := variationNames, fInputColumns := inputColNames,
    fType := type, fLoopManager := lm, fExpression := expression,
    fLastResults := List.replicate (lm.fNSlots * resultsStep)
      (ResizeResults expression blank.zero colNames.length variationNames.length
        lm.fMaxEventsPerBulk),
    fValueReaders := List.replicate lm.fNSlots blank.nullReader,
    fValuePtrs := List.replicate lm.fNSlots blank.nullPtr,
    fMask := List.replicate (lm.fNSlots * maskStep)
      (RMaskedEntryRange.unset lm.fMaxEventsPerBulk),
    maskStep := maskStep, resultsStep := resultsStep }

/-- The two overloads of `GetValuePtrHelper`: `&v[varIdx][0]` and `&v[colIdx][varIdx][0]`;
`none` when one of the three indices is out of range. -/
def GetValuePtrHelper (storage : Nat) : VaryResults γ → Nat → Nat → Option ValueAddress
  | VaryResults.single v, _, varIdx => do
    let bulk ← v[varIdx]?
    let _ ← bulk[0]?
    some (ValueAddress.single storage varIdx)
  | VaryResults.multi v, colIdx, varIdx => do
    let column ← v[colIdx]?
    let bulk ← column[varIdx]?
    let _ ← bulk[0]?
    some (ValueAddress.multi storage colIdx varIdx)

/-- The method `GetValuePtr(slot, column, variation)`. -/
def GetValuePtr (v : RVariation α γ) (slot : Nat) (column variation : String) :
    ValuePtrResult :=
  let colIdx := distanceToFind v.fColNames column
  -- assert(colIt != fColNames.end())
  if colIdx = v.fColNames.length then ValuePtrResult.assertion
  else
    let varIdx := distanceToFind v.fVariationNames variation
    -- assert(varIt != fVariationNames.end())
    if varIdx = v.fVariationNames.length then ValuePtrResult.assertion
    else
      match v.fLastResults[slot * v.resultsStep]? with
      | none => ValuePtrResult.outOfRange
      | some storage =>
        match GetValuePtrHelper (slot * v.resultsStep) storage colIdx varIdx with
        | some address => ValuePtrResult.ok address
        | none => ValuePtrResult.outOfRange

/-- The vector over the rows of the bulk that an address designates. -/
def bulkAt (v : RVariation α γ) : ValueAddress → Option (List γ)
  | ValueAddress.single storage varIdx =>
    match v.fLastResults[storage]? with
    | some (VaryResults.single st) => st[varIdx]?
    | _ => none
  | ValueAddress.multi storage colIdx varIdx =>
    match v.fLastResults[storage]? with
    | some (VaryResults.multi st) => (st[colIdx]?).bind (fun column => column[varIdx]?)
    | _ => none

end RVariation

/-- The variation of the scenario for two columns varied jointly: `x` and `z` varied to
`(x - 1, 10 * x)` for `"xz:down"` and `(x + 1, 20 * x)` for `"xz:up"`, one slot, bulks of
capacity 4, with the given cached mask. -/
def scenarioJointVariation (cached : RMaskedEntryRange) : RVariation Nat Nat :=
  { fColNames := ["x", "z"], fVariationNames := ["xz:down", "xz:up"], fInputColumns := ["x"],
    fType := "int", fLoopManager := scenarioLoopManager,
    fExpression := VaryExpression.multi (fun x => [[x - 1, x + 1], [10 * x, 20 * x]]),
    fLastResults := [VaryResults.multi [[[0, 0, 0, 0], [0, 0, 0, 0]],
                                       [[0, 0, 0, 0], [0, 0, 0, 0]]]],
    fValueReaders := [scenarioReader], fValuePtrs := [fun _ => 0], fMask := [cached],
    maskStep := 1, resultsStep := 1 }

/-- The element for variation `t` and row `i` of a storage for a single column. -/
def VaryResults.value2 {γ : Type} (st : List (List γ)) (t i : Nat) : Option γ :=
  (st[t]?).bind (fun bulk => bulk[i]?)

/-- The element for column `c`, variation `t` and row `i` of a storage for several columns. -/
def VaryResults.value3 {γ : Type} (st : List (List (List γ))) (c t i : Nat) : Option γ :=
  (st[c]?).bind (fun column => VaryResults.value2 column t i)

/-- The scenario variation with an expression that returns three values for its two declared
variations. -/
def scenarioSurplusVariation (cached : RMaskedEntryRange) : RVariation Nat Nat :=
  { scenarioVariation cached with
    fExpression := VaryExpression.single (fun x => [x - 1, x + 1, 100]) }

/-- The scenario variation with an expression that returns one value for its two declared
variations. -/
def scenarioShortVariation (cached : RMaskedEntryRange) : RVariation Nat Nat :=
  { scenarioVariation cached with
    fExpression := VaryExpression.single (fun x => [x - 1]) }

namespace RNode

variable {α : Type}

/-- A sequence of `CheckFilters` calls on the last filter of a chain for one slot, each given by
its entry stamp and its bulk size. -/
def CheckFiltersSeq (slot : Nat) : RNode α → List (Int × Nat) → Option (RNode α)
  | node, [] => some node
  | node, c :: rest =>
    (node.CheckFilters slot c.1 c.2).bind (fun r => CheckFiltersSeq slot r.1 rest)

/-- The number of rows that the last node of a chain has let through for the slot: the accepted
counter of a filter, and `S` for the source. -/
def passed : RNode α → Nat → Nat → Nat
  | loopManager _, _, S => S
  | filter f _, slot, _ => (f.fAccepted[slot * f.counterStep]?).getD 0

/-- The counters of the slot are consistent along the chain: for every filter, accepted plus
rejected is the number of rows its predecessor has let through, the source having let through
`S` rows. -/
def Flow : RNode α → Nat → Nat → Prop
  | loopManager _, _, _ => True
  | filter f prev, slot, S =>
    (∃ a r, f.fAccepted[slot * f.counterStep]? = some a ∧
      f.fRejected[slot * f.counterStep]? = some r ∧ a + r = prev.passed slot S) ∧
    Flow prev slot S

/-- Cut-flow consistency: for every filter whose predecessor is a filter, accepted plus rejected
for the slot is the accepted counter of the predecessor, and accepted is not above it. -/
def CutFlowOk : RNode α → Nat → Prop
  | loopManager _, _ => True
  | filter f prev, slot =>
    (match prev with
      | loopManager _ => True
      | filter g _ =>
        ∃ a r p, f.fAccepted[slot * f.counterStep]? = some a ∧
          f.fRejected[slot * f.counterStep]? = some r ∧
          g.fAccepted[slot * g.counterStep]? = some p ∧ a + r = p ∧ a ≤ p) ∧
    CutFlowOk prev slot

/-- No filter of the chain has a cached stamp for the slot among `stamps`. -/
def StampsAvoid : RNode α → Nat → List Int → Prop
  | loopManager _, _, _ => True
  | filter f prev, slot, stamps =>
    (∀ m, f.fMask[slot * f.maskStep]? = some m → m.FirstEntry ∉ stamps) ∧
    StampsAvoid prev slot stamps

/-- The accepted and rejected counters of the slot are zero in every filter of the chain. -/
def CountersZero : RNode α → Nat → Prop
  | loopManager _, _ => True
  | filter f prev, slot =>
    f.fAccepted[slot * f.counterStep]? = some 0 ∧ f.fRejected[slot * f.counterStep]? = some 0 ∧
    CountersZero prev slot

/-- The number of rows the source lets through in a sequence of calls. -/
def sourceRows (lm : RLoopManager) (slot : Nat) (calls : List (Int × Nat)) : Nat :=
  (calls.map (fun c => (lm.CheckFilters slot c.1 c.2).Count c.2)).sum

end RNode

/-- A chain of the scenario filter `x > 2` followed by a filter `x > 3`, both after `InitSlot`
(stamp `-1`) with zero counters. -/
def scenarioCutFlowChain : RNode Nat :=
  RNode.filter { scenarioFilter ⟨[true, true, true, true], -1⟩ with
                 fFilter := fun x => decide (3 < x) }
    (scenarioChain ⟨[true, true, true, true], -1⟩)

/-- Modelled from the spec: the method `HasName()` of `RFilterBase`, which is not part of the
sources at hand.  A filter is named when its name is not empty, the test `fName.empty()` that
`IncrChildrenCount` and `TriggerChildrenCount` make. -/
def RFilter.HasName {α : Type} (f : RFilter α) : Bool := !decide (f.fName = "")

/-- Modelled from the spec: the method `AddFilterName(filters)` of the loop manager, whose
sources are not at hand.  The source of a chain is not a filter and adds no name. -/
def RLoopManager.AddFilterName (_lm : RLoopManager) (filters : List String) : List String :=
  filters

namespace RNode

variable {α : Type}

/-- The method `AddFilterName(filters)`: the predecessor adds its names first, then the name of
the filter, or `"Unnamed Filter"` when it has none, is pushed at the back.  Returns the vector
after the call. -/
def AddFilterName : RNode α → List String → List String
  | loopManager lm, filters => lm.AddFilterName filters
  | filter f prev, filters =>
    let filters := prev.AddFilterName filters
    let name := if f.HasName then f.fName else "Unnamed Filter"
    filters ++ [name]

end RNode

/-- A chain of three scenario filters: `"a"` next to the source, an unnamed one, and `"b"`. -/
def scenarioMixedChain : RNode Nat :=
  RNode.filter (scenarioConsumer "b" 0 0)
    (RNode.filter (scenarioConsumer "" 0 0) (scenarioConsumerChain "a" 0 0))

/-! ## Theorems -/

namespace RDefine

variable {α β : Type}

theorem applyRow_isSome (e : DefineExpression α β) (h : e.kUsingBulkAPI = false) (slot : Nat)
    (entry : Int) (x : α) : ∃ v, applyRow e slot entry x = some v := by
  cases e <;> simp_all [applyRow, DefineExpression.kUsingBulkAPI]

theorem bit_of_getElem? {m : RMaskedEntryRange} {i : Nat} {b : Bool} (h : m.fMask[i]? = some b) :
    m.bit i = b := by
  simp [RMaskedEntryRange.bit, List.getD, h]

theorem newBulkLoop_spec (d : RDefine α β) (slot : Nat) (req : RMaskedEntryRange) (start : Int)
    (view : Nat → α) (hv : d.fValuePtrs[slot]? = some view)
    (hrow : d.fExpression.kUsingBulkAPI = false) :
    ∀ (k i : Nat) (res : List β), i + k ≤ req.fMask.length → i + k ≤ res.length →
      ∃ res1, newBulkLoop d slot req start i k res = some (res1, rowCalls req.bit i k) ∧
        res1.length = res.length ∧
        ∀ j, res1[j]? = if i ≤ j ∧ j < i + k ∧ req.bit j = true
          then applyRow d.fExpression slot (start + j) (view j) else res[j]? := by
  intro k
  induction k with
  | zero =>
    intro i res _ _
    refine ⟨res, by simp [newBulkLoop, rowCalls], rfl, ?_⟩
    intro j
    have : ¬ (i ≤ j ∧ j < i + 0 ∧ req.bit j = true) := by omega
    rw [if_neg this]
  | succ k ih =>
    intro i res hreq hres
    have hi : i < req.fMask.length := by omega
    obtain ⟨v, hvv⟩ := applyRow_isSome d.fExpression hrow slot (start + (i : Int)) (view i)
    have hget : req.fMask[i]? = some req.fMask[i] := List.getElem?_eq_getElem hi
    have hD : req.bit i = req.fMask[i] := bit_of_getElem? hget
    have hstep : ∀ j, j ≠ i → ((i + 1 ≤ j ∧ j < i + 1 + k ∧ req.bit j = true) ↔
        (i ≤ j ∧ j < i + (k + 1) ∧ req.bit j = true)) := by
      intro j hj
      constructor
      · rintro ⟨a, b, c⟩; exact ⟨by omega, by omega, c⟩
      · rintro ⟨a, b, c⟩; exact ⟨by omega, by omega, c⟩
    cases hb : req.fMask[i] with
    | false =>
      rw [hb] at hget hD
      obtain ⟨res1, h1, h2, h3⟩ := ih (i + 1) res (by omega) (by omega)
      refine ⟨res1, ?_, h2, ?_⟩
      · simp [newBulkLoop, RMaskedEntryRange.get, hget, h1, rowCalls, List.range'_succ, hD]
      · intro j
        rw [h3 j]
        by_cases hj : j = i
        · subst hj
          rw [if_neg (by omega), if_neg (by simp [hD])]
        · simp only [hstep j hj]
    | true =>
      rw [hb] at hget hD
      have hlen : (res.set i v).length = res.length := by simp
      obtain ⟨res1, h1, h2, h3⟩ := ih (i + 1) (res.set i v) (by omega) (by omega)
      refine ⟨res1, ?_, by omega, ?_⟩
      · have hi2 : i < res.length := by omega
        simp [newBulkLoop, RMaskedEntryRange.get, hget, h1, rowCalls, List.range'_succ, hD,
          EvalExpr, hv, hvv, assignAt, hi2]
      · intro j
        rw [h3 j]
        by_cases hj : j = i
        · subst hj
          have hi2 : j < res.length := by omega
          rw [if_neg (by omega), if_pos ⟨le_refl _, by omega, hD⟩, hvv]
          simp [hi2]
        · have hne : i ≠ j := fun h => hj h.symm
          simp only [hstep j hj, List.getElem?_set_ne hne]

theorem bit_set_true (vm : RMaskedEntryRange) (i : Nat) (hi : i < vm.fMask.length) :
    ∃ vm1, vm.set i true = some vm1 ∧ vm1.fBegin = vm.fBegin ∧
      vm1.fMask.length = vm.fMask.length ∧
      ∀ j, vm1.bit j = if j = i then true else vm.bit j := by
  refine ⟨{ vm with fMask := vm.fMask.set i true }, by simp [RMaskedEntryRange.set, hi], rfl,
    by simp, ?_⟩
  intro j
  by_cases hj : j = i
  · subst hj
    simp [RMaskedEntryRange.bit, List.getD, hi]
  · have hne : i ≠ j := fun h => hj h.symm
    simp [RMaskedEntryRange.bit, List.getD, List.getElem?_set_ne hne, hj]

theorem rowCalls_congr (p q : Nat → Bool) (i k : Nat)
    (h : ∀ j, i ≤ j → j < i + k → p j = q j) : rowCalls p i k = rowCalls q i k := by
  unfold rowCalls
  congr 1
  apply List.filter_congr
  intro j hj
  rw [List.mem_range'_1] at hj
  exact h j hj.1 hj.2

theorem gapLoop_spec (d : RDefine α β) (slot : Nat) (req : RMaskedEntryRange) (start : Int)
    (view : Nat → α) (hv : d.fValuePtrs[slot]? = some view)
    (hrow : d.fExpression.kUsingBulkAPI = false) :
    ∀ (k i : Nat) (res : List β) (vm : RMaskedEntryRange), i + k ≤ req.fMask.length →
      i + k ≤ res.length → i + k ≤ vm.fMask.length →
      ∃ res1 vm1, gapLoop d slot req start i k res vm
          = some (res1, vm1, rowCalls (fun j => req.bit j && !vm.bit j) i k) ∧
        res1.length = res.length ∧ vm1.fBegin = vm.fBegin ∧
        vm1.fMask.length = vm.fMask.length ∧
        (∀ j, vm1.bit j = (vm.bit j || (decide (i ≤ j ∧ j < i + k) && req.bit j))) ∧
        ∀ j, res1[j]? = if i ≤ j ∧ j < i + k ∧ req.bit j = true ∧ vm.bit j = false
          then applyRow d.fExpression slot (start + j) (view j) else res[j]? := by
  intro k
  induction k with
  | zero =>
    intro i res vm _ _ _
    refine ⟨res, vm, by simp [gapLoop, rowCalls], rfl, rfl, rfl, ?_, ?_⟩
    · intro j
      have : ¬ (i ≤ j ∧ j < i + 0) := by omega
      simp [this]
    · intro j
      have : ¬ (i ≤ j ∧ j < i + 0 ∧ req.bit j = true ∧ vm.bit j = false) := by omega
      rw [if_neg this]
  | succ k ih =>
    intro i res vm hreq hres hvm
    have hi : i < req.fMask.length := by omega
    have hi2 : i < res.length := by omega
    have hi3 : i < vm.fMask.length := by omega
    obtain ⟨v, hvv⟩ := applyRow_isSome d.fExpression hrow slot (start + (i : Int)) (view i)
    have hget : req.fMask[i]? = some req.fMask[i] := List.getElem?_eq_getElem hi
    have hD : req.bit i = req.fMask[i] := bit_of_getElem? hget
    have hgetv : vm.fMask[i]? = some vm.fMask[i] := List.getElem?_eq_getElem hi3
    have hDv : vm.bit i = vm.fMask[i] := bit_of_getElem? hgetv
    have hrange : ∀ j, j ≠ i → ((i + 1 ≤ j ∧ j < i + 1 + k) ↔ (i ≤ j ∧ j < i + (k + 1))) := by
      intro j hj; omega
    by_cases hcond : req.fMask[i] = true ∧ vm.fMask[i] = false
    · obtain ⟨hb, hbv⟩ := hcond
      rw [hb] at hget hD
      rw [hbv] at hgetv hDv
      obtain ⟨vm0, hs0, hs1, hs2, hs3⟩ := bit_set_true vm i hi3
      have hlen : (res.set i v).length = res.length := by simp
      obtain ⟨res1, vm1, h1, h2, h3, h4, h5, h6⟩ :=
        ih (i + 1) (res.set i v) vm0 (by omega) (by omega) (by omega)
      have hcalls : rowCalls (fun j => req.bit j && !vm0.bit j) (i + 1) k
          = rowCalls (fun j => req.bit j && !vm.bit j) (i + 1) k := by
        apply rowCalls_congr
        intro j hj1 hj2
        have : j ≠ i := by omega
        simp [hs3 j, this]
      refine ⟨res1, vm1, ?_, by omega, by rw [h3, hs1], by omega, ?_, ?_⟩
      · rw [hcalls] at h1
        simp [gapLoop, RMaskedEntryRange.get, hget, hgetv, h1, rowCalls, List.range'_succ, hD,
          hDv, EvalExpr, hv, hvv, assignAt, hi2, hs0]
      · intro j
        rw [h5 j, hs3 j]
        by_cases hj : j = i
        · subst hj
          simp [hD]
        · simp [hj, hrange j hj]
      · intro j
        rw [h6 j, hs3 j]
        by_cases hj : j = i
        · subst hj
          rw [if_neg (by omega), if_pos ⟨le_refl _, by omega, hD, hDv⟩, hvv]
          simp [hi2]
        · have hne : i ≠ j := fun h => hj h.symm
          simp only [hj, if_false, List.getElem?_set_ne hne, ← and_assoc, hrange j hj]
    · have hc : (req.bit i && !vm.bit i) = false := by
        rw [hD, hDv]
        cases h1 : req.fMask[i] <;> cases h2 : vm.fMask[i] <;> simp_all
      obtain ⟨res1, vm1, h1, h2, h3, h4, h5, h6⟩ :=
        ih (i + 1) res vm (by omega) (by omega) (by omega)
      refine ⟨res1, vm1, ?_, h2, h3, h4, ?_, ?_⟩
      · have hc2 := hc
        rw [hD, hDv] at hc2
        cases hb : req.fMask[i] <;> cases hbv : vm.fMask[i] <;> simp [hb, hbv] at hcond hc2 <;>
          simp [gapLoop, RMaskedEntryRange.get, hget, hgetv, hb, hbv, h1, rowCalls,
            List.range'_succ, hD, hDv]
      · intro j
        rw [h5 j]
        by_cases hj : j = i
        · subst hj
          have hn : ¬ (j + 1 ≤ j ∧ j < j + 1 + k) := by omega
          have hp : j ≤ j ∧ j < j + (k + 1) := ⟨le_refl _, by omega⟩
          rw [decide_eq_false hn, decide_eq_true hp]
          cases hx : vm.bit j <;> cases hy : req.bit j <;> simp [hx, hy] at hc ⊢
        · simp [hrange j hj]
      · intro j
        rw [h6 j]
        by_cases hj : j = i
        · subst hj
          rw [if_neg (by omega), if_neg]
          rintro ⟨_, _, a, b⟩
          simp [a, b] at hc
        · simp only [← and_assoc, hrange j hj]

theorem Contains_spec (self other : RMaskedEntryRange) (n : Nat) :
    (self.Contains other n < n ∧ other.bit (self.Contains other n) = true ∧
        self.bit (self.Contains other n) = false ∧
        ∀ j, j < self.Contains other n → ¬ (other.bit j = true ∧ self.bit j = false)) ∨
      (self.Contains other n = sizeMax ∧
        ∀ i, i < n → ¬ (other.bit i = true ∧ self.bit i = false)) := by
  unfold RMaskedEntryRange.Contains
  cases h : (List.range n).find? (fun i => other.bit i && !self.bit i) with
  | none =>
    right
    refine ⟨rfl, ?_⟩
    rw [List.find?_range_eq_none] at h
    intro i hi hc
    have := h i hi
    simp [hc.1, hc.2] at this
  | some g =>
    left
    rw [List.find?_range_eq_some] at h
    obtain ⟨h1, h2, h3⟩ := h
    simp only [Bool.and_eq_true, Bool.not_eq_true', List.mem_range] at h1 h2
    refine ⟨h2, h1.1, h1.2, ?_⟩
    intro j hj hc
    have := h3 j hj
    simp [hc.1, hc.2] at this

theorem UpdateHelperRow_zero (d : RDefine α β) (slot : Nat) (req vm : RMaskedEntryRange)
    (n : Nat) (res : List β) (view : Nat → α)
    (hm : d.fMask[slot * d.maskStep]? = some vm)
    (hr : d.fLastResults[slot * d.resultsStep]? = some res)
    (hv : d.fValuePtrs[slot]? = some view)
    (hrow : d.fExpression.kUsingBulkAPI = false)
    (hn1 : n ≤ req.fMask.length) (hn2 : n ≤ res.length) :
    ∃ res1, UpdateHelperRow d slot req n 0
        = some ({ d with fLastResults := d.fLastResults.set (slot * d.resultsStep) res1,
                         fMask := d.fMask.set (slot * d.maskStep) req },
                rowCalls req.bit 0 n) ∧
      res1.length = res.length ∧
      ∀ j, res1[j]? = if j < n ∧ req.bit j = true
        then applyRow d.fExpression slot (d.fLoopManager.GetUniqueRDFEntry slot + j) (view j)
        else res[j]? := by
  obtain ⟨res1, h1, h2, h3⟩ := newBulkLoop_spec d slot req
    (d.fLoopManager.GetUniqueRDFEntry slot) view hv hrow n 0 res (by omega) (by omega)
  refine ⟨res1, ?_, h2, ?_⟩
  · simp [UpdateHelperRow, hm, hr, h1]
  · intro j
    rw [h3 j]
    simp

theorem UpdateHelperRow_pos (d : RDefine α β) (slot : Nat) (req vm : RMaskedEntryRange)
    (n g : Nat) (res : List β) (view : Nat → α)
    (hm : d.fMask[slot * d.maskStep]? = some vm)
    (hr : d.fLastResults[slot * d.resultsStep]? = some res)
    (hv : d.fValuePtrs[slot]? = some view)
    (hrow : d.fExpression.kUsingBulkAPI = false)
    (hn1 : n ≤ req.fMask.length) (hn2 : n ≤ res.length) (hn3 : n ≤ vm.fMask.length)
    (hg0 : g ≠ 0) (hgn : g < n) :
    ∃ res1 vm1, UpdateHelperRow d slot req n g
        = some ({ d with fLastResults := d.fLastResults.set (slot * d.resultsStep) res1,
                         fMask := d.fMask.set (slot * d.maskStep) vm1 },
                ExprCall.row g :: rowCalls (fun j => req.bit j && !vm.bit j) (g + 1)
                  (n - (g + 1))) ∧
      res1.length = res.length ∧ vm1.fBegin = vm.fBegin ∧
      vm1.fMask.length = vm.fMask.length ∧
      (∀ j, vm1.bit j = (vm.bit j || (decide (g < j ∧ j < n) && req.bit j))) ∧
      ∀ j, res1[j]? = if j = g ∨ (g < j ∧ j < n ∧ req.bit j = true ∧ vm.bit j = false)
        then applyRow d.fExpression slot (d.fLoopManager.GetUniqueRDFEntry slot + j) (view j)
        else res[j]? := by
  obtain ⟨v, hvv⟩ := applyRow_isSome d.fExpression hrow slot
    (d.fLoopManager.GetUniqueRDFEntry slot + (g : Int)) (view g)
  have hlen : (res.set g v).length = res.length := by simp
  obtain ⟨res1, vm1, h1, h2, h3, h4, h5, h6⟩ := gapLoop_spec d slot req
    (d.fLoopManager.GetUniqueRDFEntry slot) view hv hrow (n - (g + 1)) (g + 1) (res.set g v) vm
    (by omega) (by omega) (by omega)
  have hg2 : g < res.length := by omega
  refine ⟨res1, vm1, ?_, by omega, h3, h4, ?_, ?_⟩
  · simp [UpdateHelperRow, hm, hr, hg0, EvalExpr, hv, hvv, assignAt, hg2, h1]
  · intro j
    rw [h5 j]
    have : (g + 1 ≤ j ∧ j < g + 1 + (n - (g + 1))) ↔ (g < j ∧ j < n) := by omega
    simp only [this]
  · intro j
    rw [h6 j]
    by_cases hj : j = g
    · subst hj
      rw [if_neg (by omega), if_pos (Or.inl rfl), hvv]
      simp [hg2]
    · have hne : g ≠ j := fun h => hj h.symm
      have : (g + 1 ≤ j ∧ j < g + 1 + (n - (g + 1))) ↔ (g < j ∧ j < n) := by omega
      simp only [List.getElem?_set_ne hne, hj, false_or, ← and_assoc, this]

theorem loadAndDispatch_row (d : RDefine α β) (slot : Nat) (req : RMaskedEntryRange)
    (n g : Nat) (reader : RColumnReaderBase α)
    (hrd : d.fValueReaders[slot]? = some reader) (hp : slot < d.fValuePtrs.length)
    (hrow : d.fExpression.kUsingBulkAPI = false) :
    loadAndDispatch d slot req n g
      = UpdateHelperRow { d with fValuePtrs := d.fValuePtrs.set slot (reader.Load req n) }
          slot req n g := by
  unfold loadAndDispatch
  cases hE : d.fExpression <;>
    simp_all [DefineExpression.kUsingBulkAPI, assignAt]

theorem Update_newBulk (d : RDefine α β) (slot : Nat) (req vm : RMaskedEntryRange)
    (n : Nat) (res : List β) (reader : RColumnReaderBase α)
    (hm : d.fMask[slot * d.maskStep]? = some vm)
    (hr : d.fLastResults[slot * d.resultsStep]? = some res)
    (hrd : d.fValueReaders[slot]? = some reader) (hp : slot < d.fValuePtrs.length)
    (hrow : d.fExpression.kUsingBulkAPI = false)
    (hn1 : n ≤ req.fMask.length) (hn2 : n ≤ res.length)
    (hne : vm.fBegin ≠ req.fBegin) :
    ∃ res1, d.Update slot req n
        = some ({ d with fValuePtrs := d.fValuePtrs.set slot (reader.Load req n),
                         fLastResults := d.fLastResults.set (slot * d.resultsStep) res1,
                         fMask := d.fMask.set (slot * d.maskStep) req },
                rowCalls req.bit 0 n) ∧
      res1.length = res.length ∧
      ∀ j, res1[j]? = if j < n ∧ req.bit j = true
        then applyRow d.fExpression slot (d.fLoopManager.GetUniqueRDFEntry slot + j)
          (reader.Load req n j)
        else res[j]? := by
  have hidx : slot * d.maskStep < d.fMask.length := by
    by_contra hc
    rw [List.getElem?_eq_none (by omega)] at hm
    cases hm
  obtain ⟨res1, h1, h2, h3⟩ := UpdateHelperRow_zero
    { d with fMask := d.fMask.set (slot * d.maskStep)
               ((vm.SetAll false).SetFirstEntry req.FirstEntry),
             fValuePtrs := d.fValuePtrs.set slot (reader.Load req n) }
    slot req ((vm.SetAll false).SetFirstEntry req.FirstEntry) n res (reader.Load req n)
    (by simp [hidx]) hr (by simp [hp]) hrow hn1 hn2
  refine ⟨res1, ?_, h2, h3⟩
  unfold Update
  simp only [hm, Option.bind_eq_bind, Option.some_bind, RMaskedEntryRange.FirstEntry, ne_eq, hne,
    not_false_eq_true, if_true]
  have hl := loadAndDispatch_row
    { d with fMask := d.fMask.set (slot * d.maskStep)
               ((vm.SetAll false).SetFirstEntry req.fBegin) }
    slot req n 0 reader hrd hp hrow
  simp only [RMaskedEntryRange.FirstEntry] at h1
  rw [hl, h1]
  simp

theorem Update_covered (d : RDefine α β) (slot : Nat) (req vm : RMaskedEntryRange) (n : Nat)
    (hm : d.fMask[slot * d.maskStep]? = some vm)
    (heq : vm.fBegin = req.fBegin) (hC : vm.Contains req n = sizeMax) :
    d.Update slot req n = some (d, []) := by
  unfold Update
  simp [hm, RMaskedEntryRange.FirstEntry, heq, hC]

theorem Contains_of_covered (vm req : RMaskedEntryRange) (n : Nat)
    (hcov : ∀ i, i < n → req.bit i = true → vm.bit i = true) :
    vm.Contains req n = sizeMax := by
  rcases Contains_spec vm req n with ⟨h1, h2, h3, _⟩ | ⟨h1, _⟩
  · have := hcov _ h1 h2
    rw [h3] at this
    cases this
  · exact h1

theorem Update_gapZero (d : RDefine α β) (slot : Nat) (req vm : RMaskedEntryRange)
    (n : Nat) (res : List β) (reader : RColumnReaderBase α)
    (hm : d.fMask[slot * d.maskStep]? = some vm)
    (hr : d.fLastResults[slot * d.resultsStep]? = some res)
    (hrd : d.fValueReaders[slot]? = some reader) (hp : slot < d.fValuePtrs.length)
    (hrow : d.fExpression.kUsingBulkAPI = false)
    (hn1 : n ≤ req.fMask.length) (hn2 : n ≤ res.length)
    (heq : vm.fBegin = req.fBegin) (hg : vm.Contains req n = 0) :
    ∃ res1, d.Update slot req n
        = some ({ d with fValuePtrs := d.fValuePtrs.set slot (reader.Load req n),
                         fLastResults := d.fLastResults.set (slot * d.resultsStep) res1,
                         fMask := d.fMask.set (slot * d.maskStep) req },
                rowCalls req.bit 0 n) ∧
      res1.length = res.length ∧
      ∀ j, res1[j]? = if j < n ∧ req.bit j = true
        then applyRow d.fExpression slot (d.fLoopManager.GetUniqueRDFEntry slot + j)
          (reader.Load req n j)
        else res[j]? := by
  obtain ⟨res1, h1, h2, h3⟩ := UpdateHelperRow_zero
    { d with fValuePtrs := d.fValuePtrs.set slot (reader.Load req n) }
    slot req vm n res (reader.Load req n) hm hr (by simp [hp]) hrow hn1 hn2
  refine ⟨res1, ?_, h2, h3⟩
  unfold Update
  have hs : (0 : Nat) ≠ sizeMax := by decide
  simp only [hm, Option.bind_eq_bind, Option.some_bind, RMaskedEntryRange.FirstEntry, ne_eq, heq,
    not_true_eq_false, if_false, hg, hs]
  rw [loadAndDispatch_row _ slot req n 0 reader hrd hp hrow, h1]

theorem Update_gapPos (d : RDefine α β) (slot : Nat) (req vm : RMaskedEntryRange)
    (n : Nat) (res : List β) (reader : RColumnReaderBase α)
    (hm : d.fMask[slot * d.maskStep]? = some vm)
    (hr : d.fLastResults[slot * d.resultsStep]? = some res)
    (hrd : d.fValueReaders[slot]? = some reader) (hp : slot < d.fValuePtrs.length)
    (hrow : d.fExpression.kUsingBulkAPI = false)
    (hn1 : n ≤ req.fMask.length) (hn2 : n ≤ res.length) (hn3 : n ≤ vm.fMask.length)
    (heq : vm.fBegin = req.fBegin) (hg0 : vm.Contains req n ≠ 0)
    (hgm : vm.Contains req n ≠ sizeMax) :
    ∃ res1 vm1, d.Update slot req n
        = some ({ d with fValuePtrs := d.fValuePtrs.set slot (reader.Load req n),
                         fLastResults := d.fLastResults.set (slot * d.resultsStep) res1,
                         fMask := d.fMask.set (slot * d.maskStep) vm1 },
                ExprCall.row (vm.Contains req n) ::
                  rowCalls (fun j => req.bit j && !vm.bit j) (vm.Contains req n + 1)
                    (n - (vm.Contains req n + 1))) ∧
      res1.length = res.length ∧ vm1.fBegin = vm.fBegin ∧
      vm1.fMask.length = vm.fMask.length ∧
      (∀ j, vm1.bit j = (vm.bit j || (decide (vm.Contains req n < j ∧ j < n) && req.bit j))) ∧
      ∀ j, res1[j]? = if j = vm.Contains req n ∨
            (vm.Contains req n < j ∧ j < n ∧ req.bit j = true ∧ vm.bit j = false)
        then applyRow d.fExpression slot (d.fLoopManager.GetUniqueRDFEntry slot + j)
          (reader.Load req n j)
        else res[j]? := by
  have hgn : vm.Contains req n < n := by
    rcases Contains_spec vm req n with ⟨h1, _⟩ | ⟨h1, _⟩
    · exact h1
    · exact absurd h1 hgm
  obtain ⟨res1, vm1, h1, h2⟩ := UpdateHelperRow_pos
    { d with fValuePtrs := d.fValuePtrs.set slot (reader.Load req n) }
    slot req vm n (vm.Contains req n) res (reader.Load req n) hm hr (by simp [hp]) hrow
    hn1 hn2 hn3 hg0 hgn
  refine ⟨res1, vm1, ?_, h2⟩
  unfold Update
  simp only [hm, Option.bind_eq_bind, Option.some_bind, RMaskedEntryRange.FirstEntry, ne_eq, heq,
    not_true_eq_false, if_false, hgm]
  rw [loadAndDispatch_row _ slot req n _ reader hrd hp hrow, h1]

theorem lt_length_of_getElem? {γ : Type} {l : List γ} {i : Nat} {x : γ} (h : l[i]? = some x) :
    i < l.length := by
  by_contra hc
  rw [List.getElem?_eq_none (by omega)] at h
  cases h

theorem SlotReady_post (d : RDefine α β) (slot cap : Nat) (view : Nat → α) (res1 : List β)
    (vm1 : RMaskedEntryRange) (h : SlotReady d slot cap) (hl1 : res1.length = cap)
    (hl2 : vm1.fMask.length = cap) :
    SlotReady { d with fValuePtrs := d.fValuePtrs.set slot view,
                       fLastResults := d.fLastResults.set (slot * d.resultsStep) res1,
                       fMask := d.fMask.set (slot * d.maskStep) vm1 } slot cap := by
  obtain ⟨⟨vm, hm, _⟩, ⟨res, hr, _⟩, hrd, hp⟩ := h
  have h1 := lt_length_of_getElem? hm
  have h2 := lt_length_of_getElem? hr
  refine ⟨⟨vm1, by simp [h1], hl2⟩, ⟨res1, by simp [h2], hl1⟩, hrd, by simpa using hp⟩

theorem CacheValid_post (d : RDefine α β) (slot : Nat) (size : Int → Nat) (entryOf : Int → Int)
    (inputs : Int → Nat → α) (view : Nat → α) (res1 : List β) (vm1 : RMaskedEntryRange)
    (h1 : slot * d.maskStep < d.fMask.length)
    (h2 : slot * d.resultsStep < d.fLastResults.length)
    (hv : ∀ i, i < size vm1.fBegin → vm1.bit i = true →
      res1[i]? = applyRow d.fExpression slot (entryOf vm1.fBegin + i) (inputs vm1.fBegin i)) :
    CacheValid { d with fValuePtrs := d.fValuePtrs.set slot view,
                        fLastResults := d.fLastResults.set (slot * d.resultsStep) res1,
                        fMask := d.fMask.set (slot * d.maskStep) vm1 } slot size entryOf inputs := by
  intro vm res hm hr i hi hb
  simp only [List.getElem?_set_self h1, List.getElem?_set_self h2, Option.some.injEq] at hm hr
  subst hm hr
  exact hv i hi hb

theorem Update_preserves (d : RDefine α β) (slot cap : Nat) (size : Int → Nat)
    (entryOf : Int → Int) (inputs : Int → Nat → α) (lm : RLoopManager) (m : RMaskedEntryRange)
    (n : Nat) (hready : SlotReady d slot cap) (hrow : d.fExpression.kUsingBulkAPI = false)
    (hst : ReadersStable d slot inputs) (hcall : CallOk slot cap size entryOf (lm, m, n))
    (hvalid : CacheValid d slot size entryOf inputs ∨
      ∀ vm, d.fMask[slot * d.maskStep]? = some vm → vm.fBegin ≠ m.fBegin) :
    ∃ d1 calls, ({ d with fLoopManager := lm }).Update slot m n = some (d1, calls) ∧
      SlotReady d1 slot cap ∧ d1.fExpression.kUsingBulkAPI = false ∧
      ReadersStable d1 slot inputs ∧ CacheValid d1 slot size entryOf inputs := by
  have hready0 := hready
  obtain ⟨⟨vm, hm, hvl⟩, ⟨res, hr, hrl⟩, hrd, hp⟩ := hready
  obtain ⟨hc1, hc2, hc3, hc4⟩ := hcall
  simp only at hc1 hc2 hc3 hc4
  have hi1 := lt_length_of_getElem? hm
  have hi2 := lt_length_of_getElem? hr
  obtain ⟨reader, hreader⟩ : ∃ r, d.fValueReaders[slot]? = some r :=
    ⟨_, List.getElem?_eq_getElem hrd⟩
  have hload : ∀ i, i < n → m.bit i = true → reader.Load m n i = inputs m.fBegin i :=
    fun i hi hb => hst reader hreader m n i hi hb
  by_cases hne : vm.fBegin = m.fBegin
  · have hv : CacheValid d slot size entryOf inputs := by
      rcases hvalid with h | h
      · exact h
      · exact absurd hne (h vm hm)
    by_cases hC : vm.Contains m n = sizeMax
    · refine ⟨_, _, Update_covered { d with fLoopManager := lm } slot m vm n hm hne hC,
        hready0, hrow, hst, hv⟩
    · by_cases hz : vm.Contains m n = 0
      · obtain ⟨res1, e1, e2, e3⟩ := Update_gapZero { d with fLoopManager := lm } slot m vm n res
          reader hm hr hreader hp hrow (by omega) (by omega) hne hz
        refine ⟨_, _, e1, SlotReady_post { d with fLoopManager := lm } slot cap _ res1 m
          hready0 (by omega) hc1, hrow, hst,
          CacheValid_post { d with fLoopManager := lm } slot size entryOf inputs _ res1 m hi1 hi2
            ?_⟩
        intro i hi hb
        rw [e3 i, if_pos ⟨by omega, hb⟩]
        simp only [hc4, hload i (by omega) hb]
      · obtain ⟨res1, vm1, e1, e2, e3, e4, e5, e6⟩ := Update_gapPos { d with fLoopManager := lm }
          slot m vm n res reader hm hr hreader hp hrow (by omega) (by omega) (by omega) hne hz hC
        have hgap : vm.bit (vm.Contains m n) = false ∧ m.bit (vm.Contains m n) = true ∧
            vm.Contains m n < n := by
          rcases Contains_spec vm m n with ⟨a, b, c, _⟩ | ⟨a, _⟩
          · exact ⟨c, b, a⟩
          · exact absurd a hC
        refine ⟨_, _, e1, SlotReady_post { d with fLoopManager := lm } slot cap _ res1 vm1
          hready0 (by omega) (by omega), hrow, hst,
          CacheValid_post { d with fLoopManager := lm } slot size entryOf inputs _ res1 vm1 hi1
            hi2 ?_⟩
        intro i hi hb
        rw [e3, hne] at hi ⊢
        rw [e5 i] at hb
        rw [e6 i]
        by_cases hvi : vm.bit i = true
        · have hig : i ≠ vm.Contains m n := by
            intro h
            rw [h, hgap.1] at hvi
            cases hvi
          rw [if_neg]
          · have := hv vm res hm hr i (by rw [hne]; exact hi) hvi
            rw [hne] at this
            exact this
          · rintro (h | ⟨_, _, _, h⟩)
            · exact hig h
            · rw [h] at hvi
              cases hvi
        · simp only [Bool.not_eq_true] at hvi
          simp only [hvi, Bool.false_or, Bool.and_eq_true, decide_eq_true_eq] at hb
          rw [if_pos (Or.inr ⟨hb.1.1, hb.1.2, hb.2, hvi⟩)]
          simp only [hc4, hload i hb.1.2 hb.2]
  · obtain ⟨res1, e1, e2, e3⟩ := Update_newBulk { d with fLoopManager := lm } slot m vm n res
      reader hm hr hreader hp hrow (by omega) (by omega) hne
    refine ⟨_, _, e1, SlotReady_post { d with fLoopManager := lm } slot cap _ res1 m
      hready0 (by omega) hc1, hrow, hst,
      CacheValid_post { d with fLoopManager := lm } slot size entryOf inputs _ res1 m hi1 hi2 ?_⟩
    intro i hi hb
    rw [e3 i, if_pos ⟨by omega, hb⟩]
    simp only [hc4, hload i (by omega) hb]

theorem mem_rowCalls (p : Nat → Bool) (i k j : Nat) :
    ExprCall.row j ∈ rowCalls p i k ↔ i ≤ j ∧ j < i + k ∧ p j = true := by
  simp only [rowCalls, List.mem_map, List.mem_filter, List.mem_range'_1, ExprCall.row.injEq]
  constructor
  · rintro ⟨a, ⟨⟨h1, h2⟩, h3⟩, rfl⟩
    exact ⟨h1, h2, h3⟩
  · rintro ⟨h1, h2, h3⟩
    exact ⟨j, ⟨⟨h1, h2⟩, h3⟩, rfl⟩

theorem nodup_rowCalls (p : Nat → Bool) (i k : Nat) : (rowCalls p i k).Nodup := by
  unfold rowCalls
  apply List.Nodup.map
  · intro a b h
    cases h
    rfl
  · exact List.Nodup.filter _ (List.nodup_range' i k)

theorem count_rowCalls (p : Nat → Bool) (i k j : Nat) :
    (rowCalls p i k).count (ExprCall.row j)
      = if i ≤ j ∧ j < i + k ∧ p j = true then 1 else 0 := by
  rw [List.count_eq_of_nodup (nodup_rowCalls p i k)]
  simp only [mem_rowCalls]

theorem rowCalls_rows (p : Nat → Bool) (i k : Nat) :
    ∀ c, c ∈ rowCalls p i k → ∃ j, c = ExprCall.row j := by
  intro c hc
  simp only [rowCalls, List.mem_map] at hc
  obtain ⟨j, _, rfl⟩ := hc
  exact ⟨j, rfl⟩

/-- C3 (bulk-boundary invalidation): when the stamp of the requested mask differs from the cached
stamp of the slot, the row-wise `Update` succeeds, evaluates the expression exactly once for
every requested row below `bulkSize` and for no other row, whatever the cached bits were, and
leaves the requested mask (stamp and bits) as the cached mask of the slot. -/
theorem C3_update_new_bulk (d : RDefine α β) (slot : Nat) (req vm : RMaskedEntryRange)
    (n : Nat) (res : List β) (reader : RColumnReaderBase α)
    (hm : d.fMask[slot * d.maskStep]? = some vm)
    (hr : d.fLastResults[slot * d.resultsStep]? = some res)
    (hrd : d.fValueReaders[slot]? = some reader) (hp : slot < d.fValuePtrs.length)
    (hrow : d.fExpression.kUsingBulkAPI = false)
    (hn1 : n ≤ req.fMask.length) (hn2 : n ≤ res.length)
    (hne : vm.FirstEntry ≠ req.FirstEntry) :
    ∃ d1 calls, d.Update slot req n = some (d1, calls) ∧
      (∀ i, calls.count (ExprCall.row i) = if i < n ∧ req.bit i = true then 1 else 0) ∧
      (∀ c, c ∈ calls → ∃ i, c = ExprCall.row i) ∧
      d1.fMask[slot * d1.maskStep]? = some req := by
  have hidx : slot * d.maskStep < d.fMask.length := by
    by_contra hc
    rw [List.getElem?_eq_none (by omega)] at hm
    cases hm
  obtain ⟨res1, h1, _, _⟩ := Update_newBulk d slot req vm n res reader hm hr hrd hp hrow hn1 hn2 hne
  refine ⟨_, _, h1, ?_, rowCalls_rows _ _ _, by simp [hidx]⟩
  intro i
  rw [count_rowCalls]
  simp

/-- Witness for C3: the scenario column with a stale cache `[T, T, T, T]` stamped `7` receives
the request `[T, F, T, F]` stamped `0`. -/
theorem C3_update_new_bulk_witness :
    ∃ d1 calls, (scenarioDefine ⟨[true, true, true, true], 7⟩).Update 0
        ⟨[true, false, true, false], 0⟩ 4 = some (d1, calls) ∧
      (∀ i, calls.count (ExprCall.row i)
        = if i < 4 ∧ RMaskedEntryRange.bit ⟨[true, false, true, false], 0⟩ i = true
          then 1 else 0) ∧
      (∀ c, c ∈ calls → ∃ i, c = ExprCall.row i) ∧
      d1.fMask[0 * d1.maskStep]? = some ⟨[true, false, true, false], 0⟩ :=
  C3_update_new_bulk (scenarioDefine ⟨[true, true, true, true], 7⟩) 0
    ⟨[true, false, true, false], 0⟩ ⟨[true, true, true, true], 7⟩ 4 [0, 0, 0, 0] scenarioReader
    rfl rfl rfl (by decide) rfl (by decide) (by decide) (by decide)

theorem UpdateSeq_valid (slot cap : Nat) (size : Int → Nat) (entryOf : Int → Int)
    (inputs : Int → Nat → α) :
    ∀ (cs : List (RLoopManager × RMaskedEntryRange × Nat)) (d : RDefine α β),
      SlotReady d slot cap → d.fExpression.kUsingBulkAPI = false → ReadersStable d slot inputs →
      CacheValid d slot size entryOf inputs → (∀ x, x ∈ cs → CallOk slot cap size entryOf x) →
      ∃ d1, UpdateSeq d slot cs = some d1 ∧ CacheValid d1 slot size entryOf inputs := by
  intro cs
  induction cs with
  | nil => intro d _ _ _ hv _; exact ⟨d, rfl, hv⟩
  | cons c cs ih =>
    intro d h1 h2 h3 h4 hall
    obtain ⟨lm, m, n⟩ := c
    obtain ⟨d1, calls, e, r1, r2, r3, r4⟩ := Update_preserves d slot cap size entryOf inputs lm m n
      h1 h2 h3 (hall _ (List.mem_cons_self _ _)) (Or.inl h4)
    obtain ⟨d2, e2, v2⟩ := ih d1 r1 r2 r3 r4 (fun x hx => hall x (List.mem_cons_of_mem _ hx))
    exact ⟨d2, by simp [UpdateSeq, e, e2], v2⟩

/-- C5 (cache validity): for a row-wise define whose readers return the same inputs for a row
throughout one bulk stamp, every sequence of `Update` calls on a slot that starts with a new bulk
(as after `InitSlot`) succeeds, and afterwards every row below the size of the cached bulk that
the cached mask marks as computed holds the expression applied to the inputs of that row. -/
theorem C5_cache_validity (d : RDefine α β) (slot cap : Nat) (size : Int → Nat)
    (entryOf : Int → Int) (inputs : Int → Nat → α)
    (c : RLoopManager × RMaskedEntryRange × Nat)
    (cs : List (RLoopManager × RMaskedEntryRange × Nat))
    (hready : SlotReady d slot cap) (hrow : d.fExpression.kUsingBulkAPI = false)
    (hst : ReadersStable d slot inputs)
    (hcalls : ∀ x, x ∈ c :: cs → CallOk slot cap size entryOf x)
    (hfirst : ∀ vm, d.fMask[slot * d.maskStep]? = some vm → vm.FirstEntry ≠ c.2.1.FirstEntry) :
    ∃ d1, UpdateSeq d slot (c :: cs) = some d1 ∧ CacheValid d1 slot size entryOf inputs := by
  obtain ⟨lm, m, n⟩ := c
  obtain ⟨d1, calls, e, r1, r2, r3, r4⟩ := Update_preserves d slot cap size entryOf inputs lm m n
    hready hrow hst (hcalls _ (List.mem_cons_self _ _)) (Or.inr hfirst)
  obtain ⟨d2, e2, v2⟩ := UpdateSeq_valid slot cap size entryOf inputs cs d1 r1 r2 r3 r4
    (fun x hx => hcalls x (List.mem_cons_of_mem _ hx))
  exact ⟨d2, by simp [UpdateSeq, e, e2], v2⟩

/-- Witness for C5: the scenario `y = 2 * x`, `x = [1, 2, 3, 4]`, after `InitSlot` (stamp `-1`),
with the requests `[T, T, F, F]` and `[T, T, T, T]` for the bulk stamped `0`. -/
theorem C5_cache_validity_witness :
    ∃ d1, UpdateSeq (scenarioDefine ⟨[true, true, true, true], -1⟩) 0
        [(scenarioLoopManager, ⟨[true, true, false, false], 0⟩, 4),
         (scenarioLoopManager, ⟨[true, true, true, true], 0⟩, 4)] = some d1 ∧
      CacheValid d1 0 (fun _ => 4) (fun _ => 0) (fun _ i => [1, 2, 3, 4].getD i 0) :=
  C5_cache_validity (scenarioDefine ⟨[true, true, true, true], -1⟩) 0 4 (fun _ => 4) (fun _ => 0)
    (fun _ i => [1, 2, 3, 4].getD i 0) (scenarioLoopManager, ⟨[true, true, false, false], 0⟩, 4)
    [(scenarioLoopManager, ⟨[true, true, true, true], 0⟩, 4)]
    ⟨⟨_, rfl, rfl⟩, ⟨_, rfl, rfl⟩, by decide, by decide⟩ rfl
    (by
      intro r hr m n i _ _
      simp only [scenarioDefine, List.getElem?_cons_zero, Option.some.injEq] at hr
      subst hr
      rfl)
    (by
      intro x hx
      simp only [List.mem_cons, List.mem_singleton, List.not_mem_nil, or_false] at hx
      rcases hx with rfl | rfl <;> exact ⟨rfl, rfl, by decide, rfl⟩)
    (by
      intro vm h
      simp only [scenarioDefine, Nat.zero_mul, List.getElem?_cons_zero, Option.some.injEq] at h
      subst h
      decide)

/-- The values of the scenario of C5: after the requests `[T, T, F, F]` and `[T, T, T, T]` for
the bulk stamped `0` the buffer of `y = 2 * x` holds `[2, 4, 6, 8]`; the first call evaluated
rows 0 and 1, the second one rows 2 and 3. -/
theorem scenario_values :
    ((scenarioDefine ⟨[true, true, true, true], -1⟩).Update 0
        ⟨[true, true, false, false], 0⟩ 4).bind (fun r =>
      (r.1.Update 0 ⟨[true, true, true, true], 0⟩ 4).map (fun r2 =>
        (r.2, r2.2, r2.1.fLastResults)))
      = some ([ExprCall.row 0, ExprCall.row 1], [ExprCall.row 2, ExprCall.row 3],
          [[2, 4, 6, 8]]) := by
  decide

/-- C1 fails on the code: in the scenario `y = 2 * x`, after `InitSlot` and the request
`[T, T, F, F]` for the bulk stamped `0`, the request `[T, T, T, T]` for the same bulk is made twice
in a row.  The first of the two calls evaluates rows 2 and 3 and leaves the cached mask
`[T, T, F, T]`: the row at the gap index 2 is computed but not marked.  The second call therefore
evaluates row 2 again instead of making zero evaluations. -/
theorem C1_repeated_update_reevaluates :
    ((scenarioDefine ⟨[true, true, true, true], -1⟩).Update 0
        ⟨[true, true, false, false], 0⟩ 4).bind (fun r0 =>
      (r0.1.Update 0 ⟨[true, true, true, true], 0⟩ 4).bind (fun r1 =>
        (r1.1.Update 0 ⟨[true, true, true, true], 0⟩ 4).map (fun r2 =>
          (r1.2, r1.1.fMask, r2.2, r2.1.fMask))))
      = some ([ExprCall.row 2, ExprCall.row 3], [⟨[true, true, false, true], 0⟩],
          [ExprCall.row 2], [⟨[true, true, false, true], 0⟩]) := by
  decide

/-- C2 fails on the code: in the scenario `y = 2 * x`, after `InitSlot`, `m1 = [F, T, F, F]` and
`m2 = [T, T, F, F]` are requested for the bulk stamped `0`.  The gap index of the second call is
0, the helper takes the branch meant for a new bulk and evaluates rows 0 and 1, although row 1 is
in `m1` and was computed by the first call. -/
theorem C2_gap_zero_reevaluates_cached_row :
    ((scenarioDefine ⟨[true, true, true, true], -1⟩).Update 0
        ⟨[false, true, false, false], 0⟩ 4).bind (fun r0 =>
      (r0.1.Update 0 ⟨[true, true, false, false], 0⟩ 4).map (fun r1 => (r0.2, r1.2)))
      = some ([ExprCall.row 1], [ExprCall.row 0, ExprCall.row 1]) := by
  decide

/-- C4 fails on the code: in the scenario `y = 2 * x`, after `InitSlot` and the request
`[T, T, F, F]` for the bulk stamped `0`, the request `[T, T, T, T]` for the same bulk is not fully
covered, its gap index is 2, rows 2 and 3 are recomputed, and the cached mask afterwards is
`[T, T, F, T]` and not the union `[T, T, T, T]`: the row at the gap index is not marked. -/
theorem C4_gap_row_not_marked :
    ((scenarioDefine ⟨[true, true, true, true], -1⟩).Update 0
        ⟨[true, true, false, false], 0⟩ 4).bind (fun r0 =>
      (r0.1.Update 0 ⟨[true, true, true, true], 0⟩ 4).map (fun r1 =>
        (r0.1.fMask, (r0.1.fMask.map (fun m => m.Contains ⟨[true, true, true, true], 0⟩ 4)),
          r1.2, r1.1.fMask)))
      = some ([⟨[true, true, false, false], 0⟩], [2], [ExprCall.row 2, ExprCall.row 3],
          [⟨[true, true, false, true], 0⟩]) := by
  decide

end RDefine

namespace RFilter

variable {α : Type}

theorem bit_set (vm : RMaskedEntryRange) (i : Nat) (b : Bool) (hi : i < vm.fMask.length) :
    ∃ vm1, vm.set i b = some vm1 ∧ vm1.fBegin = vm.fBegin ∧
      vm1.fMask.length = vm.fMask.length ∧
      ∀ j, vm1.bit j = if j = i then b else vm.bit j := by
  refine ⟨{ vm with fMask := vm.fMask.set i b }, by simp [RMaskedEntryRange.set, hi], rfl,
    by simp, ?_⟩
  intro j
  by_cases hj : j = i
  · subst hj
    simp [RMaskedEntryRange.bit, List.getD, hi]
  · have hne : i ≠ j := fun h => hj h.symm
    simp [RMaskedEntryRange.bit, List.getD, List.getElem?_set_ne hne, hj]

theorem filter_range'_congr (p q : Nat → Bool) (i k : Nat)
    (h : ∀ j, i ≤ j → j < i + k → p j = q j) :
    (List.range' i k).filter p = (List.range' i k).filter q := by
  apply List.filter_congr
  intro j hj
  rw [List.mem_range'_1] at hj
  exact h j hj.1 hj.2

theorem wrap64_of_lt {a : Nat} (h : a < 2 ^ 64) : wrap64 a = a := Nat.mod_eq_of_lt h

theorem wrap64_lt (a : Nat) : wrap64 a < 2 ^ 64 := Nat.mod_lt _ (by decide)

theorem wrap64_add_left (a b : Nat) : wrap64 (wrap64 a + b) = wrap64 (a + b) := by
  unfold wrap64
  exact Nat.mod_add_mod a (2 ^ 64) b

theorem filterLoop_spec (f : RFilter α) (slot : Nat) (view : Nat → α)
    (hv : f.fValuePtrs[slot]? = some view) :
    ∀ (k i : Nat) (mask : RMaskedEntryRange) (acc : Nat), i + k ≤ mask.fMask.length →
      acc < 2 ^ 64 →
      ∃ mask1, f.filterLoop slot i k mask acc
          = some (mask1,
              wrap64 (acc + ((List.range' i k).filter
                (fun j => mask.bit j && f.fFilter (view j))).length),
              (List.range' i k).filter mask.bit) ∧
        mask1.fBegin = mask.fBegin ∧ mask1.fMask.length = mask.fMask.length ∧
        ∀ j, mask1.bit j
          = if i ≤ j ∧ j < i + k then (mask.bit j && f.fFilter (view j)) else mask.bit j := by
  intro k
  induction k with
  | zero =>
    intro i mask acc _ hacc
    refine ⟨mask, by simp [filterLoop, wrap64_of_lt hacc], rfl, rfl, ?_⟩
    intro j
    rw [if_neg (by omega)]
  | succ k ih =>
    intro i mask acc hlen hacc
    have hi : i < mask.fMask.length := by omega
    have hget : mask.fMask[i]? = some mask.fMask[i] := List.getElem?_eq_getElem hi
    have hD : mask.bit i = mask.fMask[i] := RDefine.bit_of_getElem? hget
    have hrange : ∀ j, j ≠ i → ((i + 1 ≤ j ∧ j < i + 1 + k) ↔ (i ≤ j ∧ j < i + (k + 1))) := by
      intro j hj; omega
    obtain ⟨m0, hs0, hs1, hs2, hs3⟩ := bit_set mask i (mask.bit i && f.fFilter (view i)) hi
    obtain ⟨mask1, h1, h2, h3, h4⟩ := ih (i + 1) m0
      (wrap64 (acc + (mask.bit i && f.fFilter (view i)).toNat)) (by omega) (wrap64_lt _)
    have hf1 : (List.range' (i + 1) k).filter (fun j => m0.bit j && f.fFilter (view j))
        = (List.range' (i + 1) k).filter (fun j => mask.bit j && f.fFilter (view j)) := by
      apply filter_range'_congr
      intro j hj1 hj2
      have : j ≠ i := by omega
      simp [hs3 j, this]
    have hf2 : (List.range' (i + 1) k).filter m0.bit = (List.range' (i + 1) k).filter mask.bit := by
      apply filter_range'_congr
      intro j hj1 hj2
      have : j ≠ i := by omega
      simp [hs3 j, this]
    have hcnt : wrap64 (wrap64 (acc + (mask.bit i && f.fFilter (view i)).toNat) +
          ((List.range' (i + 1) k).filter (fun j => mask.bit j && f.fFilter (view j))).length)
        = wrap64 (acc + ((List.range' i (k + 1)).filter
            (fun j => mask.bit j && f.fFilter (view j))).length) := by
      rw [wrap64_add_left, List.range'_succ, List.filter_cons]
      cases hb : (mask.bit i && f.fFilter (view i))
      · simp
      · simp [Nat.add_assoc, Nat.add_comm 1]
    rw [hf1, hf2, hcnt] at h1
    refine ⟨mask1, ?_, by rw [h2, hs1], by omega, ?_⟩
    · cases hb : mask.fMask[i] with
      | false =>
        rw [hb] at hget hD
        simp only [hD, Bool.false_and] at hs0 h1
        simp only [filterLoop, RMaskedEntryRange.get, hget, Option.bind_eq_bind,
          Option.some_bind, hs0, h1]
        simp [List.range'_succ, hD]
      | true =>
        rw [hb] at hget hD
        simp only [hD, Bool.true_and] at hs0 h1
        simp only [filterLoop, RMaskedEntryRange.get, hget, Option.bind_eq_bind,
          Option.some_bind, if_true, EvalFilter, hv, hs0, h1]
        simp [List.range'_succ, hD]
    · intro j
      rw [h4 j, hs3 j]
      by_cases hj : j = i
      · subst hj
        rw [if_neg (by omega), if_pos rfl, if_pos ⟨le_refl _, by omega⟩]
      · simp only [hj, if_false, hrange j hj]

theorem Count_eq (m : RMaskedEntryRange) (n : Nat) :
    m.Count n = ((List.range' 0 n).filter m.bit).length := by
  unfold RMaskedEntryRange.Count
  induction n with
  | zero => simp
  | succ n ih =>
    rw [List.take_succ, List.count_append, ih, List.range'_concat, List.filter_append,
      List.length_append]
    congr 1
    cases h : m.fMask[n]? with
    | none => simp [RMaskedEntryRange.bit, List.getD, h]
    | some b => cases b <;> simp [RMaskedEntryRange.bit, List.getD, h]

theorem filter_and_length_le (p q : Nat → Bool) (l : List Nat) :
    (l.filter (fun j => p j && q j)).length ≤ (l.filter p).length := by
  induction l with
  | nil => simp
  | cons a l ih =>
    simp only [List.filter_cons]
    cases hp : p a <;> cases hq : q a <;> simp <;> omega

theorem filter_range'_length_le (p : Nat → Bool) (i k : Nat) :
    ((List.range' i k).filter p).length ≤ k := by
  have := List.length_filter_le p (List.range' i k)
  simpa using this

end RFilter

namespace RNode

variable {α : Type}

theorem CheckFilters_miss (f : RFilter α) (prev prev1 : RNode α) (slot : Nat) (entry : Int)
    (n : Nat) (cached pmask : RMaskedEntryRange) (evs : List FilterEvent)
    (reader : RColumnReaderBase α) (acc rej : Nat)
    (hm : f.fMask[slot * f.maskStep]? = some cached) (hne : entry ≠ cached.FirstEntry)
    (hprev : prev.CheckFilters slot entry n = some (prev1, pmask, evs))
    (hrd : f.fValueReaders[slot]? = some reader) (hp : slot < f.fValuePtrs.length)
    (ha : f.fAccepted[slot * f.counterStep]? = some acc)
    (hr : f.fRejected[slot * f.counterStep]? = some rej)
    (hn : n ≤ pmask.fMask.length) :
    ∃ mask1, (filter f prev).CheckFilters slot entry n
        = some (filter { f with
                  fValuePtrs := f.fValuePtrs.set slot (reader.Load pmask n),
                  fMask := f.fMask.set (slot * f.maskStep) mask1,
                  fAccepted := f.fAccepted.set (slot * f.counterStep)
                    (wrap64 (acc + wrap64 (0 + ((List.range' 0 n).filter
                      (fun j => pmask.bit j && f.fFilter (reader.Load pmask n j))).length))),
                  fRejected := f.fRejected.set (slot * f.counterStep)
                    (wrap64 (rej + wrap64 (pmask.Count n + 2 ^ 64 -
                      wrap64 (0 + ((List.range' 0 n).filter
                        (fun j => pmask.bit j && f.fFilter (reader.Load pmask n j))).length)))) }
                prev1,
            mask1,
            FilterEvent.check prev.level slot entry n :: evs
              ++ ((List.range' 0 n).filter pmask.bit).map (FilterEvent.eval (prev.level + 1))) ∧
      mask1.fBegin = pmask.fBegin ∧ mask1.fMask.length = pmask.fMask.length ∧
      ∀ j, mask1.bit j
        = if j < n then (pmask.bit j && f.fFilter (reader.Load pmask n j)) else pmask.bit j := by
  obtain ⟨mask1, h1, h2, h3, h4⟩ := RFilter.filterLoop_spec
    { f with fValuePtrs := f.fValuePtrs.set slot (reader.Load pmask n) } slot
    (reader.Load pmask n) (by simp [hp]) n 0 pmask 0 (by omega) (by decide)
  have hi1 := RDefine.lt_length_of_getElem? hm
  have hi2 := RDefine.lt_length_of_getElem? ha
  have hi3 := RDefine.lt_length_of_getElem? hr
  refine ⟨mask1, ?_, h2, h3, ?_⟩
  · simp only [CheckFilters, hm, Option.bind_eq_bind, Option.some_bind, ne_eq, hne,
      not_false_eq_true, if_true, hprev, hrd, assignAt, hp, h1, ha, hr, hi1, hi2, hi3]
  · intro j
    rw [h4 j]
    simp

theorem acceptedCount_le (f : RFilter α) (pmask : RMaskedEntryRange) (view : Nat → α) (n : Nat) :
    ((List.range' 0 n).filter (fun j => pmask.bit j && f.fFilter (view j))).length
      ≤ pmask.Count n ∧ pmask.Count n ≤ n := by
  rw [RFilter.Count_eq]
  exact ⟨RFilter.filter_and_length_le _ _ _, RFilter.filter_range'_length_le _ _ _⟩

theorem Count_after (pmask mask1 : RMaskedEntryRange) (p : Nat → Bool) (n : Nat)
    (h : ∀ j, mask1.bit j = if j < n then (pmask.bit j && p j) else pmask.bit j) :
    mask1.Count n = ((List.range' 0 n).filter (fun j => pmask.bit j && p j)).length := by
  rw [RFilter.Count_eq]
  congr 1
  apply RFilter.filter_range'_congr
  intro j _ hj
  rw [h j, if_pos (by omega)]

/-- C6 (result on a stamp miss): when the entry stamp differs from the cached stamp of the slot,
`CheckFilters` succeeds and the mask it returns, which is also the mask it caches, carries the
stamp of the mask of the predecessor, has bit `i` equal to the bit of the predecessor and the
predicate on row `i` for every `i` below `bulkSize`, and the bit of the predecessor for every
other `i`; in particular it is a subset of the mask of the predecessor. -/
theorem C6_check_filters_miss_mask (f : RFilter α) (prev prev1 : RNode α) (slot : Nat)
    (entry : Int) (n : Nat) (cached pmask : RMaskedEntryRange) (evs : List FilterEvent)
    (reader : RColumnReaderBase α) (acc rej : Nat)
    (hm : f.fMask[slot * f.maskStep]? = some cached) (hne : entry ≠ cached.FirstEntry)
    (hprev : prev.CheckFilters slot entry n = some (prev1, pmask, evs))
    (hrd : f.fValueReaders[slot]? = some reader) (hp : slot < f.fValuePtrs.length)
    (ha : f.fAccepted[slot * f.counterStep]? = some acc)
    (hr : f.fRejected[slot * f.counterStep]? = some rej)
    (hn : n ≤ pmask.fMask.length) :
    ∃ f1 mask1 events, (filter f prev).CheckFilters slot entry n
        = some (filter f1 prev1, mask1, events) ∧
      f1.fMask[slot * f1.maskStep]? = some mask1 ∧
      mask1.FirstEntry = pmask.FirstEntry ∧ mask1.fMask.length = pmask.fMask.length ∧
      (∀ i, i < n → mask1.bit i = (pmask.bit i && f.fFilter (reader.Load pmask n i))) ∧
      (∀ i, n ≤ i → mask1.bit i = pmask.bit i) ∧
      (∀ i, mask1.bit i = true → pmask.bit i = true) := by
  obtain ⟨mask1, h1, h2, h3, h4⟩ := CheckFilters_miss f prev prev1 slot entry n cached pmask evs
    reader acc rej hm hne hprev hrd hp ha hr hn
  have hi1 := RDefine.lt_length_of_getElem? hm
  refine ⟨_, mask1, _, h1, by simp [hi1], h2, h3, ?_, ?_, ?_⟩
  · intro i hi
    rw [h4 i, if_pos hi]
  · intro i hi
    rw [h4 i, if_neg (by omega)]
  · intro i hb
    rw [h4 i] at hb
    by_cases hi : i < n
    · rw [if_pos hi] at hb
      simp only [Bool.and_eq_true] at hb
      exact hb.1
    · rw [if_neg hi] at hb
      exact hb

/-- Witness for C6: the scenario filter `x > 2` after `InitSlot` (stamp `-1`) is asked for the
bulk stamped `0`; the loop manager accepts the four rows. -/
theorem C6_check_filters_miss_mask_witness :
    ∃ f1 mask1 events, (scenarioChain ⟨[true, true, true, true], -1⟩).CheckFilters 0 0 4
        = some (filter f1 (loopManager scenarioLoopManager), mask1, events) ∧
      f1.fMask[0 * f1.maskStep]? = some mask1 ∧
      mask1.FirstEntry = RMaskedEntryRange.FirstEntry ⟨[true, true, true, true], 0⟩ ∧
      mask1.fMask.length = [true, true, true, true].length ∧
      (∀ i, i < 4 → mask1.bit i = (RMaskedEntryRange.bit ⟨[true, true, true, true], 0⟩ i &&
        (scenarioFilter ⟨[true, true, true, true], -1⟩).fFilter
          (scenarioReader.Load ⟨[true, true, true, true], 0⟩ 4 i))) ∧
      (∀ i, 4 ≤ i → mask1.bit i = RMaskedEntryRange.bit ⟨[true, true, true, true], 0⟩ i) ∧
      (∀ i, mask1.bit i = true → RMaskedEntryRange.bit ⟨[true, true, true, true], 0⟩ i = true) :=
  C6_check_filters_miss_mask (scenarioFilter ⟨[true, true, true, true], -1⟩)
    (loopManager scenarioLoopManager) (loopManager scenarioLoopManager) 0 0 4
    ⟨[true, true, true, true], -1⟩ ⟨[true, true, true, true], 0⟩ [] scenarioReader 0 0
    rfl (by decide) rfl rfl (by decide) rfl rfl (by decide)

theorem wrap64_sub (p k : Nat) (hk : k ≤ p) (hp : p < 2 ^ 64) :
    wrap64 (p + 2 ^ 64 - k) = p - k := by
  unfold wrap64
  have h : p + 2 ^ 64 - k = (p - k) + 2 ^ 64 := by omega
  rw [h, Nat.add_mod_right]
  exact Nat.mod_eq_of_lt (by omega)

/-- C7 (filter counters): on a stamp miss `CheckFilters` adds to the accepted counter of the slot
the number `K` of set bits below `bulkSize` of the returned mask and to the rejected counter
`P - K`, with `P` the number of set bits below `bulkSize` of the mask of the predecessor (both
additions are `ULong64_t` additions); `K ≤ P`, so the `std::size_t` subtraction
`processed - accepted` does not wrap.  With zero counters, a predecessor that accepts all the `n`
rows and a predicate that accepts `K` of them, the counters end at `K` and `n - K`. -/
theorem C7_check_filters_counters (f : RFilter α) (prev prev1 : RNode α) (slot : Nat)
    (entry : Int) (n : Nat) (cached pmask : RMaskedEntryRange) (evs : List FilterEvent)
    (reader : RColumnReaderBase α) (acc rej : Nat)
    (hm : f.fMask[slot * f.maskStep]? = some cached) (hne : entry ≠ cached.FirstEntry)
    (hprev : prev.CheckFilters slot entry n = some (prev1, pmask, evs))
    (hrd : f.fValueReaders[slot]? = some reader) (hp : slot < f.fValuePtrs.length)
    (ha : f.fAccepted[slot * f.counterStep]? = some acc)
    (hr : f.fRejected[slot * f.counterStep]? = some rej)
    (hn : n ≤ pmask.fMask.length) (hmax : n < 2 ^ 64) :
    ∃ f1 mask1 events, (filter f prev).CheckFilters slot entry n
        = some (filter f1 prev1, mask1, events) ∧
      mask1.Count n ≤ pmask.Count n ∧
      wrap64 (pmask.Count n + 2 ^ 64 - mask1.Count n) = pmask.Count n - mask1.Count n ∧
      f1.fAccepted[slot * f1.counterStep]? = some (wrap64 (acc + mask1.Count n)) ∧
      f1.fRejected[slot * f1.counterStep]?
        = some (wrap64 (rej + (pmask.Count n - mask1.Count n))) ∧
      (acc = 0 → rej = 0 → (∀ i, i < n → pmask.bit i = true) →
        f1.fAccepted[slot * f1.counterStep]?
          = some ((List.range n).filter (fun i => f.fFilter (reader.Load pmask n i))).length ∧
        f1.fRejected[slot * f1.counterStep]?
          = some (n - ((List.range n).filter
              (fun i => f.fFilter (reader.Load pmask n i))).length)) := by
  obtain ⟨mask1, h1, h2, h3, h4⟩ := CheckFilters_miss f prev prev1 slot entry n cached pmask evs
    reader acc rej hm hne hprev hrd hp ha hr hn
  have hi2 := RDefine.lt_length_of_getElem? ha
  have hi3 := RDefine.lt_length_of_getElem? hr
  have hK := Count_after pmask mask1 (fun j => f.fFilter (reader.Load pmask n j)) n h4
  obtain ⟨hle1, hle2⟩ := acceptedCount_le f pmask (reader.Load pmask n) n
  rw [← hK] at hle1 h1
  have hw : wrap64 (0 + mask1.Count n) = mask1.Count n := by
    rw [Nat.zero_add]
    exact RFilter.wrap64_of_lt (by omega)
  have hs := wrap64_sub (pmask.Count n) (mask1.Count n) hle1 (by omega)
  rw [hw, hs] at h1
  refine ⟨_, mask1, _, h1, hle1, hs, by simp [hi2], by simp [hi3], ?_⟩
  intro h0 h0r hall
  have hP : pmask.Count n = n := by
    rw [RFilter.Count_eq]
    have : (List.range' 0 n).filter pmask.bit = List.range' 0 n := by
      rw [List.filter_eq_self]
      intro j hj
      rw [List.mem_range'_1] at hj
      exact hall j (by omega)
    rw [this, List.length_range']
  have hK2 : mask1.Count n
      = ((List.range n).filter (fun i => f.fFilter (reader.Load pmask n i))).length := by
    rw [hK, List.range_eq_range']
    congr 1
    apply RFilter.filter_range'_congr
    intro j _ hj
    simp [hall j (by omega)]
  subst h0 h0r
  rw [hP] at hle1
  refine ⟨?_, ?_⟩
  · simp only [List.getElem?_set_self hi2, Nat.zero_add, Option.some.injEq]
    rw [← hK2]
    exact RFilter.wrap64_of_lt (by omega)
  · simp only [List.getElem?_set_self hi3, Nat.zero_add, Option.some.injEq]
    rw [← hK2, hP]
    exact RFilter.wrap64_of_lt (by omega)

/-- Witness for C7: the scenario filter `x > 2` with zero counters sees the four rows
`x = [1, 2, 3, 4]` accepted by the loop manager. -/
theorem C7_check_filters_counters_witness :
    ∃ f1 mask1 events, (scenarioChain ⟨[true, true, true, true], -1⟩).CheckFilters 0 0 4
        = some (filter f1 (loopManager scenarioLoopManager), mask1, events) ∧
      mask1.Count 4 ≤ RMaskedEntryRange.Count ⟨[true, true, true, true], 0⟩ 4 ∧
      f1.fAccepted[0 * f1.counterStep]? = some (wrap64 (0 + mask1.Count 4)) ∧
      f1.fRejected[0 * f1.counterStep]?
        = some (wrap64 (0 + (RMaskedEntryRange.Count ⟨[true, true, true, true], 0⟩ 4
            - mask1.Count 4))) ∧
      f1.fAccepted[0 * f1.counterStep]?
        = some ((List.range 4).filter (fun i =>
            (scenarioFilter ⟨[true, true, true, true], -1⟩).fFilter
              (scenarioReader.Load ⟨[true, true, true, true], 0⟩ 4 i))).length ∧
      f1.fRejected[0 * f1.counterStep]?
        = some (4 - ((List.range 4).filter (fun i =>
            (scenarioFilter ⟨[true, true, true, true], -1⟩).fFilter
              (scenarioReader.Load ⟨[true, true, true, true], 0⟩ 4 i))).length) := by
  obtain ⟨f1, mask1, events, h1, h2, _, h4, h5, h6⟩ :=
    C7_check_filters_counters (scenarioFilter ⟨[true, true, true, true], -1⟩)
      (loopManager scenarioLoopManager) (loopManager scenarioLoopManager) 0 0 4
      ⟨[true, true, true, true], -1⟩ ⟨[true, true, true, true], 0⟩ [] scenarioReader 0 0
      rfl (by decide) rfl rfl (by decide) rfl rfl (by decide) (by decide)
  exact ⟨f1, mask1, events, h1, h2, h4, h5, (h6 rfl rfl (by decide)).1,
    (h6 rfl rfl (by decide)).2⟩

/-- The counters of the scenario of C7: the filter `x > 2` over `x = [1, 2, 3, 4]` ends with
2 accepted and 2 rejected rows, and returns the mask `[F, F, T, T]`. -/
theorem scenario_counters :
    ((scenarioChain ⟨[true, true, true, true], -1⟩).CheckFilters 0 0 4).map (fun r =>
      match r.1 with
      | filter f1 _ => (f1.fAccepted, f1.fRejected, r.2.1)
      | loopManager _ => ([], [], r.2.1))
      = some ([2], [2], ⟨[false, false, true, true], 0⟩) := by
  decide

/-- C8 (cache hit): when the entry stamp equals the cached stamp of the slot, `CheckFilters`
returns the cached mask, leaves the filter (mask, accepted and rejected counters included) and its
predecessors as they were, and produces no event: no call of `CheckFilters` on the predecessor and
no evaluation of the predicate.  A second call right after does the same, so the two calls
together count no row twice. -/
theorem C8_check_filters_hit (f : RFilter α) (prev : RNode α) (slot : Nat) (entry : Int)
    (n : Nat) (cached : RMaskedEntryRange)
    (hm : f.fMask[slot * f.maskStep]? = some cached) (heq : entry = cached.FirstEntry) :
    (filter f prev).CheckFilters slot entry n = some (filter f prev, cached, []) ∧
      ((filter f prev).CheckFilters slot entry n).bind (fun r => r.1.CheckFilters slot entry n)
        = some (filter f prev, cached, []) := by
  have h : (filter f prev).CheckFilters slot entry n = some (filter f prev, cached, []) := by
    simp [CheckFilters, hm, heq]
  exact ⟨h, by simp [h]⟩

/-- Witness for C8: the scenario filter already caches the mask `[F, F, T, T]` of the bulk
stamped `0` and is asked for that bulk again. -/
theorem C8_check_filters_hit_witness :
    (scenarioChain ⟨[false, false, true, true], 0⟩).CheckFilters 0 0 4
        = some (scenarioChain ⟨[false, false, true, true], 0⟩, ⟨[false, false, true, true], 0⟩,
            []) ∧
      ((scenarioChain ⟨[false, false, true, true], 0⟩).CheckFilters 0 0 4).bind
          (fun r => r.1.CheckFilters 0 0 4)
        = some (scenarioChain ⟨[false, false, true, true], 0⟩, ⟨[false, false, true, true], 0⟩,
            []) :=
  C8_check_filters_hit (scenarioFilter ⟨[false, false, true, true], 0⟩)
    (loopManager scenarioLoopManager) 0 0 4 ⟨[false, false, true, true], 0⟩ rfl (by decide)

theorem CheckFilters_events_level :
    ∀ (node : RNode α) (slot : Nat) (entry : Int) (n : Nat) (node1 : RNode α)
      (m : RMaskedEntryRange) (evs : List FilterEvent),
      node.CheckFilters slot entry n = some (node1, m, evs) →
      ∀ ev, ev ∈ evs → ev.level ≤ node.level := by
  intro node
  induction node with
  | loopManager lm =>
    intro slot entry n node1 m evs h ev hev
    simp only [CheckFilters, Option.some.injEq, Prod.mk.injEq] at h
    obtain ⟨_, _, rfl⟩ := h
    cases hev
  | filter f prev ih =>
    intro slot entry n node1 m evs h ev hev
    rw [CheckFilters] at h
    cases hm : f.fMask[slot * f.maskStep]? with
    | none => simp [hm] at h
    | some cached =>
      simp only [hm, Option.bind_eq_bind, Option.some_bind] at h
      by_cases hc : entry ≠ cached.FirstEntry
      · rw [if_pos hc] at h
        cases hp : prev.CheckFilters slot entry n with
        | none => simp [hp] at h
        | some r =>
          obtain ⟨prev1, pmask, pevs⟩ := r
          simp only [hp, Option.some_bind, Option.bind_eq_some] at h
          obtain ⟨_, _, _, _, ⟨_, _, rows⟩, _, _, _, _, _, _, _, _, _, _, _, h⟩ := h
          simp only [Option.some.injEq, Prod.mk.injEq] at h
          obtain ⟨_, _, rfl⟩ := h
          simp only [List.cons_append, List.mem_cons, List.mem_append, List.mem_map] at hev
          rcases hev with rfl | hev | ⟨i, _, rfl⟩
          · simp [FilterEvent.level, level]
          · have := ih slot entry n prev1 pmask pevs hp ev hev
            simp only [level]
            omega
          · simp [FilterEvent.level, level]
      · rw [if_neg hc] at h
        simp only [Option.some.injEq, Prod.mk.injEq] at h
        obtain ⟨_, _, rfl⟩ := h
        cases hev

theorem count_eval_rows (L i : Nat) (p : Nat → Bool) (n : Nat) :
    (((List.range' 0 n).filter p).map (FilterEvent.eval L)).count (FilterEvent.eval L i)
      = if i < n ∧ p i = true then 1 else 0 := by
  have hnd : (((List.range' 0 n).filter p).map (FilterEvent.eval L)).Nodup := by
    apply List.Nodup.map
    · intro a b h
      cases h
      rfl
    · exact List.Nodup.filter _ (List.nodup_range' 0 n)
  rw [List.count_eq_of_nodup hnd]
  have hmem : FilterEvent.eval L i ∈ ((List.range' 0 n).filter p).map (FilterEvent.eval L)
      ↔ (i < n ∧ p i = true) := by
    simp only [List.mem_map, List.mem_filter, List.mem_range'_1, FilterEvent.eval.injEq,
      true_and]
    constructor
    · rintro ⟨a, ⟨⟨_, h2⟩, h3⟩, rfl⟩
      exact ⟨by omega, h3⟩
    · rintro ⟨h2, h3⟩
      exact ⟨i, ⟨⟨Nat.zero_le _, by omega⟩, h3⟩, rfl⟩
  simp only [hmem]

theorem countP_eval_rows (L : Nat) (rows : List Nat) :
    (rows.map (FilterEvent.eval L)).countP (FilterEvent.isEvalAt L) = rows.length := by
  induction rows with
  | nil => rfl
  | cons a rows ih => simp [FilterEvent.isEvalAt, ih]

theorem countP_lower_events (L : Nat) (evs : List FilterEvent)
    (h : ∀ ev, ev ∈ evs → ev.level < L) : evs.countP (FilterEvent.isEvalAt L) = 0 := by
  rw [List.countP_eq_zero]
  intro ev hev
  have := h ev hev
  cases ev with
  | check l s e b => simp [FilterEvent.isEvalAt]
  | eval l i =>
    simp only [FilterEvent.level] at this
    simp only [FilterEvent.isEvalAt, decide_eq_true_eq]
    omega

/-- C9 (evaluation restricted to accepted rows): on a stamp miss `CheckFilters` evaluates the
predicate of the filter exactly once for each row below `bulkSize` whose bit is set in the mask of
the predecessor and never for another row, so the number of evaluations of the predicate is
`Count(bulkSize)` of the mask of the predecessor. -/
theorem C9_predicate_evaluations (f : RFilter α) (prev prev1 : RNode α) (slot : Nat)
    (entry : Int) (n : Nat) (cached pmask : RMaskedEntryRange) (evs : List FilterEvent)
    (reader : RColumnReaderBase α) (acc rej : Nat)
    (hm : f.fMask[slot * f.maskStep]? = some cached) (hne : entry ≠ cached.FirstEntry)
    (hprev : prev.CheckFilters slot entry n = some (prev1, pmask, evs))
    (hrd : f.fValueReaders[slot]? = some reader) (hp : slot < f.fValuePtrs.length)
    (ha : f.fAccepted[slot * f.counterStep]? = some acc)
    (hr : f.fRejected[slot * f.counterStep]? = some rej)
    (hn : n ≤ pmask.fMask.length) :
    ∃ f1 mask1 events, (filter f prev).CheckFilters slot entry n
        = some (filter f1 prev1, mask1, events) ∧
      (∀ i, events.count (FilterEvent.eval (filter f prev).level i)
        = if i < n ∧ pmask.bit i = true then 1 else 0) ∧
      events.countP (FilterEvent.isEvalAt (filter f prev).level) = pmask.Count n := by
  obtain ⟨mask1, h1, _, _, _⟩ := CheckFilters_miss f prev prev1 slot entry n cached pmask evs
    reader acc rej hm hne hprev hrd hp ha hr hn
  have hlev : ∀ ev, ev ∈ evs → ev.level < prev.level + 1 := by
    intro ev hev
    have := CheckFilters_events_level prev slot entry n prev1 pmask evs hprev ev hev
    omega
  refine ⟨_, mask1, _, h1, ?_, ?_⟩
  · intro i
    have hnot : FilterEvent.eval (prev.level + 1) i ∉ evs := by
      intro hmem
      have := hlev _ hmem
      simp [FilterEvent.level] at this
    simp only [level, List.cons_append, List.count_cons, List.count_append,
      List.count_eq_zero_of_not_mem hnot, count_eval_rows]
    simp
  · simp only [level, List.cons_append, List.countP_cons, List.countP_append,
      countP_lower_events _ evs hlev, countP_eval_rows, RFilter.Count_eq]
    simp [FilterEvent.isEvalAt]

/-- Witness for C9: the scenario filter `x > 2` after `InitSlot` behind a loop manager that
accepts the four rows of the bulk stamped `0`. -/
theorem C9_predicate_evaluations_witness :
    ∃ f1 mask1 events, (scenarioChain ⟨[true, true, true, true], -1⟩).CheckFilters 0 0 4
        = some (filter f1 (loopManager scenarioLoopManager), mask1, events) ∧
      (∀ i, events.count (FilterEvent.eval (scenarioChain ⟨[true, true, true, true], -1⟩).level i)
        = if i < 4 ∧ RMaskedEntryRange.bit ⟨[true, true, true, true], 0⟩ i = true
          then 1 else 0) ∧
      events.countP (FilterEvent.isEvalAt (scenarioChain ⟨[true, true, true, true], -1⟩).level)
        = RMaskedEntryRange.Count ⟨[true, true, true, true], 0⟩ 4 :=
  C9_predicate_evaluations (scenarioFilter ⟨[true, true, true, true], -1⟩)
    (loopManager scenarioLoopManager) (loopManager scenarioLoopManager) 0 0 4
    ⟨[true, true, true, true], -1⟩ ⟨[true, true, true, true], 0⟩ [] scenarioReader 0 0
    rfl (by decide) rfl rfl (by decide) rfl rfl (by decide)

theorem CheckFilters_chain (slot cap : Nat) (e : Int) (n : Nat) (hn : n ≤ cap) :
    ∀ (node : RNode α), node.ChainReady slot cap e n →
      (node.source.CheckFilters slot e n).FirstEntry = e →
      ∃ node1 m evs, node.CheckFilters slot e n = some (node1, m, evs) ∧
        m.FirstEntry = e ∧ m.fMask.length = cap ∧
        (∀ f1 p1, node1 = filter f1 p1 → f1.fMask[slot * f1.maskStep]? = some m) ∧
        (∃ f p, node = filter f p) = (∃ f1 p1, node1 = filter f1 p1) ∧
        (node.HitsClosed slot e → node1.AllStamped slot e) := by
  intro node
  induction node with
  | loopManager lm =>
    intro hready hsrc
    refine ⟨loopManager lm, lm.CheckFilters slot e n, [], rfl, hsrc, hready, ?_, rfl, ?_⟩
    · intro f1 p1 h
      cases h
    · intro _
      trivial
  | filter f prev ih =>
    intro hready hsrc
    obtain ⟨⟨⟨c, hm, hcl⟩, hrd, hp, ha, hr⟩, hprevReady⟩ := hready
    by_cases hc : e = c.FirstEntry
    · refine ⟨filter f prev, c, [], by simp [CheckFilters, hm, hc], hc.symm, hcl, ?_, rfl, ?_⟩
      · intro f1 p1 h
        cases h
        exact hm
      · intro hclosed
        exact ⟨⟨c, hm, hc.symm⟩, hclosed.1 c hm hc.symm⟩
    · obtain ⟨prev1, pmask, pevs, hp1, hp2, hp3, _, _, hp5⟩ := ih hprevReady hsrc
      obtain ⟨reader, hreader⟩ : ∃ r, f.fValueReaders[slot]? = some r :=
        ⟨_, List.getElem?_eq_getElem hrd⟩
      obtain ⟨acc, hacc⟩ : ∃ a, f.fAccepted[slot * f.counterStep]? = some a :=
        ⟨_, List.getElem?_eq_getElem ha⟩
      obtain ⟨rej, hrej⟩ : ∃ a, f.fRejected[slot * f.counterStep]? = some a :=
        ⟨_, List.getElem?_eq_getElem hr⟩
      obtain ⟨mask1, h1, h2, h3, _⟩ := CheckFilters_miss f prev prev1 slot e n c pmask pevs
        reader acc rej hm hc hp1 hreader hp hacc hrej (by omega)
      have hi1 := RDefine.lt_length_of_getElem? hm
      have hst : mask1.FirstEntry = e := by
        simp only [RMaskedEntryRange.FirstEntry] at hp2 ⊢
        rw [h2, hp2]
      refine ⟨_, mask1, _, h1, hst, by omega, ?_, ?_, ?_⟩
      · intro f1 p1 h
        cases h
        simp [hi1]
      · simp
      · intro hclosed
        exact ⟨⟨mask1, by simp [hi1], hst⟩, hp5 hclosed.2⟩

/-- C10 as stated fails: in the chain of two scenario filters where the last filter caches the
bulk stamped `0` and the filter next to the loop manager caches the bulk stamped `7`, the source
answers with a mask stamped `0`, `CheckFilters(0, 0, 4)` on the last filter is a cache hit that
leaves the chain as it was, and the first filter still has stamp `7`. -/
theorem C10_counterexample :
    ((scenarioChain2 ⟨[true, true, true, true], 7⟩ ⟨[false, false, true, true], 0⟩).source.CheckFilters
        0 0 4).FirstEntry = 0 ∧
      (scenarioChain2 ⟨[true, true, true, true], 7⟩ ⟨[false, false, true, true], 0⟩).CheckFilters
          0 0 4
        = some (scenarioChain2 ⟨[true, true, true, true], 7⟩ ⟨[false, false, true, true], 0⟩,
            ⟨[false, false, true, true], 0⟩, []) ∧
      ¬ (scenarioChain2 ⟨[true, true, true, true], 7⟩
          ⟨[false, false, true, true], 0⟩).AllStamped 0 0 := by
  refine ⟨rfl, rfl, ?_⟩
  rintro ⟨_, ⟨m, hm, hs⟩, _⟩
  simp only [scenarioFilter, Nat.zero_mul, List.getElem?_cons_zero, Option.some.injEq] at hm
  subst hm
  revert hs
  decide

/-- C10 (amended): for a chain of filters whose source answers `CheckFilters(slot, e, n)` with a
mask stamped `e`, `CheckFilters(slot, e, n)` on the last filter succeeds and returns a mask stamped
`e`, which is the cached mask of the last filter afterwards, so that an immediately repeated call
is a cache hit returning the same mask with no event; and every filter of the chain has cached
stamp `e` afterwards provided that, before the call, no filter held stamp `e` while one of its
predecessors held another stamp (the predecessors of a filter that hits are not consulted). -/
theorem C10_stamp_cached (f : RFilter α) (prev : RNode α) (slot cap : Nat) (e : Int) (n : Nat)
    (hn : n ≤ cap) (hready : (filter f prev).ChainReady slot cap e n)
    (hsrc : ((filter f prev).source.CheckFilters slot e n).FirstEntry = e) :
    ∃ f1 prev1 m evs, (filter f prev).CheckFilters slot e n = some (filter f1 prev1, m, evs) ∧
      m.FirstEntry = e ∧ f1.fMask[slot * f1.maskStep]? = some m ∧
      (filter f1 prev1).CheckFilters slot e n = some (filter f1 prev1, m, []) ∧
      ((filter f prev).HitsClosed slot e → (filter f1 prev1).AllStamped slot e) := by
  obtain ⟨node1, m, evs, h1, h2, _, h4, h5, h6⟩ :=
    CheckFilters_chain slot cap e n hn (filter f prev) hready hsrc
  have hex : ∃ f1 p1, node1 = filter f1 p1 := by
    rw [← h5]
    exact ⟨f, prev, rfl⟩
  obtain ⟨f1, p1, rfl⟩ := hex
  have hm := h4 f1 p1 rfl
  exact ⟨f1, p1, m, evs, h1, h2, hm, by simp [CheckFilters, hm, h2], h6⟩

/-- Witness for C10: the chain of two scenario filters after `InitSlot` (both stamps `-1`) is
asked for the bulk stamped `0`; afterwards both filters cache stamp `0`. -/
theorem C10_stamp_cached_witness :
    ∃ f1 prev1 m evs,
      (scenarioChain2 ⟨[true, true, true, true], -1⟩ ⟨[true, true, true, true], -1⟩).CheckFilters
          0 0 4 = some (filter f1 prev1, m, evs) ∧
      m.FirstEntry = 0 ∧ f1.fMask[0 * f1.maskStep]? = some m ∧
      (filter f1 prev1).CheckFilters 0 0 4 = some (filter f1 prev1, m, []) ∧
      (filter f1 prev1).AllStamped 0 0 := by
  obtain ⟨f1, prev1, m, evs, h1, h2, h3, h4, h5⟩ :=
    C10_stamp_cached (scenarioFilter ⟨[true, true, true, true], -1⟩)
      (scenarioChain ⟨[true, true, true, true], -1⟩) 0 4 0 4 (by decide)
      ⟨⟨⟨_, rfl, rfl⟩, by decide, by decide, by decide, by decide⟩,
        ⟨⟨_, rfl, rfl⟩, by decide, by decide, by decide, by decide⟩, rfl⟩ rfl
  refine ⟨f1, prev1, m, evs, h1, h2, h3, h4, h5 ?_⟩
  refine ⟨?_, ?_, trivial⟩
  · intro m0 hm0 hs
    simp only [scenarioFilter, Nat.zero_mul, List.getElem?_cons_zero, Option.some.injEq] at hm0
    subst hm0
    exact absurd hs (by decide)
  · intro m0 hm0 hs
    simp only [scenarioFilter, Nat.zero_mul, List.getElem?_cons_zero, Option.some.injEq] at hm0
    subst hm0
    exact absurd hs (by decide)

end RNode

namespace RNode

variable {α : Type}

theorem StopProcessing_level (node : RNode α) : node.StopProcessing.1.level = node.level := by
  induction node with
  | loopManager lm => rfl
  | filter f prev ih =>
    simp only [StopProcessing]
    split <;> simp [level, ih]

theorem StopProcessing_calls_level (node : RNode α) :
    ∀ c, c ∈ node.StopProcessing.2 → c.level < node.level := by
  induction node with
  | loopManager lm => intro c hc; cases hc
  | filter f prev ih =>
    intro c hc
    simp only [StopProcessing] at hc
    split at hc
    · simp only [List.mem_cons] at hc
      rcases hc with rfl | hc
      · simp [NodeCall.level, level]
      · have := ih c hc
        simp only [level]
        omega
    · cases hc

theorem StopProcessing_stopsReceived (node : RNode α) :
    node.StopProcessing.1.stopsReceived = node.stopsReceived + 1 := by
  cases node with
  | loopManager lm => rfl
  | filter f prev =>
    simp only [StopProcessing]
    split <;> rfl

theorem StopProcessingTimes_filter :
    ∀ (m : Nat) (f : RFilter α) (prev : RNode α),
      ∃ fm prevm, StopProcessingTimes m (filter f prev) = filter fm prevm ∧
        fm.fNStopsReceived = f.fNStopsReceived + m ∧ fm.fNChildren = f.fNChildren ∧
        prevm.level = prev.level ∧
        prevm.stopsReceived = prev.stopsReceived +
          (if f.fNStopsReceived < f.fNChildren ∧ f.fNChildren ≤ f.fNStopsReceived + m
            then 1 else 0) := by
  intro m
  induction m with
  | zero =>
    intro f prev
    refine ⟨f, prev, rfl, rfl, rfl, rfl, ?_⟩
    rw [if_neg (by omega)]
    rfl
  | succ m ih =>
    intro f prev
    by_cases h : f.fNStopsReceived + 1 = f.fNChildren
    · obtain ⟨fm, prevm, e1, e2, e3, e4, e5⟩ :=
        ih { f with fNStopsReceived := f.fNStopsReceived + 1 } prev.StopProcessing.1
      refine ⟨fm, prevm, ?_, ?_, e3, ?_, ?_⟩
      · simp only [StopProcessingTimes, StopProcessing]
        rw [if_pos h]
        exact e1
      · rw [e2]
        simp only
        omega
      · rw [e4, StopProcessing_level]
      · rw [e5, StopProcessing_stopsReceived]
        simp only
        rw [if_neg (by omega), if_pos (by omega)]
    · obtain ⟨fm, prevm, e1, e2, e3, e4, e5⟩ :=
        ih { f with fNStopsReceived := f.fNStopsReceived + 1 } prev
      refine ⟨fm, prevm, ?_, ?_, e3, e4, ?_⟩
      · simp only [StopProcessingTimes, StopProcessing]
        rw [if_neg h]
        exact e1
      · rw [e2]
        simp only
        omega
      · rw [e5]
        simp only
        by_cases hc : f.fNStopsReceived < f.fNChildren ∧ f.fNChildren ≤ f.fNStopsReceived + (m + 1)
        · rw [if_pos hc, if_pos (by omega)]
        · rw [if_neg hc, if_neg (by omega)]

/-- C11 (shutdown barrier): for a filter with `fNChildren = n ≥ 1` and `fNStopsReceived = 0`, in a
sequence of `StopProcessing` calls on it the call number `k + 1` invokes `StopProcessing` on the
predecessor exactly once when `k + 1 = n` and not at all otherwise; accordingly, after `m` calls
the predecessor has received one `StopProcessing` if `n ≤ m` and none before. -/
theorem C11_shutdown_barrier (f : RFilter α) (prev : RNode α) (n : Nat) (hn : 1 ≤ n)
    (hc : f.fNChildren = n) (hs : f.fNStopsReceived = 0) :
    (∀ k, (StopProcessingTimes k (filter f prev)).StopProcessing.2.count
        (NodeCall.stopProcessing prev.level) = if k + 1 = n then 1 else 0) ∧
      (∀ m, (StopProcessingTimes m (filter f prev)).fPrevNode.stopsReceived
        = prev.stopsReceived + (if n ≤ m then 1 else 0)) := by
  constructor
  · intro k
    obtain ⟨fk, prevk, e1, e2, e3, e4, _⟩ := StopProcessingTimes_filter k f prev
    rw [e1]
    simp only [StopProcessing, e2, e3, hc, hs, Nat.zero_add]
    by_cases h : k + 1 = n
    · simp only [h, if_true, e4, List.count_cons_self]
      have : (prevk.StopProcessing.2).count (NodeCall.stopProcessing prev.level) = 0 := by
        apply List.count_eq_zero_of_not_mem
        intro hmem
        have := StopProcessing_calls_level prevk _ hmem
        simp only [NodeCall.level, e4] at this
        omega
      omega
    · simp [h]
  · intro m
    obtain ⟨fm, prevm, e1, _, _, _, e5⟩ := StopProcessingTimes_filter m f prev
    rw [e1]
    simp only [fPrevNode, e5, hc, hs, Nat.zero_add]
    by_cases h : n ≤ m
    · rw [if_pos ⟨by omega, h⟩, if_pos h]
    · rw [if_neg (fun hx => h hx.2), if_neg h]

/-- Witness for C11: a filter with two consumers; the first `StopProcessing` forwards nothing,
the second one forwards. -/
theorem C11_shutdown_barrier_witness :
    (∀ k, (StopProcessingTimes k (scenarioConsumerChain "" 2 0)).StopProcessing.2.count
        (NodeCall.stopProcessing (loopManager scenarioLoopManager : RNode Nat).level)
        = if k + 1 = 2 then 1 else 0) ∧
      (∀ m, (StopProcessingTimes m (scenarioConsumerChain "" 2 0)).fPrevNode.stopsReceived
        = (loopManager scenarioLoopManager : RNode Nat).stopsReceived
          + (if 2 ≤ m then 1 else 0)) :=
  C11_shutdown_barrier (scenarioConsumer "" 2 0) (loopManager scenarioLoopManager) 2
    (by decide) rfl rfl

/-- The two calls of the witness of C11: the first call makes no call on the loop manager, the
second call makes one. -/
theorem scenario_two_consumers :
    (scenarioConsumerChain "" 2 0).StopProcessing.2 = [] ∧
      (scenarioConsumerChain "" 2 0).StopProcessing.1.StopProcessing.2
        = [NodeCall.stopProcessing 0] ∧
      (scenarioConsumerChain "" 2 0).StopProcessing.1.StopProcessing.1.StopProcessing.2 = [] := by
  decide

end RNode

namespace RNode

variable {α : Type}

theorem IncrChildrenCount_level (node : RNode α) :
    node.IncrChildrenCount.1.level = node.level := by
  induction node with
  | loopManager lm => rfl
  | filter f prev ih =>
    simp only [IncrChildrenCount]
    split <;> simp [level, ih]

theorem IncrChildrenCount_calls_level (node : RNode α) :
    ∀ c, c ∈ node.IncrChildrenCount.2 → c.level < node.level := by
  induction node with
  | loopManager lm => intro c hc; cases hc
  | filter f prev ih =>
    intro c hc
    simp only [IncrChildrenCount] at hc
    split at hc
    · simp only [List.mem_cons] at hc
      rcases hc with rfl | hc
      · simp [NodeCall.level, level]
      · have := ih c hc
        simp only [level]
        omega
    · cases hc

theorem IncrChildrenCount_childrenCount (node : RNode α) :
    node.IncrChildrenCount.1.childrenCount = node.childrenCount + 1 := by
  cases node with
  | loopManager lm => rfl
  | filter f prev =>
    simp only [IncrChildrenCount]
    split <;> rfl

theorem IncrChildrenCountTimes_filter :
    ∀ (m : Nat) (f : RFilter α) (prev : RNode α),
      ∃ fm prevm, IncrChildrenCountTimes m (filter f prev) = filter fm prevm ∧
        fm.fNChildren = f.fNChildren + m ∧ fm.fName = f.fName ∧
        prevm.level = prev.level ∧
        prevm.childrenCount = prev.childrenCount +
          (if f.fNChildren = 0 ∧ 1 ≤ m ∧ f.fName = "" then 1 else 0) := by
  intro m
  induction m with
  | zero =>
    intro f prev
    refine ⟨f, prev, rfl, rfl, rfl, rfl, ?_⟩
    rw [if_neg (by omega)]
    rfl
  | succ m ih =>
    intro f prev
    by_cases h : f.fNChildren + 1 = 1 ∧ f.fName = ""
    · obtain ⟨fm, prevm, e1, e2, e3, e4, e5⟩ :=
        ih { f with fNChildren := f.fNChildren + 1 } prev.IncrChildrenCount.1
      refine ⟨fm, prevm, ?_, ?_, e3, ?_, ?_⟩
      · simp only [IncrChildrenCountTimes, IncrChildrenCount]
        rw [if_pos h]
        exact e1
      · rw [e2]
        simp only
        omega
      · rw [e4, IncrChildrenCount_level]
      · rw [e5, IncrChildrenCount_childrenCount]
        simp only
        rw [if_neg (by omega), if_pos ⟨by omega, by omega, h.2⟩]
    · obtain ⟨fm, prevm, e1, e2, e3, e4, e5⟩ :=
        ih { f with fNChildren := f.fNChildren + 1 } prev
      refine ⟨fm, prevm, ?_, ?_, e3, e4, ?_⟩
      · simp only [IncrChildrenCountTimes, IncrChildrenCount]
        rw [if_neg h]
        exact e1
      · rw [e2]
        simp only
        omega
      · rw [e5]
        simp only
        rw [if_neg (by omega), if_neg]
        rintro ⟨h1, _, h3⟩
        exact h ⟨by omega, h3⟩

/-- C12 (children count): on a filter whose `fNChildren` is 0, after `k ≥ 1` calls of
`IncrChildrenCount` its `fNChildren` is `k`; the call number `j + 1` calls `IncrChildrenCount` on
the predecessor exactly once when it is the first call and the filter is unnamed, and not at all
otherwise, so that after `k ≥ 1` calls the predecessor has received one call if the filter is
unnamed and none if it is named.  On a named filter `TriggerChildrenCount` succeeds, calls
`IncrChildrenCount` on the predecessor exactly once and leaves the filter itself unchanged. -/
theorem C12_children_count (f : RFilter α) (prev : RNode α) (hc : f.fNChildren = 0) :
    (∀ k, 1 ≤ k → (IncrChildrenCountTimes k (filter f prev)).childrenCount = k) ∧
      (∀ j, (IncrChildrenCountTimes j (filter f prev)).IncrChildrenCount.2.count
        (NodeCall.incrChildrenCount prev.level) = if j = 0 ∧ f.fName = "" then 1 else 0) ∧
      (∀ k, 1 ≤ k → (IncrChildrenCountTimes k (filter f prev)).fPrevNode.childrenCount
        = prev.childrenCount + (if f.fName = "" then 1 else 0)) ∧
      (∀ g : RFilter α, g.fName ≠ "" →
        ∃ calls, (filter g prev).TriggerChildrenCount
            = some (filter g prev.IncrChildrenCount.1, calls) ∧
          calls.count (NodeCall.incrChildrenCount prev.level) = 1 ∧
          prev.IncrChildrenCount.1.childrenCount = prev.childrenCount + 1) := by
  have hzero : ∀ (p : RNode α),
      (p.IncrChildrenCount.2).count (NodeCall.incrChildrenCount p.level) = 0 := by
    intro p
    apply List.count_eq_zero_of_not_mem
    intro hmem
    have := IncrChildrenCount_calls_level p _ hmem
    simp only [NodeCall.level] at this
    omega
  refine ⟨?_, ?_, ?_, ?_⟩
  · intro k _
    obtain ⟨fk, prevk, e1, e2, _⟩ := IncrChildrenCountTimes_filter k f prev
    rw [e1]
    simp only [childrenCount, e2, hc, Nat.zero_add]
  · intro j
    obtain ⟨fj, prevj, e1, e2, e3, e4, _⟩ := IncrChildrenCountTimes_filter j f prev
    rw [e1]
    simp only [IncrChildrenCount, e2, e3, hc, Nat.zero_add]
    by_cases h : j = 0 ∧ f.fName = ""
    · rw [if_pos ⟨by omega, h.2⟩, if_pos h]
      simp only [e4, List.count_cons_self]
      have := hzero prevj
      rw [e4] at this
      omega
    · rw [if_neg, if_neg h]
      · rfl
      · rintro ⟨h1, h2⟩
        exact h ⟨by omega, h2⟩
  · intro k hk
    obtain ⟨fk, prevk, e1, _, _, _, e5⟩ := IncrChildrenCountTimes_filter k f prev
    rw [e1]
    simp only [fPrevNode]
    rw [e5]
    by_cases h : f.fName = ""
    · rw [if_pos ⟨hc, hk, h⟩, if_pos h]
    · rw [if_neg (fun hx => h hx.2.2), if_neg h]
  · intro g hg
    refine ⟨NodeCall.incrChildrenCount prev.level :: prev.IncrChildrenCount.2,
      by simp [TriggerChildrenCount, hg], ?_, IncrChildrenCount_childrenCount prev⟩
    simp only [List.count_cons_self]
    have := hzero prev
    omega

/-- Witness for C12: the unnamed scenario filter with no consumer yet, and the same filter named
`"cut"` for `TriggerChildrenCount`. -/
theorem C12_children_count_witness :
    (∀ k, 1 ≤ k → (IncrChildrenCountTimes k (scenarioConsumerChain "" 0 0)).childrenCount = k) ∧
      (∀ j, (IncrChildrenCountTimes j (scenarioConsumerChain "" 0 0)).IncrChildrenCount.2.count
        (NodeCall.incrChildrenCount (loopManager scenarioLoopManager : RNode Nat).level)
        = if j = 0 ∧ (scenarioConsumer "" 0 0).fName = "" then 1 else 0) ∧
      (∀ k, 1 ≤ k → (IncrChildrenCountTimes k (scenarioConsumerChain "" 0 0)).fPrevNode.childrenCount
        = (loopManager scenarioLoopManager : RNode Nat).childrenCount
          + (if (scenarioConsumer "" 0 0).fName = "" then 1 else 0)) ∧
      (∃ calls, (scenarioConsumerChain "cut" 0 0).TriggerChildrenCount
          = some (filter (scenarioConsumer "cut" 0 0)
              (loopManager scenarioLoopManager : RNode Nat).IncrChildrenCount.1, calls) ∧
        calls.count (NodeCall.incrChildrenCount
          (loopManager scenarioLoopManager : RNode Nat).level) = 1) := by
  obtain ⟨h1, h2, h3, h4⟩ := C12_children_count (scenarioConsumer "" 0 0)
    (loopManager scenarioLoopManager) rfl
  obtain ⟨calls, e1, e2, _⟩ := h4 (scenarioConsumer "cut" 0 0) (by decide)
  exact ⟨h1, h2, h3, calls, e1, e2⟩

/-- The calls of the scenario of C12: the first `IncrChildrenCount` on an unnamed filter is
forwarded to the loop manager, the second one is not; on a named filter none is forwarded. -/
theorem scenario_children_count :
    (scenarioConsumerChain "" 0 0).IncrChildrenCount.2 = [NodeCall.incrChildrenCount 0] ∧
      (scenarioConsumerChain "" 0 0).IncrChildrenCount.1.IncrChildrenCount.2 = [] ∧
      (scenarioConsumerChain "cut" 0 0).IncrChildrenCount.2 = [] ∧
      (scenarioConsumerChain "cut" 0 0).IncrChildrenCount.1.childrenCount = 1 := by
  decide

end RNode

theorem mapFind_mapAssign_self {γ : Type} (m : List (String × γ)) (key : String) (x : γ) :
    mapFind (mapAssign m key x) key = some x := by
  induction m with
  | nil => simp [mapAssign, mapFind]
  | cons e m ih =>
    obtain ⟨k, v⟩ := e
    by_cases h : k = key
    · simp [mapAssign, mapFind, h]
    · simp [mapAssign, mapFind, h, ih]

theorem mapFind_mapAssign_ne {γ : Type} (m : List (String × γ)) (key key1 : String) (x : γ)
    (hne : key1 ≠ key) : mapFind (mapAssign m key x) key1 = mapFind m key1 := by
  induction m with
  | nil =>
    have : ¬ key = key1 := fun h => hne h.symm
    simp [mapAssign, mapFind, this]
  | cons e m ih =>
    obtain ⟨k, v⟩ := e
    by_cases h : k = key
    · subst h
      have : ¬ k = key1 := fun h => hne h.symm
      simp [mapAssign, mapFind, this]
    · by_cases h1 : k = key1
      · subst h1
        simp [mapAssign, mapFind, h]
      · simp [mapAssign, mapFind, h, h1, ih]

namespace RDefineNode

variable {α β : Type}

theorem makeVariation_spec (blank : Blank α β) (n : RDefineNode α β) (v : String) :
    (makeVariation blank n v).1.state = n.state ∧
      (∀ k, mapFind (makeVariation blank n v).1.fVariedDefines k
        = if k = v ∧ v ∈ n.state.fVariationDeps ∧ (mapFind n.fVariedDefines v).isNone
          then some (RDefine.construct blank n.state.fName n.state.fType n.state.fExpression
            n.state.fColumnNames n.state.fVariationDeps n.state.fLoopManager n.state.maskStep
            n.state.resultsStep v)
          else mapFind n.fVariedDefines k) ∧
      (makeVariation blank n v).2
        = if v ∈ n.state.fVariationDeps ∧ (mapFind n.fVariedDefines v).isNone
          then [v] else [] := by
  unfold makeVariation
  by_cases h1 : v ∈ n.state.fVariationDeps
  · cases h2 : mapFind n.fVariedDefines v with
    | some x =>
      simp only [h1, not_true_eq_false, if_false, Option.isSome_some, if_true, true_and,
        Option.isNone_some, Bool.false_eq_true, and_false]
      exact ⟨fun _ => trivial, trivial⟩
    | none =>
      simp only [h1, not_true_eq_false, if_false, Option.isSome_none, Bool.false_eq_true,
        true_and, and_true, if_true, Option.isNone_none]
      intro k
      by_cases hk : k = v
      · subst hk
        rw [if_pos rfl, mapFind_mapAssign_self]
      · rw [if_neg hk, mapFind_mapAssign_ne _ _ _ _ hk]
  · simp only [h1, not_false_eq_true, if_true, false_and, and_false, if_false, true_and]
    exact ⟨fun _ => trivial, trivial⟩

end RDefineNode

namespace RDefineNode

variable {α β : Type}

theorem MakeVariations_spec (blank : Blank α β) :
    ∀ (tags : List String) (n : RDefineNode α β),
      (MakeVariations blank n tags).1.state = n.state ∧
      (∀ k, mapFind (MakeVariations blank n tags).1.fVariedDefines k
        = if (mapFind n.fVariedDefines k).isNone ∧ k ∈ tags ∧ k ∈ n.state.fVariationDeps
          then some (RDefine.construct blank n.state.fName n.state.fType n.state.fExpression
            n.state.fColumnNames n.state.fVariationDeps n.state.fLoopManager n.state.maskStep
            n.state.resultsStep k)
          else mapFind n.fVariedDefines k) ∧
      (∀ k, k ∈ (MakeVariations blank n tags).2
        ↔ k ∈ tags ∧ k ∈ n.state.fVariationDeps ∧ (mapFind n.fVariedDefines k).isNone) ∧
      (MakeVariations blank n tags).2.Nodup := by
  intro tags
  induction tags with
  | nil =>
    intro n
    refine ⟨rfl, ?_, ?_, List.nodup_nil⟩
    · intro k
      rw [if_neg (by simp)]
      rfl
    · intro k
      simp [MakeVariations]
  | cons v rest ih =>
    intro n
    obtain ⟨s0, f0, b0⟩ := makeVariation_spec blank n v
    obtain ⟨s1, f1, b1, nd1⟩ := ih (makeVariation blank n v).1
    simp only [MakeVariations]
    rw [s0] at f1 b1
    refine ⟨by rw [s1, s0], ?_, ?_, ?_⟩
    · intro k
      rw [f1 k]
      by_cases hk : k = v
      · subst hk
        by_cases hc : k ∈ n.state.fVariationDeps ∧ (mapFind n.fVariedDefines k).isNone
        · have e0 := f0 k
          rw [if_pos ⟨rfl, hc⟩] at e0
          rw [e0, if_neg (by simp), if_pos ⟨hc.2, List.mem_cons_self _ _, hc.1⟩]
        · have e0 := f0 k
          rw [if_neg (fun h => hc h.2)] at e0
          rw [e0, if_neg (fun h => hc ⟨h.2.2, h.1⟩), if_neg (fun h => hc ⟨h.2.2, h.1⟩)]
      · have e0 := f0 k
        rw [if_neg (fun h => hk h.1)] at e0
        rw [e0]
        simp only [List.mem_cons, hk, false_or]
    · intro k
      rw [List.mem_append, b1 k, b0]
      by_cases hk : k = v
      · subst hk
        by_cases hc : k ∈ n.state.fVariationDeps ∧ (mapFind n.fVariedDefines k).isNone
        · rw [if_pos hc]
          simp [hc.1, hc.2]
        · have e0 := f0 k
          rw [if_neg (fun h => hc h.2)] at e0
          rw [if_neg hc, e0]
          simp only [List.not_mem_nil, false_or, List.mem_cons, true_or, true_and]
          constructor
          · rintro ⟨_, h2, h3⟩
            exact ⟨h2, h3⟩
          · rintro ⟨h2, h3⟩
            exact absurd ⟨h2, h3⟩ hc
      · have e0 := f0 k
        rw [if_neg (fun h => hk h.1)] at e0
        rw [e0]
        have hv : k ∉ (if v ∈ n.state.fVariationDeps ∧ (mapFind n.fVariedDefines v).isNone
            then [v] else []) := by
          split <;> simp [hk]
        simp only [hv, false_or, List.mem_cons, hk]
    · rw [List.nodup_append]
      refine ⟨?_, nd1, ?_⟩
      · rw [b0]
        split <;> simp
      · intro a ha hb
        rw [b0] at ha
        split at ha
        · rename_i hc
          simp only [List.mem_singleton] at ha
          subst ha
          rw [b1 a, f0 a, if_pos ⟨rfl, hc⟩] at hb
          simp at hb
        · cases ha

theorem MakeVariations_noop (blank : Blank α β) :
    ∀ (tags : List String) (n : RDefineNode α β),
      (∀ k, k ∈ tags → k ∈ n.state.fVariationDeps → (mapFind n.fVariedDefines k).isSome) →
      MakeVariations blank n tags = (n, []) := by
  intro tags
  induction tags with
  | nil => intro n _; rfl
  | cons v rest ih =>
    intro n h
    have h0 : makeVariation blank n v = (n, []) := by
      unfold makeVariation
      by_cases h1 : v ∈ n.state.fVariationDeps
      · simp [h1, h v (List.mem_cons_self _ _) h1]
      · simp [h1]
    simp only [MakeVariations, h0]
    rw [ih n (fun k hk => h k (List.mem_cons_of_mem _ hk))]
    rfl

end RDefineNode

namespace RDefineNode

variable {α β : Type}

theorem RegistryOk_MakeVariations (blank : Blank α β) (d : RDefine α β) (n : RDefineNode α β)
    (tags : List String) (h : RegistryOk blank d n) :
    RegistryOk blank d (MakeVariations blank n tags).1 ∧
      ∀ k v, mapFind n.fVariedDefines k = some v →
        mapFind (MakeVariations blank n tags).1.fVariedDefines k = some v := by
  obtain ⟨s1, f1, _, _⟩ := MakeVariations_spec blank tags n
  obtain ⟨hs, hreg⟩ := h
  refine ⟨⟨by rw [s1, hs], ?_⟩, ?_⟩
  · intro k v hk
    rw [f1 k] at hk
    split at hk
    · rename_i hc
      rw [hs] at hc hk
      simp only [Option.some.injEq] at hk
      exact ⟨hc.2.2, hk.symm⟩
    · exact hreg k v hk
  · intro k v hk
    rw [f1 k, if_neg (by simp [hk]), hk]

theorem RegistryOk_MakeVariationsSeq (blank : Blank α β) (d : RDefine α β) :
    ∀ (calls : List (List String)) (n : RDefineNode α β), RegistryOk blank d n →
      RegistryOk blank d (MakeVariationsSeq blank n calls) ∧
        ∀ k v, mapFind n.fVariedDefines k = some v →
          mapFind (MakeVariationsSeq blank n calls).fVariedDefines k = some v := by
  intro calls
  induction calls with
  | nil => intro n h; exact ⟨h, fun _ _ hk => hk⟩
  | cons tags rest ih =>
    intro n h
    obtain ⟨h1, p1⟩ := RegistryOk_MakeVariations blank d n tags h
    obtain ⟨h2, p2⟩ := ih _ h1
    exact ⟨h2, fun k v hk => p2 k v (p1 k v hk)⟩

theorem RegistryOk_constructed (blank : Blank α β) (d : RDefine α β) :
    RegistryOk blank d ⟨d, []⟩ :=
  ⟨rfl, fun k v hk => by simp [mapFind] at hk⟩

/-- C13 (tag the column does not depend on): in every state reached from a define with an empty
registry by `MakeVariations` calls, the keys of the registry of varied defines are variations the
column depends on, and for a tag outside the dependencies `GetVariedDefine` succeeds, returns the
reference to the nominal define itself and leaves the state, registry included, unchanged. -/
theorem C13_independent_tag_returns_self (blank : Blank α β) (d : RDefine α β)
    (calls : List (List String)) (tag : String) (htag : tag ∉ d.fVariationDeps) :
    (∀ k, (mapFind (MakeVariationsSeq blank ⟨d, []⟩ calls).fVariedDefines k).isSome →
        k ∈ d.fVariationDeps) ∧
      (MakeVariationsSeq blank ⟨d, []⟩ calls).GetVariedDefine tag
        = some (MakeVariationsSeq blank ⟨d, []⟩ calls, DefineRef.self) := by
  obtain ⟨⟨hs, hreg⟩, _⟩ :=
    RegistryOk_MakeVariationsSeq blank d calls ⟨d, []⟩ (RegistryOk_constructed blank d)
  have hkeys : ∀ k, (mapFind (MakeVariationsSeq blank ⟨d, []⟩ calls).fVariedDefines k).isSome →
      k ∈ d.fVariationDeps := by
    intro k hk
    cases hf : mapFind (MakeVariationsSeq blank ⟨d, []⟩ calls).fVariedDefines k with
    | none => simp [hf] at hk
    | some v => exact (hreg k v hf).1
  refine ⟨hkeys, ?_⟩
  unfold GetVariedDefine
  cases hf : mapFind (MakeVariationsSeq blank ⟨d, []⟩ calls).fVariedDefines tag with
  | none => simp [hs, htag]
  | some v => exact absurd (hkeys tag (by simp [hf])) htag

/-- Witness for C13: the scenario column depends on `"x:up"` and `"x:down"`; after
`MakeVariations(["x:up", "z:up"])` the tag `"z:up"` is resolved to the column itself. -/
theorem C13_independent_tag_returns_self_witness :
    (∀ k, (mapFind (MakeVariationsSeq scenarioBlank ⟨scenarioDefineNode.state, []⟩
          [["x:up", "z:up"]]).fVariedDefines k).isSome →
        k ∈ scenarioDefineNode.state.fVariationDeps) ∧
      (MakeVariationsSeq scenarioBlank ⟨scenarioDefineNode.state, []⟩
          [["x:up", "z:up"]]).GetVariedDefine "z:up"
        = some (MakeVariationsSeq scenarioBlank ⟨scenarioDefineNode.state, []⟩
            [["x:up", "z:up"]], DefineRef.self) :=
  C13_independent_tag_returns_self scenarioBlank scenarioDefineNode.state [["x:up", "z:up"]]
    "z:up" (by decide)

/-- C14 (tag the column depends on): in a state reached from a define `d` with an empty registry
by `MakeVariations` calls, after `MakeVariations` with a list containing a tag `d` depends on,
`GetVariedDefine(tag)` returns the reference to a varied define, which is not the reference to
the nominal define; that define has the name, type, expression and input-column names of `d` and
the tag as variation name; and after any further `MakeVariations` calls the tag still designates
the same define. -/
theorem C14_dependent_tag_returns_varied (blank : Blank α β) (d : RDefine α β)
    (calls : List (List String)) (tags : List String) (tag : String) (hmem : tag ∈ tags)
    (hdep : tag ∈ d.fVariationDeps) :
    ∃ v, (MakeVariations blank (MakeVariationsSeq blank ⟨d, []⟩ calls) tags).1.get
          (DefineRef.varied tag) = some v ∧
      (MakeVariations blank (MakeVariationsSeq blank ⟨d, []⟩ calls) tags).1.GetVariedDefine tag
        = some ((MakeVariations blank (MakeVariationsSeq blank ⟨d, []⟩ calls) tags).1,
            DefineRef.varied tag) ∧
      DefineRef.varied tag ≠ DefineRef.self ∧
      v.fName = d.fName ∧ v.fType = d.fType ∧ v.fExpression = d.fExpression ∧
      v.fColumnNames = d.fColumnNames ∧ v.fVariation = tag ∧
      ∀ later : List (List String),
        (MakeVariationsSeq blank
            (MakeVariations blank (MakeVariationsSeq blank ⟨d, []⟩ calls) tags).1 later).get
            (DefineRef.varied tag) = some v ∧
          (MakeVariationsSeq blank
            (MakeVariations blank (MakeVariationsSeq blank ⟨d, []⟩ calls) tags).1
              later).GetVariedDefine tag
            = some (MakeVariationsSeq blank
                (MakeVariations blank (MakeVariationsSeq blank ⟨d, []⟩ calls) tags).1 later,
              DefineRef.varied tag) := by
  obtain ⟨h0, _⟩ :=
    RegistryOk_MakeVariationsSeq blank d calls ⟨d, []⟩ (RegistryOk_constructed blank d)
  obtain ⟨h1, _⟩ := RegistryOk_MakeVariations blank d _ tags h0
  obtain ⟨_, f1, _, _⟩ := MakeVariations_spec blank tags (MakeVariationsSeq blank ⟨d, []⟩ calls)
  have hsome : ∃ v, mapFind (MakeVariations blank (MakeVariationsSeq blank ⟨d, []⟩ calls)
      tags).1.fVariedDefines tag = some v := by
    rw [f1 tag]
    cases hf : mapFind (MakeVariationsSeq blank ⟨d, []⟩ calls).fVariedDefines tag with
    | none =>
      rw [if_pos ⟨by simp, hmem, by rw [h0.1]; exact hdep⟩]
      exact ⟨_, rfl⟩
    | some x =>
      rw [if_neg (by simp)]
      exact ⟨x, rfl⟩
  obtain ⟨v, hv⟩ := hsome
  obtain ⟨_, hform⟩ := h1.2 tag v hv
  refine ⟨v, hv, by simp [GetVariedDefine, hv], by simp, ?_, ?_, ?_, ?_, ?_, ?_⟩
  · rw [hform]; rfl
  · rw [hform]; rfl
  · rw [hform]; rfl
  · rw [hform]; rfl
  · rw [hform]; rfl
  · intro later
    obtain ⟨_, p2⟩ := RegistryOk_MakeVariationsSeq blank d later _ h1
    have := p2 tag v hv
    exact ⟨this, by simp [GetVariedDefine, this]⟩

/-- C15 (each varied define is built once): after `MakeVariations(tags)` a key is in the registry
exactly when it was there before or is a tag of the list the column depends on; every entry
present before is the same afterwards; the varied defines constructed are those of the tags of
the list that the column depends on and that had no entry, each constructed once; the other
members of the define are unchanged; and a second `MakeVariations(tags)` changes nothing and
constructs nothing. -/
theorem C15_make_variations_once (blank : Blank α β) (n : RDefineNode α β)
    (tags : List String) :
    (∀ k, (mapFind (MakeVariations blank n tags).1.fVariedDefines k).isSome
        ↔ ((mapFind n.fVariedDefines k).isSome ∨ (k ∈ tags ∧ k ∈ n.state.fVariationDeps))) ∧
      (∀ k v, mapFind n.fVariedDefines k = some v →
        mapFind (MakeVariations blank n tags).1.fVariedDefines k = some v) ∧
      (∀ k, (MakeVariations blank n tags).2.count k
        = if k ∈ tags ∧ k ∈ n.state.fVariationDeps ∧ (mapFind n.fVariedDefines k).isNone
          then 1 else 0) ∧
      (MakeVariations blank n tags).1.state = n.state ∧
      MakeVariations blank (MakeVariations blank n tags).1 tags
        = ((MakeVariations blank n tags).1, []) := by
  obtain ⟨s1, f1, b1, nd1⟩ := MakeVariations_spec blank tags n
  have hkeys : ∀ k, (mapFind (MakeVariations blank n tags).1.fVariedDefines k).isSome
      ↔ ((mapFind n.fVariedDefines k).isSome ∨ (k ∈ tags ∧ k ∈ n.state.fVariationDeps)) := by
    intro k
    rw [f1 k]
    cases hf : mapFind n.fVariedDefines k with
    | none =>
      by_cases hc : k ∈ tags ∧ k ∈ n.state.fVariationDeps
      · rw [if_pos ⟨by simp, hc⟩]
        simp [hc]
      · rw [if_neg (fun h => hc h.2)]
        simp [hc]
    | some x =>
      rw [if_neg (by simp)]
      simp
  refine ⟨hkeys, ?_, ?_, s1, ?_⟩
  · intro k v hk
    rw [f1 k, if_neg (by simp [hk]), hk]
  · intro k
    rw [List.count_eq_of_nodup nd1]
    simp only [b1 k]
  · apply MakeVariations_noop
    intro k hk hdep
    rw [s1] at hdep
    rw [hkeys k]
    exact Or.inr ⟨hk, hdep⟩

end RDefineNode

namespace RDefine

variable {α β : Type}

theorem Update_succeeds (d : RDefine α β) (slot cap : Nat) (m : RMaskedEntryRange) (bs : Nat)
    (h : SlotReady d slot cap) (hm : bs ≤ m.fMask.length) (hb : bs ≤ cap) :
    ∃ r, d.Update slot m bs = some r := by
  obtain ⟨⟨vm, hvm, hvl⟩, ⟨res, hr, hrl⟩, hrd, hp⟩ := h
  obtain ⟨reader, hreader⟩ : ∃ r, d.fValueReaders[slot]? = some r :=
    ⟨_, List.getElem?_eq_getElem hrd⟩
  have hi1 := lt_length_of_getElem? hvm
  cases hk : d.fExpression.kUsingBulkAPI with
  | false =>
    by_cases hne : vm.fBegin = m.fBegin
    · by_cases hC : vm.Contains m bs = sizeMax
      · exact ⟨_, Update_covered d slot m vm bs hvm hne hC⟩
      · by_cases hz : vm.Contains m bs = 0
        · obtain ⟨res1, e1, _⟩ := Update_gapZero d slot m vm bs res reader hvm hr hreader hp hk
            hm (by omega) hne hz
          exact ⟨_, e1⟩
        · obtain ⟨res1, vm1, e1, _⟩ := Update_gapPos d slot m vm bs res reader hvm hr hreader hp
            hk hm (by omega) (by omega) hne hz hC
          exact ⟨_, e1⟩
    · obtain ⟨res1, e1, _⟩ := Update_newBulk d slot m vm bs res reader hvm hr hreader hp hk
        hm (by omega) hne
      exact ⟨_, e1⟩
  | true =>
    cases hE : d.fExpression with
    | none f => simp [hE, DefineExpression.kUsingBulkAPI] at hk
    | slot f => simp [hE, DefineExpression.kUsingBulkAPI] at hk
    | slotAndEntry f => simp [hE, DefineExpression.kUsingBulkAPI] at hk
    | bulk f =>
      have hload : ∀ (d0 : RDefine α β) (g : Nat), d0.fExpression = DefineExpression.bulk f →
          d0.fValueReaders[slot]? = some reader → slot < d0.fValuePtrs.length →
          d0.fLastResults[slot * d0.resultsStep]? = some res →
          slot * d0.maskStep < d0.fMask.length →
          ∃ r, loadAndDispatch d0 slot m bs g = some r := by
        intro d0 g h1 h2 h3 h4 h5
        simp [loadAndDispatch, h1, h2, assignAt, h3, UpdateHelperBulk, h4, h5]
      unfold Update
      simp only [hvm, Option.bind_eq_bind, Option.some_bind]
      by_cases hne : vm.FirstEntry ≠ m.FirstEntry
      · rw [if_pos hne]
        exact hload _ 0 hE hreader hp hr (by simpa using hi1)
      · rw [if_neg hne]
        by_cases hC : vm.Contains m bs = sizeMax
        · rw [if_pos hC]
          exact ⟨_, rfl⟩
        · rw [if_neg hC]
          exact hload _ _ hE hreader hp hr hi1

end RDefine

namespace RDefineNode

variable {α β : Type}

/-- Witness for C14: the scenario column after `MakeVariations(["x:up"])`. -/
theorem C14_dependent_tag_returns_varied_witness :
    ∃ v, (MakeVariations scenarioBlank
          (MakeVariationsSeq scenarioBlank ⟨scenarioDefineNode.state, []⟩ []) ["x:up"]).1.get
          (DefineRef.varied "x:up") = some v ∧
      v.fName = "y" ∧ v.fVariation = "x:up" := by
  obtain ⟨v, h1, _, _, h4, _, _, _, h8, _⟩ := C14_dependent_tag_returns_varied scenarioBlank
    scenarioDefineNode.state [] ["x:up"] "x:up" (by decide) (by decide)
  exact ⟨v, h1, h4, h8⟩

/-- Witness for C15: `MakeVariations(["x:up", "z:up", "x:up"])` on the scenario column constructs
the varied define of `"x:up"` once and none for `"z:up"`. -/
theorem C15_make_variations_once_witness :
    (MakeVariations scenarioBlank scenarioDefineNode ["x:up", "z:up", "x:up"]).2.count "x:up"
        = 1 ∧
      (MakeVariations scenarioBlank scenarioDefineNode ["x:up", "z:up", "x:up"]).2.count "z:up"
        = 0 ∧
      MakeVariations scenarioBlank
          (MakeVariations scenarioBlank scenarioDefineNode ["x:up", "z:up", "x:up"]).1
          ["x:up", "z:up", "x:up"]
        = ((MakeVariations scenarioBlank scenarioDefineNode ["x:up", "z:up", "x:up"]).1, []) := by
  obtain ⟨_, _, h3, _, h5⟩ := C15_make_variations_once scenarioBlank scenarioDefineNode
    ["x:up", "z:up", "x:up"]
  refine ⟨?_, ?_, h5⟩
  · rw [h3 "x:up"]
    decide
  · rw [h3 "z:up"]
    decide

/-- C16 (independent caches): when a tag has a varied define in the registry, `GetVariedDefine`
returns the reference to it, `Update` on that varied define succeeds and leaves the nominal define, its cached masks and results buffers
included, and the other varied defines unchanged; `Update` on the nominal define succeeds and
leaves the registry, hence the cached masks and results buffers of the varied define,
unchanged. -/
theorem C16_independent_caches (n : RDefineNode α β) (tag : String) (v : RDefine α β)
    (slot cap : Nat) (m : RMaskedEntryRange) (bs : Nat)
    (hv : n.get (DefineRef.varied tag) = some v)
    (hreadyv : RDefine.SlotReady v slot cap) (hreadyn : RDefine.SlotReady n.state slot cap)
    (hm : bs ≤ m.fMask.length) (hb : bs ≤ cap) :
    n.GetVariedDefine tag = some (n, DefineRef.varied tag) ∧
    (∃ n1 calls, n.Update (DefineRef.varied tag) slot m bs = some (n1, calls) ∧
        n1.state = n.state ∧ n1.state.fMask = n.state.fMask ∧
        n1.state.fLastResults = n.state.fLastResults ∧
        ∀ k, k ≠ tag → n1.get (DefineRef.varied k) = n.get (DefineRef.varied k)) ∧
      (∃ n2 calls, n.Update DefineRef.self slot m bs = some (n2, calls) ∧
        n2.fVariedDefines = n.fVariedDefines ∧ n2.get (DefineRef.varied tag) = some v) := by
  simp only [get] at hv
  refine ⟨by simp [GetVariedDefine, hv], ?_, ?_⟩
  · obtain ⟨r, hr⟩ := RDefine.Update_succeeds v slot cap m bs hreadyv hm hb
    refine ⟨{ n with fVariedDefines := mapAssign n.fVariedDefines tag r.1 }, r.2,
      by simp [Update, hv, hr], rfl, rfl, rfl, ?_⟩
    intro k hk
    simp only [get]
    exact mapFind_mapAssign_ne _ _ _ _ hk
  · obtain ⟨r, hr⟩ := RDefine.Update_succeeds n.state slot cap m bs hreadyn hm hb
    exact ⟨{ n with state := r.1 }, r.2, by simp [Update, hr], rfl, hv⟩

/-- Witness for C16: the scenario column with the varied define of `"x:up"`, slot 0, the request
`[T, T, F, F]` for the bulk stamped `0`. -/
theorem C16_independent_caches_witness :
    (∃ n1 calls, (MakeVariations scenarioBlank scenarioDefineNode ["x:up"]).1.Update
          (DefineRef.varied "x:up") 0 ⟨[true, true, false, false], 0⟩ 4 = some (n1, calls) ∧
        n1.state = (MakeVariations scenarioBlank scenarioDefineNode ["x:up"]).1.state) ∧
      (∃ n2 calls, (MakeVariations scenarioBlank scenarioDefineNode ["x:up"]).1.Update
          DefineRef.self 0 ⟨[true, true, false, false], 0⟩ 4 = some (n2, calls) ∧
        n2.fVariedDefines
          = (MakeVariations scenarioBlank scenarioDefineNode ["x:up"]).1.fVariedDefines) := by
  obtain ⟨_, ⟨n1, c1, h1, h2, _⟩, ⟨n2, c2, h3, h4, _⟩⟩ := C16_independent_caches
    (MakeVariations scenarioBlank scenarioDefineNode ["x:up"]).1 "x:up"
    (RDefine.construct scenarioBlank "y" "int" (DefineExpression.none (fun x => 2 * x))
      ["x"] ["x:up", "x:down"] scenarioLoopManager 1 1 "x:up")
    0 4 ⟨[true, true, false, false], 0⟩ 4 rfl
    ⟨⟨_, rfl, rfl⟩, ⟨_, rfl, rfl⟩, by decide, by decide⟩
    ⟨⟨_, rfl, rfl⟩, ⟨_, rfl, rfl⟩, by decide, by decide⟩ (by decide) (by decide)
  exact ⟨⟨n1, c1, h1, h2⟩, ⟨n2, c2, h3, h4⟩⟩

end RDefineNode

namespace RVariation

variable {α γ : Type}

theorem assignLoop_ok (value : Nat → Option γ) (bulkIdx cap : Nat) (hb : bulkIdx < cap) :
    ∀ (k i : Nat) (storage : List (List γ)),
      (∀ j, i ≤ j → j < i + k → ∃ x, value j = some x) → i + k ≤ storage.length →
      (∀ bulk, bulk ∈ storage → bulk.length = cap) →
      ∃ st1, assignLoop value bulkIdx i k storage = some st1 ∧
        st1.length = storage.length ∧ ∀ bulk, bulk ∈ st1 → bulk.length = cap := by
  intro k
  induction k with
  | zero => intro i storage _ _ h; exact ⟨storage, rfl, rfl, h⟩
  | succ k ih =>
    intro i storage hval hlen hbulk
    obtain ⟨x, hx⟩ := hval i (le_refl _) (by omega)
    have hi : i < storage.length := by omega
    have hget : storage[i]? = some storage[i] := List.getElem?_eq_getElem hi
    have hbl : storage[i].length = cap := hbulk _ (List.getElem_mem hi)
    have hbulk1 : ∀ bulk, bulk ∈ storage.set i (storage[i].set bulkIdx x) → bulk.length = cap := by
      intro bulk hmem
      rcases List.mem_or_eq_of_mem_set hmem with h | h
      · exact hbulk bulk h
      · rw [h, List.length_set, hbl]
    obtain ⟨st1, e1, e2, e3⟩ := ih (i + 1) (storage.set i (storage[i].set bulkIdx x))
      (fun j h1 h2 => hval j (by omega) (by omega)) (by rw [List.length_set]; omega) hbulk1
    refine ⟨st1, ?_, by rw [e2, List.length_set], e3⟩
    simp only [assignLoop, hx, hget, Option.bind_eq_bind, Option.some_bind, assignAt, hbl, hb,
      if_true, hi, e1]

theorem assignColumnsLoop_ok (tmp : List (List γ)) (bulkIdx nTags cap : Nat) (hb : bulkIdx < cap) :
    ∀ (k c : Nat) (storage : List (List (List γ))),
      (∀ j, c ≤ j → j < c + k → ∃ t, tmp[j]? = some t ∧ nTags ≤ t.length) →
      c + k ≤ storage.length →
      (∀ column, column ∈ storage →
        column.length = nTags ∧ ∀ bulk, bulk ∈ column → bulk.length = cap) →
      ∃ st1, assignColumnsLoop tmp bulkIdx nTags c k storage = some st1 ∧
        st1.length = storage.length ∧
        ∀ column, column ∈ st1 →
          column.length = nTags ∧ ∀ bulk, bulk ∈ column → bulk.length = cap := by
  intro k
  induction k with
  | zero => intro c storage _ _ h; exact ⟨storage, rfl, rfl, h⟩
  | succ k ih =>
    intro c storage htmp hlen hcol
    obtain ⟨t, ht, htl⟩ := htmp c (le_refl _) (by omega)
    have hc : c < storage.length := by omega
    have hget : storage[c]? = some storage[c] := List.getElem?_eq_getElem hc
    obtain ⟨hcl, hcb⟩ := hcol _ (List.getElem_mem hc)
    obtain ⟨col1, a1, a2, a3⟩ := assignLoop_ok (fun i => (tmp[c]?).bind (fun t => t[i]?))
      bulkIdx cap hb nTags 0 storage[c]
      (fun j _ hj => by
        have hjt : j < t.length := by omega
        exact ⟨t[j], by simp [ht, List.getElem?_eq_getElem hjt]⟩)
      (by omega) hcb
    have hcol1 : ∀ column, column ∈ storage.set c col1 →
        column.length = nTags ∧ ∀ bulk, bulk ∈ column → bulk.length = cap := by
      intro column hmem
      rcases List.mem_or_eq_of_mem_set hmem with h | h
      · exact hcol column h
      · rw [h]
        exact ⟨by rw [a2, hcl], a3⟩
    obtain ⟨st1, e1, e2, e3⟩ := ih (c + 1) (storage.set c col1)
      (fun j h1 h2 => htmp j (by omega) (by omega)) (by rw [List.length_set]; omega) hcol1
    refine ⟨st1, ?_, by rw [e2, List.length_set], e3⟩
    simp only [assignColumnsLoop, hget, Option.bind_eq_bind, Option.some_bind, a1, assignAt, hc,
      if_true, e1]

theorem UpdateHelper_ok (v : RVariation α γ) (slot idx nCols nTags cap : Nat)
    (h : StorageReady v slot nCols nTags cap) (hidx : idx < cap) :
    ∃ v1, v.UpdateHelper slot idx = some v1 ∧ SameButResults v v1 ∧
      StorageReady v1 slot nCols nTags cap := by
  obtain ⟨hp, st, hst, hfit⟩ := h
  have hptr : v.fValuePtrs[slot]? = some v.fValuePtrs[slot] := List.getElem?_eq_getElem hp
  have hi := RDefine.lt_length_of_getElem? hst
  cases hE : v.fExpression with
  | single f =>
    cases st with
    | multi s => simp [Fits, hE] at hfit
    | single s =>
      simp only [Fits, hE] at hfit
      obtain ⟨h1, h2, h3⟩ := hfit
      obtain ⟨s1, a1, a2, a3⟩ := assignLoop_ok (fun i => (f (v.fValuePtrs[slot] idx))[i]?) idx cap
        hidx s.length 0 s
        (fun j _ hj => by
          have hjt : j < (f (v.fValuePtrs[slot] idx)).length := by
            have := h3 (v.fValuePtrs[slot] idx)
            omega
          exact ⟨(f (v.fValuePtrs[slot] idx))[j], List.getElem?_eq_getElem hjt⟩) (by omega) h2
      refine ⟨{ v with
          fLastResults := v.fLastResults.set (slot * v.resultsStep) (VaryResults.single s1) },
        ?_, ⟨rfl, rfl, rfl, rfl, rfl, rfl, by simp⟩, ?_⟩
      · simp only [UpdateHelper, hptr, hst, hE, Option.bind_eq_bind, Option.some_bind,
          AssignResultsSingle, a1]
      · refine ⟨hp, VaryResults.single s1, by simp [hi], ?_⟩
        simp only [Fits, hE]
        exact ⟨by rw [a2, h1], a3, h3⟩
  | multi f =>
    cases st with
    | single s => simp [Fits, hE] at hfit
    | multi s =>
      simp only [Fits, hE] at hfit
      obtain ⟨h1, h2, h3, h4⟩ := hfit
      have h0 : 0 < s.length := by omega
      have hfirst : s[0]? = some s[0] := List.getElem?_eq_getElem h0
      have hfl : s[0].length = nTags := (h3 _ (List.getElem_mem h0)).1
      obtain ⟨s1, a1, a2, a3⟩ := assignColumnsLoop_ok (f (v.fValuePtrs[slot] idx)) idx nTags cap
        hidx s.length 0 s (fun j _ hj => h4 _ j (by omega)) (by omega) h3
      refine ⟨{ v with
          fLastResults := v.fLastResults.set (slot * v.resultsStep) (VaryResults.multi s1) },
        ?_, ⟨rfl, rfl, rfl, rfl, rfl, rfl, by simp⟩, ?_⟩
      · simp only [UpdateHelper, hptr, hst, hE, Option.bind_eq_bind, Option.some_bind,
          AssignResultsMulti, hfirst, hfl, a1]
      · refine ⟨hp, VaryResults.multi s1, by simp [hi], ?_⟩
        simp only [Fits, hE]
        exact ⟨by rw [a2, h1], h2, a3, h4⟩

end RVariation

namespace RVariation

variable {α γ : Type}

theorem SameButResults.trans {v v1 v2 : RVariation α γ} (h1 : SameButResults v v1)
    (h2 : SameButResults v1 v2) : SameButResults v v2 := by
  obtain ⟨a1, a2, a3, a4, a5, a6, a7⟩ := h1
  obtain ⟨b1, b2, b3, b4, b5, b6, b7⟩ := h2
  exact ⟨b1.trans a1, b2.trans a2, b3.trans a3, b4.trans a4, b5.trans a5, b6.trans a6,
    b7.trans a7⟩

theorem SameButResults.refl (v : RVariation α γ) : SameButResults v v :=
  ⟨rfl, rfl, rfl, rfl, rfl, rfl, rfl⟩

theorem updateLoop_spec (slot nCols nTags cap : Nat) (req : RMaskedEntryRange) :
    ∀ (k i : Nat) (v : RVariation α γ) (vm : RMaskedEntryRange),
      StorageReady v slot nCols nTags cap → i + k ≤ cap → i + k ≤ req.fMask.length →
      i + k ≤ vm.fMask.length →
      ∃ v1 vm1, updateLoop slot req i k v vm
          = some (v1, vm1, RDefine.rowCalls (fun j => req.bit j && !vm.bit j) i k) ∧
        SameButResults v v1 ∧ StorageReady v1 slot nCols nTags cap ∧
        vm1.fBegin = vm.fBegin ∧ vm1.fMask.length = vm.fMask.length ∧
        ∀ j, vm1.bit j = (vm.bit j || (decide (i ≤ j ∧ j < i + k) && req.bit j)) := by
  intro k
  induction k with
  | zero =>
    intro i v vm hready _ _ _
    refine ⟨v, vm, by simp [updateLoop, RDefine.rowCalls], SameButResults.refl v, hready, rfl,
      rfl, ?_⟩
    intro j
    have : ¬ (i ≤ j ∧ j < i + 0) := by omega
    simp [this]
  | succ k ih =>
    intro i v vm hready hcap hreq hvm
    have hi : i < req.fMask.length := by omega
    have hi3 : i < vm.fMask.length := by omega
    have hget : req.fMask[i]? = some req.fMask[i] := List.getElem?_eq_getElem hi
    have hD : req.bit i = req.fMask[i] := RDefine.bit_of_getElem? hget
    have hgetv : vm.fMask[i]? = some vm.fMask[i] := List.getElem?_eq_getElem hi3
    have hDv : vm.bit i = vm.fMask[i] := RDefine.bit_of_getElem? hgetv
    have hrange : ∀ j, j ≠ i → ((i + 1 ≤ j ∧ j < i + 1 + k) ↔ (i ≤ j ∧ j < i + (k + 1))) := by
      intro j hj; omega
    by_cases hcond : req.fMask[i] = true ∧ vm.fMask[i] = false
    · obtain ⟨hb, hbv⟩ := hcond
      rw [hb] at hget hD
      rw [hbv] at hgetv hDv
      obtain ⟨vm0, hs0, hs1, hs2, hs3⟩ := RDefine.bit_set_true vm i hi3
      obtain ⟨v0, u1, u2, u3⟩ := UpdateHelper_ok v slot i nCols nTags cap hready (by omega)
      obtain ⟨v1, vm1, h1, h2, h3, h4, h5, h6⟩ :=
        ih (i + 1) v0 vm0 u3 (by omega) (by omega) (by omega)
      have hcalls : RDefine.rowCalls (fun j => req.bit j && !vm0.bit j) (i + 1) k
          = RDefine.rowCalls (fun j => req.bit j && !vm.bit j) (i + 1) k := by
        apply RDefine.rowCalls_congr
        intro j hj1 hj2
        have : j ≠ i := by omega
        simp [hs3 j, this]
      rw [hcalls] at h1
      refine ⟨v1, vm1, ?_, u2.trans h2, h3, by rw [h4, hs1], by omega, ?_⟩
      · simp [updateLoop, RMaskedEntryRange.get, hget, hgetv, u1, hs0, h1, RDefine.rowCalls,
          List.range'_succ, hD, hDv]
      · intro j
        rw [h6 j, hs3 j]
        by_cases hj : j = i
        · subst hj
          simp [hD]
        · simp [hj, hrange j hj]
    · have hc : (req.bit i && !vm.bit i) = false := by
        rw [hD, hDv]
        cases h1 : req.fMask[i] <;> cases h2 : vm.fMask[i] <;> simp_all
      obtain ⟨v1, vm1, h1, h2, h3, h4, h5, h6⟩ :=
        ih (i + 1) v vm hready (by omega) (by omega) (by omega)
      refine ⟨v1, vm1, ?_, h2, h3, h4, h5, ?_⟩
      · have hc2 := hc
        rw [hD, hDv] at hc2
        cases hb : req.fMask[i] <;> cases hbv : vm.fMask[i] <;> simp [hb, hbv] at hcond hc2 <;>
          simp [updateLoop, RMaskedEntryRange.get, hget, hgetv, hb, hbv, h1, RDefine.rowCalls,
            List.range'_succ, hD, hDv]
      · intro j
        rw [h6 j]
        by_cases hj : j = i
        · subst hj
          have hn : ¬ (j + 1 ≤ j ∧ j < j + 1 + k) := by omega
          have hp : j ≤ j ∧ j < j + (k + 1) := ⟨le_refl _, by omega⟩
          rw [decide_eq_false hn, decide_eq_true hp]
          cases hx : vm.bit j <;> cases hy : req.bit j <;> simp [hx, hy] at hc ⊢
        · simp [hrange j hj]

theorem loadAndLoop_spec (v : RVariation α γ) (slot nCols nTags cap : Nat)
    (req vm : RMaskedEntryRange) (n g : Nat)
    (hm : v.fMask[slot * v.maskStep]? = some vm) (hvl : vm.fMask.length = cap)
    (hst : StorageReady v slot nCols nTags cap) (hrd : slot < v.fValueReaders.length)
    (hn : n ≤ cap) (hreq : n ≤ req.fMask.length) (hg : g ≤ n) :
    ∃ v1 vm1, v.loadAndLoop slot req n g
        = some (v1, RDefine.rowCalls (fun j => req.bit j && !vm.bit j) g (n - g)) ∧
      v1.fMask[slot * v1.maskStep]? = some vm1 ∧
      (∃ v0, SameButResults v0 v1 ∧ v0.fMask = v.fMask.set (slot * v.maskStep) vm1 ∧
        v0.fExpression = v.fExpression ∧ v0.fValueReaders = v.fValueReaders ∧
        v0.fValuePtrs.length = v.fValuePtrs.length ∧ v0.maskStep = v.maskStep ∧
        v0.resultsStep = v.resultsStep ∧ v0.fLastResults.length = v.fLastResults.length) ∧
      StorageReady v1 slot nCols nTags cap ∧
      vm1.fBegin = vm.fBegin ∧ vm1.fMask.length = vm.fMask.length ∧
      ∀ j, vm1.bit j = (vm.bit j || (decide (g ≤ j ∧ j < n) && req.bit j)) := by
  obtain ⟨hp, st, hs1, hs2⟩ := hst
  have hreader : v.fValueReaders[slot]? = some v.fValueReaders[slot] :=
    List.getElem?_eq_getElem hrd
  have hi1 := RDefine.lt_length_of_getElem? hm
  have hready0 : StorageReady
      { v with fValuePtrs := v.fValuePtrs.set slot (v.fValueReaders[slot].Load req n) }
      slot nCols nTags cap := ⟨by simpa using hp, st, hs1, hs2⟩
  obtain ⟨v1, vm1, h1, h2, h3, h4, h5, h6⟩ := updateLoop_spec slot nCols nTags cap req (n - g) g
    { v with fValuePtrs := v.fValuePtrs.set slot (v.fValueReaders[slot].Load req n) } vm
    hready0 (by omega) (by omega) (by omega)
  obtain ⟨a1, a2, a3, a4, a5, a6, a7⟩ := h2
  have hi2 : slot * v1.maskStep < v1.fMask.length := by
    rw [a4, a5]
    exact hi1
  refine ⟨{ v1 with fMask := v1.fMask.set (slot * v1.maskStep) vm1 }, vm1, ?_, by simp [hi2],
    ⟨{ v1 with fMask := v1.fMask.set (slot * v1.maskStep) vm1 }, SameButResults.refl _,
      by simp [a4, a5], a1, a2, by simp [a3], a5, a6, a7⟩, ?_, h4, h5, ?_⟩
  · simp only [loadAndLoop, hreader, Option.bind_eq_bind, Option.some_bind, assignAt, hp,
      if_true, hm, h1]
  · obtain ⟨b1, st1, b2, b3⟩ := h3
    exact ⟨b1, st1, b2, b3⟩
  · intro j
    rw [h6 j]
    have : (g ≤ j ∧ j < g + (n - g)) ↔ (g ≤ j ∧ j < n) := by omega
    simp only [this]

end RVariation

namespace RVariation

variable {α γ : Type}

theorem Update_fully_covered (v : RVariation α γ) (slot : Nat) (req vm : RMaskedEntryRange) (n : Nat)
    (hm : v.fMask[slot * v.maskStep]? = some vm)
    (heq : vm.fBegin = req.fBegin) (hC : vm.Contains req n = sizeMax) :
    v.Update slot req n = some (v, []) := by
  unfold Update
  simp [hm, RMaskedEntryRange.FirstEntry, heq, hC]

theorem bit_SetAll_false (vm : RMaskedEntryRange) (e : Int) (j : Nat) :
    ((vm.SetAll false).SetFirstEntry e).bit j = false := by
  simp only [RMaskedEntryRange.bit, RMaskedEntryRange.SetAll, RMaskedEntryRange.SetFirstEntry]
  by_cases h : j < vm.fMask.length
  · simp [List.getD, List.getElem?_replicate, h]
  · simp [List.getD, List.getElem?_replicate, h]

/-- C20 (new-bulk and gap discipline of `RVariation::Update`): for a slot laid out for the
capacity of the bulk and an expression that returns a value for every slot of the storage,
`Update` succeeds and invokes the expression exactly once for each row below `bulkSize` that is
requested and not cached under the requested stamp (no row counts as cached when the stamps
differ) and for no other row; afterwards the cached stamp is the requested stamp and the cached
mask below `bulkSize` is the union of the requested mask with the mask cached under that stamp;
and a repeated `Update` with the same mask invokes the expression zero times. -/
theorem C20_variation_update (v : RVariation α γ) (slot nCols nTags cap : Nat)
    (req vm : RMaskedEntryRange) (n : Nat)
    (hready : SlotReady v slot nCols nTags cap)
    (hm : v.fMask[slot * v.maskStep]? = some vm)
    (hreq : n ≤ req.fMask.length) (hn : n ≤ cap) (hmax : n ≤ sizeMax) :
    ∃ v1 calls vm1, v.Update slot req n = some (v1, calls) ∧
      (∀ i, calls.count (ExprCall.row i)
        = if i < n ∧ req.bit i = true ∧
              (decide (vm.FirstEntry = req.FirstEntry) && vm.bit i) = false
          then 1 else 0) ∧
      (∀ c, c ∈ calls → ∃ i, c = ExprCall.row i) ∧
      v1.fMask[slot * v1.maskStep]? = some vm1 ∧ vm1.FirstEntry = req.FirstEntry ∧
      (∀ i, i < n → vm1.bit i
        = (req.bit i || (decide (vm.FirstEntry = req.FirstEntry) && vm.bit i))) ∧
      v1.Update slot req n = some (v1, []) := by
  obtain ⟨⟨vm0, hm0, hvl⟩, hst, hrd, hp⟩ := hready
  rw [hm] at hm0
  cases hm0
  have hi1 := RDefine.lt_length_of_getElem? hm
  have hrepeat : ∀ (v1 : RVariation α γ) (vm1 : RMaskedEntryRange),
      v1.fMask[slot * v1.maskStep]? = some vm1 → vm1.fBegin = req.fBegin →
      (∀ i, i < n → req.bit i = true → vm1.bit i = true) →
      v1.Update slot req n = some (v1, []) := fun v1 vm1 h1 h2 h3 =>
    Update_fully_covered v1 slot req vm1 n h1 h2 (RDefine.Contains_of_covered vm1 req n h3)
  by_cases hne : vm.fBegin = req.fBegin
  · have hdec : decide (vm.FirstEntry = req.FirstEntry) = true := by
      simp [RMaskedEntryRange.FirstEntry, hne]
    simp only [hdec, Bool.true_and]
    rcases RDefine.Contains_spec vm req n with ⟨g1, g2, g3, g4⟩ | ⟨g1, g2⟩
    · have hC : vm.Contains req n ≠ sizeMax := by omega
      obtain ⟨v1, vm1, e1, e2, _, _, e5, e6, e7⟩ := loadAndLoop_spec v slot nCols nTags cap
        req vm n (vm.Contains req n) hm hvl ⟨hp, hst⟩ hrd hn hreq (by omega)
      have hU : v.Update slot req n
          = some (v1, RDefine.rowCalls (fun j => req.bit j && !vm.bit j) (vm.Contains req n)
              (n - vm.Contains req n)) := by
        unfold Update
        simp only [hm, Option.bind_eq_bind, Option.some_bind, RMaskedEntryRange.FirstEntry,
          ne_eq, hne, not_true_eq_false, if_false, hC]
        exact e1
      have hbits : ∀ i, i < n → vm1.bit i = (req.bit i || vm.bit i) := by
        intro i hi
        rw [e7 i]
        by_cases hig : vm.Contains req n ≤ i
        · rw [decide_eq_true ⟨hig, hi⟩]
          cases vm.bit i <;> cases req.bit i <;> rfl
        · rw [decide_eq_false (fun h => hig h.1)]
          have := g4 i (by omega)
          cases hx : vm.bit i <;> cases hy : req.bit i <;> simp [hx, hy] at this ⊢
      have hstamp : vm1.FirstEntry = req.FirstEntry := by
        simp only [RMaskedEntryRange.FirstEntry]
        rw [e5, hne]
      refine ⟨v1, _, vm1, hU, ?_, RDefine.rowCalls_rows _ _ _, e2, hstamp, hbits, ?_⟩
      · intro i
        rw [RDefine.count_rowCalls]
        by_cases hc : i < n ∧ req.bit i = true ∧ vm.bit i = false
        · have hig : vm.Contains req n ≤ i := by
            by_contra hlt
            exact g4 i (by omega) ⟨hc.2.1, hc.2.2⟩
          rw [if_pos hc, if_pos ⟨hig, by omega, by simp [hc.2.1, hc.2.2]⟩]
        · rw [if_neg hc, if_neg]
          rintro ⟨_, h2, h3⟩
          simp only [Bool.and_eq_true, Bool.not_eq_true'] at h3
          exact hc ⟨by omega, h3.1, h3.2⟩
      · apply hrepeat v1 vm1 e2 (by rw [e5, hne])
        intro i hi hr
        rw [hbits i hi, hr]
        rfl
    · have hU := Update_fully_covered v slot req vm n hm hne g1
      have hcov : ∀ i, i < n → req.bit i = true → vm.bit i = true := by
        intro i hi hr
        have := g2 i hi
        cases hx : vm.bit i
        · exact absurd ⟨hr, hx⟩ this
        · rfl
      have hnil : ∀ c, c ∈ ([] : List ExprCall) → ∃ i, c = ExprCall.row i := by
        intro c hc
        cases hc
      refine ⟨v, [], vm, hU, ?_, hnil, hm, hne, ?_, hU⟩
      · intro i
        rw [if_neg]
        · rfl
        · rintro ⟨h1, h2, h3⟩
          have := hcov i h1 h2
          rw [h3] at this
          cases this
      · intro i hi
        cases hy : req.bit i
        · rfl
        · rw [hcov i hi hy]
          rfl
  · have hdec : decide (vm.FirstEntry = req.FirstEntry) = false := by
      simp [RMaskedEntryRange.FirstEntry, hne]
    simp only [hdec, Bool.false_and, Bool.or_false, and_true]
    obtain ⟨v1, vm1, e1, e2, _, _, e5, e6, e7⟩ := loadAndLoop_spec
      { v with
        fMask := v.fMask.set (slot * v.maskStep)
                   ((vm.SetAll false).SetFirstEntry req.FirstEntry) }
      slot nCols nTags cap req ((vm.SetAll false).SetFirstEntry req.FirstEntry) n 0
      (by simp [hi1])
      (by simp [RMaskedEntryRange.SetAll, RMaskedEntryRange.SetFirstEntry, hvl])
      ⟨hp, hst⟩ hrd hn hreq (Nat.zero_le _)
    have hcalls : RDefine.rowCalls
        (fun j => req.bit j && !((vm.SetAll false).SetFirstEntry req.FirstEntry).bit j) 0 (n - 0)
        = RDefine.rowCalls req.bit 0 n := by
      rw [Nat.sub_zero]
      apply RDefine.rowCalls_congr
      intro j _ _
      simp [bit_SetAll_false]
    rw [hcalls] at e1
    have hU : v.Update slot req n = some (v1, RDefine.rowCalls req.bit 0 n) := by
      unfold Update
      simp only [hm, Option.bind_eq_bind, Option.some_bind, RMaskedEntryRange.FirstEntry,
        ne_eq, hne, not_false_eq_true, if_true]
      exact e1
    have hbits : ∀ i, i < n → vm1.bit i = req.bit i := by
      intro i hi
      rw [e7 i, bit_SetAll_false, decide_eq_true ⟨Nat.zero_le _, hi⟩]
      simp
    have hstamp : vm1.FirstEntry = req.FirstEntry := by
      simp only [RMaskedEntryRange.FirstEntry]
      rw [e5]
      rfl
    refine ⟨v1, _, vm1, hU, ?_, RDefine.rowCalls_rows _ _ _, e2, hstamp, hbits, ?_⟩
    · intro i
      rw [RDefine.count_rowCalls]
      simp
    · apply hrepeat v1 vm1 e2 (by rw [e5]; rfl)
      intro i hi hr
      rw [hbits i hi, hr]

/-- Witness for C20: the scenario variation caches rows `[T, T, F, F]` of the bulk stamped `0`
and receives the request `[T, T, T, T]` for the same bulk. -/
theorem C20_variation_update_witness :
    ∃ v1 calls vm1, (scenarioVariation ⟨[true, true, false, false], 0⟩).Update 0
        ⟨[true, true, true, true], 0⟩ 4 = some (v1, calls) ∧
      (∀ i, calls.count (ExprCall.row i)
        = if i < 4 ∧ RMaskedEntryRange.bit ⟨[true, true, true, true], 0⟩ i = true ∧
              (decide (RMaskedEntryRange.FirstEntry ⟨[true, true, false, false], 0⟩
                  = RMaskedEntryRange.FirstEntry ⟨[true, true, true, true], 0⟩) &&
                RMaskedEntryRange.bit ⟨[true, true, false, false], 0⟩ i) = false
          then 1 else 0) ∧
      (∀ c, c ∈ calls → ∃ i, c = ExprCall.row i) ∧
      v1.fMask[0 * v1.maskStep]? = some vm1 ∧
      vm1.FirstEntry = RMaskedEntryRange.FirstEntry ⟨[true, true, true, true], 0⟩ ∧
      (∀ i, i < 4 → vm1.bit i
        = (RMaskedEntryRange.bit ⟨[true, true, true, true], 0⟩ i ||
            (decide (RMaskedEntryRange.FirstEntry ⟨[true, true, false, false], 0⟩
                = RMaskedEntryRange.FirstEntry ⟨[true, true, true, true], 0⟩) &&
              RMaskedEntryRange.bit ⟨[true, true, false, false], 0⟩ i))) ∧
      v1.Update 0 ⟨[true, true, true, true], 0⟩ 4 = some (v1, []) :=
  C20_variation_update (scenarioVariation ⟨[true, true, false, false], 0⟩) 0 1 2 4
    ⟨[true, true, true, true], 0⟩ ⟨[true, true, false, false], 0⟩ 4
    ⟨⟨_, rfl, rfl⟩,
      ⟨_, rfl, by
        simp only [Fits, scenarioVariation]
        refine ⟨rfl, ?_, fun _ => by simp⟩
        intro bulk hb
        simp only [List.mem_cons, List.mem_singleton, List.not_mem_nil, or_false] at hb
        rcases hb with rfl | rfl <;> rfl⟩,
      by decide, by decide⟩
    rfl (by decide) (by decide) (by decide)

/-- The calls of the scenario of C20: from the cached rows `[T, T, F, F]` the request
`[T, T, T, T]` invokes the expression on rows 2 and 3, marks both and stores `x - 1` and `x + 1`;
the repeated request invokes nothing. -/
theorem scenario_variation :
    ((scenarioVariation ⟨[true, true, false, false], 0⟩).Update 0
        ⟨[true, true, true, true], 0⟩ 4).bind (fun r =>
      (r.1.Update 0 ⟨[true, true, true, true], 0⟩ 4).map (fun r2 => (r.2, r.1.fMask, r2.2)))
      = some ([ExprCall.row 2, ExprCall.row 3], [⟨[true, true, true, true], 0⟩], []) ∧
    ((scenarioVariation ⟨[true, true, false, false], 0⟩).Update 0
        ⟨[true, true, true, true], 0⟩ 4).map (fun r =>
      r.1.fLastResults.map VaryResults.singleStorage)
      = some [[[0, 0, 2, 3], [0, 0, 4, 5]]] := by
  decide

end RVariation

namespace RGraph

variable {α : Type}

theorem Extends_refl (t : String) (g : RGraph α) : Extends t g g :=
  ⟨le_refl _, fun _ node h => ⟨node, h, rfl, rfl, fun _ _ => rfl, fun _ hr => hr,
    fun _ hr => Or.inl hr⟩⟩

theorem Extends_trans {t : String} {g g1 g2 : RGraph α} (h1 : Extends t g g1)
    (h2 : Extends t g1 g2) : Extends t g g2 := by
  obtain ⟨l1, p1⟩ := h1
  obtain ⟨l2, p2⟩ := h2
  refine ⟨le_trans l1 l2, ?_⟩
  intro i node hn
  obtain ⟨n1, a1, a2, a3, a4, a5, a6⟩ := p1 i node hn
  obtain ⟨n2, b1, b2, b3, b4, b5, b6⟩ := p2 i n1 a1
  refine ⟨n2, b1, b2.trans a2, b3.trans a3, fun k hk => (b4 k hk).trans (a4 k hk),
    fun r hr => b5 r (a5 r hr), ?_⟩
  intro r hr
  rcases b6 r hr with h | ⟨j, hj1, hj2, hj3⟩
  · rcases a6 r h with h' | ⟨j, hj1, hj2, hj3⟩
    · exact Or.inl h'
    · exact Or.inr ⟨j, hj1, hj2, by omega⟩
  · exact Or.inr ⟨j, hj1, by omega, hj3⟩

theorem mapFind_mapInsert_of_none {γ : Type} (m : List (String × γ)) (key : String) (x : γ)
    (h : mapFind m key = none) :
    mapFind (mapInsert m key x) key = some x ∧
      ∀ k, k ≠ key → mapFind (mapInsert m key x) k = mapFind m k := by
  simp only [mapInsert, h]
  exact ⟨mapFind_mapAssign_self _ _ _, fun k hk => mapFind_mapAssign_ne _ _ _ _ hk⟩

theorem attach_memo (g : RGraph α) (id : Nat) (t : String) (p ref : NodeRef)
    (node : RFilterNode α) (hn : g.nodes[id]? = some node)
    (hf : mapFind node.fVariedFilters t = some ref) :
    attach g id t p = (g, VariedResult.ok ref) := by
  simp [attach, hn, hf]

theorem attach_fresh (g : RGraph α) (id : Nat) (t : String) (p : NodeRef)
    (node : RFilterNode α) (hn : g.nodes[id]? = some node)
    (hf : mapFind node.fVariedFilters t = none) :
    (attach g id t p).2 = VariedResult.ok (NodeRef.filter g.nodes.length) ∧
      Extends t g (attach g id t p).1 ∧
      (attach g id t p).1.nodes.length = g.nodes.length + 1 ∧
      (∃ node1 : RFilterNode α, (attach g id t p).1.nodes[id]? = some node1 ∧
        mapFind node1.fVariedFilters t = some (NodeRef.filter g.nodes.length)) ∧
      ∃ new : RFilterNode α, (attach g id t p).1.nodes[g.nodes.length]? = some new ∧
        new.fPrevNodePtr = p ∧ new.fVariedFilters = [] ∧
        new.state = RFilter.construct g.nullReader g.nullPtr node.state.fFilter
          node.state.fColumnNames
          (g.filterVariations (g.GetVariations p) node.state.fColumnNames)
          g.fLoopManager g.maskStep g.counterStep node.state.fName t := by
  have hid := RDefine.lt_length_of_getElem? hn
  obtain ⟨m1, m2⟩ := mapFind_mapInsert_of_none node.fVariedFilters t
    (NodeRef.filter g.nodes.length) hf
  have hself : ∀ (x y : RFilterNode α), ((g.nodes ++ [x]).set id y)[id]? = some y := by
    intro x y
    rw [List.getElem?_set_self]
    simp only [List.length_append, List.length_singleton]
    omega
  simp only [attach, hn, hf]
  refine ⟨trivial, ?_, by simp, ?_, ?_⟩
  · refine ⟨by simp, ?_⟩
    intro i nd hi
    have hil := RDefine.lt_length_of_getElem? hi
    by_cases hii : i = id
    · subst hii
      rw [hn] at hi
      cases hi
      refine ⟨_, hself _ _, rfl, rfl, fun k hk => m2 k hk, ?_, ?_⟩
      · intro r hr
        rw [hf] at hr
        cases hr
      · intro r hr
        rw [m1] at hr
        cases hr
        exact Or.inr ⟨_, rfl, le_refl _, by simp⟩
    · have hne : id ≠ i := fun h => hii h.symm
      refine ⟨nd, ?_, rfl, rfl, fun _ _ => rfl, fun _ hr => hr, fun _ hr => Or.inl hr⟩
      simp only [List.getElem?_set_ne hne]
      rw [List.getElem?_append_left hil, hi]
  · exact ⟨_, hself _ _, m1⟩
  · have hne : id ≠ g.nodes.length := by omega
    have hnew : ∀ (x y : RFilterNode α),
        ((g.nodes ++ [x]).set id y)[g.nodes.length]? = some x := by
      intro x y
      simp only [List.getElem?_set_ne hne]
      simp
    exact ⟨_, hnew _ _, rfl, rfl, rfl⟩

end RGraph

namespace RGraph

variable {α : Type}

theorem attach_other (g : RGraph α) (id : Nat) (t : String) (p : NodeRef) (i : Nat)
    (node : RFilterNode α) (hi : i ≠ id) (h : g.nodes[i]? = some node) :
    (attach g id t p).1.nodes[i]? = some node := by
  have hil := RDefine.lt_length_of_getElem? h
  have hne : id ≠ i := fun e => hi e.symm
  cases hn : g.nodes[id]? with
  | none => simp only [attach, hn]; exact h
  | some nd =>
    cases hf : mapFind nd.fVariedFilters t with
    | some ref => rw [attach_memo g id t p ref nd hn hf]; exact h
    | none =>
      simp only [attach, hn, hf, List.getElem?_set_ne hne]
      rw [List.getElem?_append_left hil, h]

theorem attach_spec (g : RGraph α) (id : Nat) (t : String) (p : NodeRef) :
    Extends t g (attach g id t p).1 ∧
      ∀ r, (attach g id t p).2 = VariedResult.ok r →
        ∃ node1 : RFilterNode α, (attach g id t p).1.nodes[id]? = some node1 ∧
          mapFind node1.fVariedFilters t = some r := by
  cases hn : g.nodes[id]? with
  | none =>
    simp only [attach, hn]
    exact ⟨Extends_refl t g, fun r hr => by cases hr⟩
  | some nd =>
    cases hf : mapFind nd.fVariedFilters t with
    | some ref =>
      rw [attach_memo g id t p ref nd hn hf]
      refine ⟨Extends_refl t g, fun r hr => ?_⟩
      cases hr
      exact ⟨nd, hn, hf⟩
    | none =>
      obtain ⟨a1, a2, _, a4, _⟩ := attach_fresh g id t p nd hn hf
      refine ⟨a2, fun r hr => ?_⟩
      rw [a1] at hr
      cases hr
      exact a4

theorem attach_ok (g : RGraph α) (id : Nat) (t : String) (p : NodeRef) (node : RFilterNode α)
    (hn : g.nodes[id]? = some node) : ∃ r, (attach g id t p).2 = VariedResult.ok r := by
  cases hf : mapFind node.fVariedFilters t with
  | some ref => exact ⟨ref, by rw [attach_memo g id t p ref node hn hf]⟩
  | none => exact ⟨_, (attach_fresh g id t p node hn hf).1⟩

theorem GetVariedFilter_assert (fuel : Nat) (g : RGraph α) (id : Nat) (t : String)
    (node : RFilterNode α) (hn : g.nodes[id]? = some node)
    (h : node.state.fVariation ≠ "nominal" ∨ t = "nominal" ∨ t ∉ node.state.fVariations) :
    GetVariedFilter (fuel + 1) g id t = (g, VariedResult.assertion) := by
  rw [GetVariedFilter]
  simp only [hn]
  by_cases h1 : node.state.fVariation ≠ "nominal"
  · rw [if_pos h1]
  · rw [if_neg h1]
    by_cases h2 : t = "nominal"
    · rw [if_pos h2]
    · rw [if_neg h2]
      by_cases h3 : t ∉ node.state.fVariations
      · rw [if_pos h3]
      · rcases h with h | h | h
        · exact absurd h h1
        · exact absurd h h2
        · exact absurd h h3

theorem GetVariedFilter_pass (fuel : Nat) (g : RGraph α) (id : Nat) (t : String)
    (node : RFilterNode α) (hn : g.nodes[id]? = some node)
    (hnom : node.state.fVariation = "nominal") (ht : t ≠ "nominal")
    (hdep : t ∈ node.state.fVariations) :
    GetVariedFilter (fuel + 1) g id t =
      match mapFind node.fVariedFilters t with
      | some ref => (g, VariedResult.ok ref)
      | none =>
        match resolvePrev (GetVariedFilter fuel) g node.fPrevNodePtr t with
        | (g1, VariedResult.ok prevNode) => attach g1 id t prevNode
        | (g1, failure) => (g1, failure) := by
  rw [GetVariedFilter]
  simp only [hn]
  rw [if_neg (not_not.mpr hnom), if_neg ht, if_neg (not_not.mpr hdep)]

theorem GetVariedFilter_memo (fuel : Nat) (g : RGraph α) (id : Nat) (t : String)
    (node : RFilterNode α) (ref : NodeRef) (hn : g.nodes[id]? = some node)
    (hnom : node.state.fVariation = "nominal") (ht : t ≠ "nominal")
    (hdep : t ∈ node.state.fVariations) (hf : mapFind node.fVariedFilters t = some ref) :
    GetVariedFilter (fuel + 1) g id t = (g, VariedResult.ok ref) := by
  rw [GetVariedFilter_pass fuel g id t node hn hnom ht hdep, hf]

theorem GetVariedFilter_build (fuel : Nat) (g : RGraph α) (id : Nat) (t : String)
    (node : RFilterNode α) (hn : g.nodes[id]? = some node)
    (hnom : node.state.fVariation = "nominal") (ht : t ≠ "nominal")
    (hdep : t ∈ node.state.fVariations) (hf : mapFind node.fVariedFilters t = none)
    (g1 : RGraph α) (p : NodeRef)
    (hp : resolvePrev (GetVariedFilter fuel) g node.fPrevNodePtr t = (g1, VariedResult.ok p)) :
    GetVariedFilter (fuel + 1) g id t = attach g1 id t p := by
  rw [GetVariedFilter_pass fuel g id t node hn hnom ht hdep, hf]
  simp only [hp]

theorem GetVariedFilter_fail (fuel : Nat) (g : RGraph α) (id : Nat) (t : String)
    (node : RFilterNode α) (hn : g.nodes[id]? = some node)
    (hnom : node.state.fVariation = "nominal") (ht : t ≠ "nominal")
    (hdep : t ∈ node.state.fVariations) (hf : mapFind node.fVariedFilters t = none)
    (g1 : RGraph α) (res : VariedResult)
    (hp : resolvePrev (GetVariedFilter fuel) g node.fPrevNodePtr t = (g1, res))
    (hres : ∀ p, res ≠ VariedResult.ok p) :
    GetVariedFilter (fuel + 1) g id t = (g1, res) := by
  rw [GetVariedFilter_pass fuel g id t node hn hnom ht hdep, hf]
  simp only [hp]

theorem resolvePrev_extends (recurse : RGraph α → Nat → String → RGraph α × VariedResult)
    (t : String) (hrec : ∀ g id, Extends t g (recurse g id t).1) (g : RGraph α) (p : NodeRef) :
    Extends t g (resolvePrev recurse g p t).1 := by
  cases p with
  | loopManager => exact Extends_refl t g
  | filter pid =>
    simp only [resolvePrev]
    cases hp : g.nodes[pid]? with
    | none => exact Extends_refl t g
    | some prev =>
      simp only []
      by_cases h : t ∈ prev.state.fVariations
      · rw [if_pos h]
        exact hrec g pid
      · rw [if_neg h]
        exact Extends_refl t g

/-- Frame property of `GetVariedFilter`: the graph is extended, and a pointer returned is the
entry of the registry for the variation afterwards. -/
theorem GetVariedFilter_spec (t : String) (fuel : Nat) :
    ∀ (g : RGraph α) (id : Nat),
      Extends t g (GetVariedFilter fuel g id t).1 ∧
        ∀ r, (GetVariedFilter fuel g id t).2 = VariedResult.ok r →
          ∃ node1 : RFilterNode α, (GetVariedFilter fuel g id t).1.nodes[id]? = some node1 ∧
            mapFind node1.fVariedFilters t = some r := by
  induction fuel with
  | zero =>
    intro g id
    exact ⟨Extends_refl t g, fun r hr => by cases hr⟩
  | succ fuel ih =>
    intro g id
    cases hn : g.nodes[id]? with
    | none =>
      rw [GetVariedFilter]
      simp only [hn]
      exact ⟨Extends_refl t g, fun r hr => by cases hr⟩
    | some node =>
      by_cases hpass : node.state.fVariation = "nominal" ∧ t ≠ "nominal" ∧
          t ∈ node.state.fVariations
      · obtain ⟨hnom, ht, hdep⟩ := hpass
        cases hf : mapFind node.fVariedFilters t with
        | some ref =>
          rw [GetVariedFilter_memo fuel g id t node ref hn hnom ht hdep hf]
          refine ⟨Extends_refl t g, fun r hr => ?_⟩
          cases hr
          exact ⟨node, hn, hf⟩
        | none =>
          have hE := resolvePrev_extends (GetVariedFilter fuel) t (fun g0 i => (ih g0 i).1) g
            node.fPrevNodePtr
          cases hp : resolvePrev (GetVariedFilter fuel) g node.fPrevNodePtr t with
          | mk g1 res =>
            rw [hp] at hE
            by_cases hres : ∃ p, res = VariedResult.ok p
            · obtain ⟨p, rfl⟩ := hres
              rw [GetVariedFilter_build fuel g id t node hn hnom ht hdep hf g1 p hp]
              obtain ⟨b1, b2⟩ := attach_spec g1 id t p
              exact ⟨Extends_trans hE b1, b2⟩
            · have hres2 : ∀ p, res ≠ VariedResult.ok p := fun p e => hres ⟨p, e⟩
              rw [GetVariedFilter_fail fuel g id t node hn hnom ht hdep hf g1 res hp hres2]
              exact ⟨hE, fun r hr => absurd hr (hres2 r)⟩
      · have h : node.state.fVariation ≠ "nominal" ∨ t = "nominal" ∨
            t ∉ node.state.fVariations := by
          by_contra hc
          push_neg at hc
          exact hpass ⟨hc.1, hc.2.1, hc.2.2⟩
        rw [GetVariedFilter_assert fuel g id t node hn h]
        exact ⟨Extends_refl t g, fun r hr => by cases hr⟩

end RGraph

namespace RGraph

variable {α : Type}

theorem GetVariedFilter_ok_inv (t : String) (fuel : Nat) (g : RGraph α) (id : Nat)
    (r : NodeRef) (h : (GetVariedFilter fuel g id t).2 = VariedResult.ok r) :
    ∃ node : RFilterNode α, g.nodes[id]? = some node ∧ node.state.fVariation = "nominal" ∧
      t ≠ "nominal" ∧ t ∈ node.state.fVariations := by
  cases fuel with
  | zero => cases h
  | succ fuel =>
    cases hn : g.nodes[id]? with
    | none =>
      rw [GetVariedFilter] at h
      simp only [hn] at h
      cases h
    | some node =>
      by_cases hpass : node.state.fVariation = "nominal" ∧ t ≠ "nominal" ∧
          t ∈ node.state.fVariations
      · exact ⟨node, rfl, hpass⟩
      · have hc : node.state.fVariation ≠ "nominal" ∨ t = "nominal" ∨
            t ∉ node.state.fVariations := by
          by_contra hc
          push_neg at hc
          exact hpass ⟨hc.1, hc.2.1, hc.2.2⟩
        rw [GetVariedFilter_assert fuel g id t node hn hc] at h
        cases h

theorem Forward_prev (g : RGraph α) (hF : Forward g) (id : Nat) (node : RFilterNode α)
    (hn : g.nodes[id]? = some node) (hnom : node.state.fVariation = "nominal") :
    node.fPrevNodePtr = NodeRef.loopManager ∨
      ∃ (pid : Nat) (prev : RFilterNode α), node.fPrevNodePtr = NodeRef.filter pid ∧ pid < id ∧
        g.nodes[pid]? = some prev ∧ prev.state.fVariation = "nominal" := by
  have h := hF id node hn hnom
  rw [prevOk] at h
  cases hp : node.fPrevNodePtr with
  | loopManager => exact Or.inl rfl
  | filter pid =>
    rw [hp] at h
    simp only [Bool.and_eq_true, decide_eq_true_eq] at h
    obtain ⟨h1, h2⟩ := h
    cases hq : g.nodes[pid]? with
    | none => rw [hq] at h2; cases h2
    | some prev =>
      rw [hq] at h2
      simp only [decide_eq_true_eq] at h2
      exact Or.inr ⟨pid, prev, rfl, h1, hq, h2⟩

theorem resolvePrev_loopManager (recurse : RGraph α → Nat → String → RGraph α × VariedResult)
    (g : RGraph α) (t : String) :
    resolvePrev recurse g NodeRef.loopManager t = (g, VariedResult.ok NodeRef.loopManager) :=
  rfl

theorem resolvePrev_filter (recurse : RGraph α → Nat → String → RGraph α × VariedResult)
    (g : RGraph α) (t : String) (pid : Nat) (prev : RFilterNode α)
    (hp : g.nodes[pid]? = some prev) :
    resolvePrev recurse g (NodeRef.filter pid) t =
      if t ∈ prev.state.fVariations then recurse g pid t
      else (g, VariedResult.ok (NodeRef.filter pid)) := by
  simp only [resolvePrev, hp]

/-- Under `Forward`, a call on the filter `id` leaves the filters constructed after it as they
are. -/
theorem GetVariedFilter_above (g : RGraph α) (hF : Forward g) (t : String) (fuel : Nat) :
    ∀ (id i : Nat) (nd : RFilterNode α), id < i → g.nodes[i]? = some nd →
      (GetVariedFilter fuel g id t).1.nodes[i]? = some nd := by
  induction fuel with
  | zero => intro id i nd _ h; exact h
  | succ fuel ih =>
    intro id i nd hlt hi
    cases hn : g.nodes[id]? with
    | none =>
      rw [GetVariedFilter]
      simp only [hn]
      exact hi
    | some node =>
      by_cases hpass : node.state.fVariation = "nominal" ∧ t ≠ "nominal" ∧
          t ∈ node.state.fVariations
      · obtain ⟨hnom, ht, hdep⟩ := hpass
        cases hf : mapFind node.fVariedFilters t with
        | some ref =>
          rw [GetVariedFilter_memo fuel g id t node ref hn hnom ht hdep hf]
          exact hi
        | none =>
          have hne : i ≠ id := by omega
          rcases Forward_prev g hF id node hn hnom with hlm | ⟨pid, prev, hp, hpid, hq, _⟩
          · have hr := resolvePrev_loopManager (GetVariedFilter fuel) g t
            rw [← hlm] at hr
            rw [GetVariedFilter_build fuel g id t node hn hnom ht hdep hf g _ hr]
            exact attach_other g id t _ i nd hne hi
          · have hr := resolvePrev_filter (GetVariedFilter fuel) g t pid prev hq
            rw [← hp] at hr
            by_cases hv : t ∈ prev.state.fVariations
            · rw [if_pos hv] at hr
              have hi1 := ih pid i nd (by omega) hi
              cases hc : GetVariedFilter fuel g pid t with
              | mk g1 res =>
                rw [hc] at hr hi1
                by_cases hres : ∃ p, res = VariedResult.ok p
                · obtain ⟨p, rfl⟩ := hres
                  rw [GetVariedFilter_build fuel g id t node hn hnom ht hdep hf g1 p hr]
                  exact attach_other g1 id t p i nd hne hi1
                · have hres2 : ∀ p, res ≠ VariedResult.ok p := fun p e => hres ⟨p, e⟩
                  rw [GetVariedFilter_fail fuel g id t node hn hnom ht hdep hf g1 res hr hres2]
                  exact hi1
            · rw [if_neg hv] at hr
              rw [GetVariedFilter_build fuel g id t node hn hnom ht hdep hf g _ hr]
              exact attach_other g id t _ i nd hne hi
      · have hc : node.state.fVariation ≠ "nominal" ∨ t = "nominal" ∨
            t ∉ node.state.fVariations := by
          by_contra hc
          push_neg at hc
          exact hpass ⟨hc.1, hc.2.1, hc.2.2⟩
        rw [GetVariedFilter_assert fuel g id t node hn hc]
        exact hi

/-- Under `Forward` and with fuel above the position of the filter, a call that passes the
three assertions returns a pointer. -/
theorem GetVariedFilter_ok (g : RGraph α) (hF : Forward g) (t : String) (ht : t ≠ "nominal")
    (fuel : Nat) :
    ∀ (id : Nat) (node : RFilterNode α), id < fuel → g.nodes[id]? = some node →
      node.state.fVariation = "nominal" → t ∈ node.state.fVariations →
      ∃ r, (GetVariedFilter fuel g id t).2 = VariedResult.ok r := by
  induction fuel with
  | zero => intro id node h; omega
  | succ fuel ih =>
    intro id node hfuel hn hnom hdep
    cases hf : mapFind node.fVariedFilters t with
    | some ref =>
      rw [GetVariedFilter_memo fuel g id t node ref hn hnom ht hdep hf]
      exact ⟨ref, rfl⟩
    | none =>
      rcases Forward_prev g hF id node hn hnom with hlm | ⟨pid, prev, hp, hpid, hq, hpn⟩
      · have hr := resolvePrev_loopManager (GetVariedFilter fuel) g t
        rw [← hlm] at hr
        rw [GetVariedFilter_build fuel g id t node hn hnom ht hdep hf g _ hr]
        exact attach_ok g id t _ node hn
      · have hr := resolvePrev_filter (GetVariedFilter fuel) g t pid prev hq
        rw [← hp] at hr
        by_cases hv : t ∈ prev.state.fVariations
        · rw [if_pos hv] at hr
          obtain ⟨p, hok⟩ := ih pid prev (by omega) hq hpn hv
          have hi1 := GetVariedFilter_above g hF t fuel pid id node hpid hn
          cases hc : GetVariedFilter fuel g pid t with
          | mk g1 res =>
            rw [hc] at hr hi1 hok
            cases hok
            rw [GetVariedFilter_build fuel g id t node hn hnom ht hdep hf g1 p hr]
            exact attach_ok g1 id t p node hi1
        · rw [if_neg hv] at hr
          rw [GetVariedFilter_build fuel g id t node hn hnom ht hdep hf g _ hr]
          exact attach_ok g id t _ node hn

end RGraph

namespace RGraph

variable {α : Type}

theorem scenarioGraph_forward : Forward scenarioGraph := by
  intro i node h _
  match i, h with
  | 0, h =>
    simp only [scenarioGraph, List.getElem?_cons_zero, Option.some.injEq] at h
    subst h
    rfl
  | 1, h =>
    simp only [scenarioGraph, List.getElem?_cons_succ, List.getElem?_cons_zero,
      Option.some.injEq] at h
    subst h
    rfl
  | n + 2, h => simp [scenarioGraph] at h

/-- C19: on a filter of the graph, `GetVariedFilter(tag)` fails an assertion, and leaves the graph
(all filters and all registries) as it was, when the filter's own variation is not `"nominal"`,
when `tag` is `"nominal"`, or when `tag` is not among the filter's variations; in every other
case, on a graph where nominal filters hang on the loop manager or on earlier nominal filters and
with fuel for the chain of predecessors, it returns a pointer. -/
theorem C19_contract_violations (g : RGraph α) (fuel id : Nat) (t : String)
    (node : RFilterNode α) (hn : g.nodes[id]? = some node) :
    ((node.state.fVariation ≠ "nominal" ∨ t = "nominal" ∨ t ∉ node.state.fVariations) →
        GetVariedFilter (fuel + 1) g id t = (g, VariedResult.assertion)) ∧
      (node.state.fVariation = "nominal" → t ≠ "nominal" → t ∈ node.state.fVariations →
        Forward g → id ≤ fuel →
        ∃ (g1 : RGraph α) (r : NodeRef),
          GetVariedFilter (fuel + 1) g id t = (g1, VariedResult.ok r)) := by
  refine ⟨GetVariedFilter_assert fuel g id t node hn, ?_⟩
  intro hnom ht hdep hF hfuel
  obtain ⟨r, hr⟩ := GetVariedFilter_ok g hF t ht (fuel + 1) id node (by omega) hn hnom hdep
  exact ⟨(GetVariedFilter (fuel + 1) g id t).1, r, Prod.ext rfl hr⟩

/-- Witness for C19: on the filter `"cut2"` of the scenario graph the variations `"nominal"` and
`"z:up"` are rejected with the graph unchanged, and `"x:up"` is served. -/
theorem C19_contract_violations_witness :
    GetVariedFilter 5 scenarioGraph 1 "nominal" = (scenarioGraph, VariedResult.assertion) ∧
      GetVariedFilter 5 scenarioGraph 1 "z:up" = (scenarioGraph, VariedResult.assertion) ∧
      ∃ (g1 : RGraph Nat) (r : NodeRef),
        GetVariedFilter 5 scenarioGraph 1 "x:up" = (g1, VariedResult.ok r) :=
  ⟨(C19_contract_violations scenarioGraph 4 1 "nominal" _ rfl).1 (Or.inr (Or.inl rfl)),
    (C19_contract_violations scenarioGraph 4 1 "z:up" _ rfl).1 (Or.inr (Or.inr (by decide))),
    (C19_contract_violations scenarioGraph 4 1 "x:up" _ rfl).2 (by decide) (by decide)
      (by decide) scenarioGraph_forward (by decide)⟩

/-- The scenario graph: a varied filter rejects the call, and with fuel for one filter only the
call on `"cut2"` does not come back. -/
theorem scenario_varied_filter_rejects :
    (GetVariedFilter 5 (GetVariedFilter 5 scenarioGraph 1 "x:up").1 3 "x:up").2
        = VariedResult.assertion ∧
      (GetVariedFilter 1 scenarioGraph 1 "x:up").2 = VariedResult.fuel ∧
      (GetVariedFilter 5 scenarioGraph 1 "x:up").1.shape =
        [("cut1", "nominal", NodeRef.loopManager, [("x:up", NodeRef.filter 2)]),
         ("cut2", "nominal", NodeRef.filter 0, [("x:up", NodeRef.filter 3)]),
         ("cut1", "x:up", NodeRef.loopManager, []),
         ("cut2", "x:up", NodeRef.filter 2, [])] := by
  refine ⟨by decide, by decide, by decide⟩

end RGraph

namespace RGraph

variable {α : Type}

/-- C17: on a graph where nominal filters hang on the loop manager or on earlier nominal filters,
a call `GetVariedFilter(tag)` that passes the assertions, finds no registry entry and has fuel
for the chain of predecessors builds a new filter (at a position `g1.nodes.length` that no filter
had before).  Its predecessor `p` is the loop manager when the nominal predecessor is the loop
manager, the pointer returned by `GetVariedFilter(tag)` on the nominal predecessor when `tag` is
among that predecessor's variations, and the pointer to the nominal predecessor itself otherwise
(no filter is added in that case: `g1 = g`).  The new filter has the predicate, the column names
and the name of the nominal filter, and the variation `tag`. -/
theorem C17_varied_predecessor (g : RGraph α) (hF : Forward g) (fuel id : Nat) (t : String)
    (node : RFilterNode α) (hn : g.nodes[id]? = some node)
    (hnom : node.state.fVariation = "nominal") (ht : t ≠ "nominal")
    (hdep : t ∈ node.state.fVariations) (hf : mapFind node.fVariedFilters t = none)
    (hfuel : id ≤ fuel) :
    ∃ (g1 g2 : RGraph α) (p : NodeRef) (new : RFilterNode α),
      GetVariedFilter (fuel + 1) g id t
          = (g2, VariedResult.ok (NodeRef.filter g1.nodes.length)) ∧
        g.nodes.length ≤ g1.nodes.length ∧
        g2.nodes[g1.nodes.length]? = some new ∧
        new.fPrevNodePtr = p ∧
        new.state.fFilter = node.state.fFilter ∧
        new.state.fColumnNames = node.state.fColumnNames ∧
        new.state.fName = node.state.fName ∧
        new.state.fVariation = t ∧
        (node.fPrevNodePtr = NodeRef.loopManager → p = NodeRef.loopManager ∧ g1 = g) ∧
        ∀ (pid : Nat) (prev : RFilterNode α), node.fPrevNodePtr = NodeRef.filter pid →
          g.nodes[pid]? = some prev →
          (t ∈ prev.state.fVariations →
            GetVariedFilter fuel g pid t = (g1, VariedResult.ok p)) ∧
          (t ∉ prev.state.fVariations → p = NodeRef.filter pid ∧ g1 = g) := by
  have key : ∀ (g1 : RGraph α) (p : NodeRef),
      resolvePrev (GetVariedFilter fuel) g node.fPrevNodePtr t = (g1, VariedResult.ok p) →
      g1.nodes[id]? = some node →
      ∃ (g2 : RGraph α) (new : RFilterNode α),
        GetVariedFilter (fuel + 1) g id t
            = (g2, VariedResult.ok (NodeRef.filter g1.nodes.length)) ∧
          g2.nodes[g1.nodes.length]? = some new ∧
          new.fPrevNodePtr = p ∧
          new.state.fFilter = node.state.fFilter ∧
          new.state.fColumnNames = node.state.fColumnNames ∧
          new.state.fName = node.state.fName ∧
          new.state.fVariation = t := by
    intro g1 p hr hi1
    obtain ⟨a1, _, _, _, new, a5, a6, _, a8⟩ := attach_fresh g1 id t p node hi1 hf
    refine ⟨(attach g1 id t p).1, new, ?_, a5, a6, ?_, ?_, ?_, ?_⟩
    · rw [GetVariedFilter_build fuel g id t node hn hnom ht hdep hf g1 p hr]
      exact Prod.ext rfl a1
    · rw [a8]; rfl
    · rw [a8]; rfl
    · rw [a8]; rfl
    · rw [a8]; rfl
  rcases Forward_prev g hF id node hn hnom with hlm | ⟨pid, prev, hp, hpid, hq, hpn⟩
  · have hr : resolvePrev (GetVariedFilter fuel) g node.fPrevNodePtr t
        = (g, VariedResult.ok NodeRef.loopManager) := by
      rw [hlm]; rfl
    obtain ⟨g2, new, b1, b2, b3, b4, b5, b6, b7⟩ := key g NodeRef.loopManager hr hn
    refine ⟨g, g2, NodeRef.loopManager, new, b1, le_refl _, b2, b3, b4, b5, b6, b7,
      fun _ => ⟨rfl, rfl⟩, ?_⟩
    intro pid prev h1 _
    rw [hlm] at h1
    cases h1
  · have hr := resolvePrev_filter (GetVariedFilter fuel) g t pid prev hq
    rw [← hp] at hr
    by_cases hv : t ∈ prev.state.fVariations
    · rw [if_pos hv] at hr
      obtain ⟨p, hok⟩ := GetVariedFilter_ok g hF t ht fuel pid prev (by omega) hq hpn hv
      have hi1 := GetVariedFilter_above g hF t fuel pid id node hpid hn
      have hE := (GetVariedFilter_spec t fuel g pid).1
      cases hc : GetVariedFilter fuel g pid t with
      | mk g1 res =>
        rw [hc] at hr hi1 hok hE
        cases hok
        obtain ⟨g2, new, b1, b2, b3, b4, b5, b6, b7⟩ := key g1 p hr hi1
        refine ⟨g1, g2, p, new, b1, hE.1, b2, b3, b4, b5, b6, b7, ?_, ?_⟩
        · intro h1
          rw [hp] at h1
          cases h1
        · intro pid2 prev2 h1 h2
          rw [hp] at h1
          cases h1
          rw [hq] at h2
          cases h2
          exact ⟨fun _ => hc, fun hnv => absurd hv hnv⟩
    · rw [if_neg hv] at hr
      nth_rewrite 2 [hp] at hr
      obtain ⟨g2, new, b1, b2, b3, b4, b5, b6, b7⟩ := key g (NodeRef.filter pid) hr hn
      refine ⟨g, g2, NodeRef.filter pid, new, b1, le_refl _, b2, b3, b4, b5, b6, b7, ?_, ?_⟩
      · intro h1
        rw [hp] at h1
        cases h1
      · intro pid2 prev2 h1 h2
        rw [hp] at h1
        cases h1
        rw [hq] at h2
        cases h2
        exact ⟨fun hv2 => absurd hv2 hv, fun _ => ⟨rfl, rfl⟩⟩

end RGraph

namespace RGraph

variable {α : Type}

/-- Witness for C17: the varied filter of `"cut2"` for `"x:up"` in the scenario graph hangs on the
varied filter that `"cut1"` returns for `"x:up"`. -/
theorem C17_varied_predecessor_witness :
    ∃ (g1 g2 : RGraph Nat) (p : NodeRef) (new : RFilterNode Nat),
      GetVariedFilter 5 scenarioGraph 1 "x:up"
          = (g2, VariedResult.ok (NodeRef.filter g1.nodes.length)) ∧
        g2.nodes[g1.nodes.length]? = some new ∧
        new.fPrevNodePtr = p ∧
        new.state.fName = "cut2" ∧
        new.state.fVariation = "x:up" ∧
        GetVariedFilter 4 scenarioGraph 0 "x:up" = (g1, VariedResult.ok p) := by
  obtain ⟨g1, g2, p, new, h1, _, h3, h4, _, _, h7, h8, _, h10⟩ :=
    C17_varied_predecessor scenarioGraph scenarioGraph_forward 4 1 "x:up" _ rfl (by decide)
      (by decide) (by decide) (by decide) (by decide)
  exact ⟨g1, g2, p, new, h1, h3, h4, h7, h8, (h10 0 _ rfl rfl).1 (by decide)⟩

theorem Extends_keeps {t : String} {g g1 : RGraph α} (hE : Extends t g g1) (i : Nat)
    (node : RFilterNode α) (hn : g.nodes[i]? = some node) :
    ∃ node1 : RFilterNode α, g1.nodes[i]? = some node1 ∧ node1.state = node.state ∧
      ∀ k r, mapFind node.fVariedFilters k = some r →
        mapFind node1.fVariedFilters k = some r := by
  obtain ⟨node1, a1, a2, _, a4, a5, _⟩ := hE.2 i node hn
  refine ⟨node1, a1, a2, ?_⟩
  intro k r hr
  by_cases hk : k = t
  · subst hk
    exact a5 r hr
  · rw [a4 k hk]
    exact hr

theorem GetVariedFilterSeq_keeps (calls : List (Nat × Nat × String)) :
    ∀ (g : RGraph α) (i : Nat) (node : RFilterNode α), g.nodes[i]? = some node →
      ∃ node1 : RFilterNode α, (g.GetVariedFilterSeq calls).nodes[i]? = some node1 ∧
        node1.state = node.state ∧
        ∀ k r, mapFind node.fVariedFilters k = some r →
          mapFind node1.fVariedFilters k = some r := by
  induction calls with
  | nil => intro g i node hn; exact ⟨node, hn, rfl, fun _ _ h => h⟩
  | cons call rest ih =>
    intro g i node hn
    obtain ⟨n1, a1, a2, a3⟩ :=
      Extends_keeps (GetVariedFilter_spec call.2.2 call.1 g call.2.1).1 i node hn
    obtain ⟨n2, b1, b2, b3⟩ := ih _ i n1 a1
    exact ⟨n2, b1, b2.trans a2, fun k r h => b3 k r (a3 k r h)⟩

theorem RegistryInv_extends {t : String} {g g1 : RGraph α} (hE : Extends t g g1) (id : Nat)
    (node : RFilterNode α) (hn : g.nodes[id]? = some node) (hI : RegistryInv g id) :
    RegistryInv g1 id := by
  obtain ⟨i1, i2⟩ := hI node hn
  obtain ⟨node1, a1, _, _, a4, _, a6⟩ := hE.2 id node hn
  have hlen := hE.1
  have old : ∀ k r, mapFind node1.fVariedFilters k = some r →
      mapFind node.fVariedFilters k = some r ∨
        (k = t ∧ ∃ j, r = NodeRef.filter j ∧ g.nodes.length ≤ j ∧ j < g1.nodes.length) := by
    intro k r hr
    by_cases hk : k = t
    · subst hk
      rcases a6 r hr with h | h
      · exact Or.inl h
      · exact Or.inr ⟨rfl, h⟩
    · rw [a4 k hk] at hr
      exact Or.inl hr
  intro nd hnd
  rw [a1] at hnd
  cases hnd
  refine ⟨?_, ?_⟩
  · intro k r hr
    rcases old k r hr with h | ⟨_, j, hj, _, hj2⟩
    · obtain ⟨j, hj, hj2⟩ := i1 k r h
      exact ⟨j, hj, by omega⟩
    · exact ⟨j, hj, hj2⟩
  · intro k1 k2 r h1 h2
    rcases old k1 r h1 with o1 | ⟨e1, j1, hj1, hl1, _⟩
    · rcases old k2 r h2 with o2 | ⟨_, j2, hj2, hl2, _⟩
      · exact i2 k1 k2 r o1 o2
      · obtain ⟨j, hj, hjl⟩ := i1 k1 r o1
        rw [hj] at hj2
        cases hj2
        omega
    · rcases old k2 r h2 with o2 | ⟨e2, _⟩
      · obtain ⟨j, hj, hjl⟩ := i1 k2 r o2
        rw [hj] at hj1
        cases hj1
        omega
      · rw [e1, e2]

theorem RegistryInv_GetVariedFilterSeq (calls : List (Nat × Nat × String)) :
    ∀ (g : RGraph α) (id : Nat) (node : RFilterNode α), g.nodes[id]? = some node →
      RegistryInv g id → RegistryInv (g.GetVariedFilterSeq calls) id := by
  induction calls with
  | nil => intro g id node _ hI; exact hI
  | cons call rest ih =>
    intro g id node hn hI
    have hE := (GetVariedFilter_spec call.2.2 call.1 g call.2.1).1
    obtain ⟨n1, a1, _, _⟩ := Extends_keeps hE id node hn
    exact ih _ id n1 a1 (RegistryInv_extends hE id node hn hI)

/-- C18: once `GetVariedFilter(tag)` on a filter has returned a pointer `r`, every later call
with the same tag, after any sequence of other calls of `GetVariedFilter` on the graph, returns
`r` and leaves the graph as it is (no filter is constructed), also with fuel for the called
filter alone, with which a call on the predecessor would not come back.  And when the registry
of the filter held pointers to filters of the graph, no two variations sharing one, a later call
with a different tag returns a pointer different from `r`. -/
theorem C18_memoized (g : RGraph α) (fuel id : Nat) (t : String) (g1 : RGraph α) (r : NodeRef)
    (h : GetVariedFilter fuel g id t = (g1, VariedResult.ok r)) :
    (∀ (calls : List (Nat × Nat × String)) (fuel2 : Nat),
        GetVariedFilter (fuel2 + 1) (g1.GetVariedFilterSeq calls) id t
          = (g1.GetVariedFilterSeq calls, VariedResult.ok r)) ∧
      (RegistryInv g id →
        ∀ (calls : List (Nat × Nat × String)) (fuel2 : Nat) (t2 : String) (g2 : RGraph α)
          (r2 : NodeRef), t2 ≠ t →
          GetVariedFilter fuel2 (g1.GetVariedFilterSeq calls) id t2 = (g2, VariedResult.ok r2) →
          r2 ≠ r) := by
  have h2 : (GetVariedFilter fuel g id t).2 = VariedResult.ok r := by rw [h]
  obtain ⟨node, hn, hnom, ht, hdep⟩ := GetVariedFilter_ok_inv t fuel g id r h2
  obtain ⟨hE, hreg⟩ := GetVariedFilter_spec t fuel g id
  obtain ⟨node1, c1, c2⟩ := hreg r h2
  rw [h] at hE c1
  obtain ⟨n1, d1, d2, _⟩ := Extends_keeps hE id node hn
  rw [c1] at d1
  cases d1
  refine ⟨?_, ?_⟩
  · intro calls fuel2
    obtain ⟨n2, e1, e2, e3⟩ := GetVariedFilterSeq_keeps calls g1 id node1 c1
    exact GetVariedFilter_memo fuel2 _ id t n2 r e1 (by rw [e2, d2]; exact hnom) ht
      (by rw [e2, d2]; exact hdep) (e3 t r c2)
  · intro hI calls fuel2 t2 g2 r2 hne hcall
    have hI1 := RegistryInv_extends hE id node hn hI
    have hI2 := RegistryInv_GetVariedFilterSeq calls g1 id node1 c1 hI1
    obtain ⟨n2, e1, _, e3⟩ := GetVariedFilterSeq_keeps calls g1 id node1 c1
    obtain ⟨i1, i2⟩ := hI2 n2 e1
    have hr := e3 t r c2
    obtain ⟨j, hj, hjl⟩ := i1 t r hr
    have hc2 : (GetVariedFilter fuel2 (g1.GetVariedFilterSeq calls) id t2).2
        = VariedResult.ok r2 := by rw [hcall]
    obtain ⟨hE2, hreg2⟩ := GetVariedFilter_spec t2 fuel2 (g1.GetVariedFilterSeq calls) id
    obtain ⟨n3, f1, f2⟩ := hreg2 r2 hc2
    obtain ⟨n3b, k1, _, _, _, _, k6⟩ := hE2.2 id n2 e1
    rw [f1] at k1
    cases k1
    intro heq
    subst heq
    rcases k6 r2 f2 with hold | ⟨j2, hj2, hl2, _⟩
    · exact hne (i2 t2 t r2 hold hr)
    · rw [hj] at hj2
      cases hj2
      omega

end RGraph

namespace RGraph

variable {α : Type}

theorem scenarioGraph_registryInv : RegistryInv scenarioGraph 1 := by
  intro node h
  simp only [scenarioGraph, List.getElem?_cons_succ, List.getElem?_cons_zero,
    Option.some.injEq] at h
  subst h
  refine ⟨?_, ?_⟩
  · intro k r hr
    cases hr
  · intro k1 k2 r hr
    cases hr

/-- Witness for C18: after `GetVariedFilter("x:up")` on `"cut2"` of the scenario graph, the same
call with fuel for one filter returns the same pointer and the same graph, also after a call for
`"y:up"`; and the call for `"y:up"` returns another pointer. -/
theorem C18_memoized_witness :
    GetVariedFilter 1 (GetVariedFilter 5 scenarioGraph 1 "x:up").1 1 "x:up"
        = ((GetVariedFilter 5 scenarioGraph 1 "x:up").1, VariedResult.ok (NodeRef.filter 3)) ∧
      (GetVariedFilter 1
          ((GetVariedFilter 5 scenarioGraph 1 "x:up").1.GetVariedFilterSeq [(5, 1, "y:up")])
          1 "x:up").2 = VariedResult.ok (NodeRef.filter 3) ∧
      (GetVariedFilter 5 (GetVariedFilter 5 scenarioGraph 1 "x:up").1 1 "y:up").2
        = VariedResult.ok (NodeRef.filter 4) ∧
      NodeRef.filter 4 ≠ NodeRef.filter 3 := by
  have h := C18_memoized scenarioGraph 5 1 "x:up" (GetVariedFilter 5 scenarioGraph 1 "x:up").1
    (NodeRef.filter 3) (Prod.ext rfl (by decide))
  refine ⟨h.1 [] 0, ?_, by decide, ?_⟩
  · rw [h.1 [(5, 1, "y:up")] 0]
  · exact h.2 scenarioGraph_registryInv [] 5 "y:up"
      (GetVariedFilter 5 (GetVariedFilter 5 scenarioGraph 1 "x:up").1 1 "y:up").1
      (NodeRef.filter 4) (by decide) (Prod.ext rfl (by decide))

end RGraph

namespace RGraph

variable {α : Type}

theorem attach_new (g : RGraph α) (id : Nat) (t : String) (p : NodeRef) (ht : t ≠ "nominal")
    (i : Nat) (nd : RFilterNode α) (hi : g.nodes.length ≤ i)
    (h : (attach g id t p).1.nodes[i]? = some nd) : nd.state.fVariation ≠ "nominal" := by
  cases hn : g.nodes[id]? with
  | none =>
    simp only [attach, hn] at h
    have := RDefine.lt_length_of_getElem? h
    omega
  | some node =>
    cases hf : mapFind node.fVariedFilters t with
    | some ref =>
      rw [attach_memo g id t p ref node hn hf] at h
      have hl : i < g.nodes.length := RDefine.lt_length_of_getElem? h
      omega
    | none =>
      obtain ⟨_, _, a3, _, new, a5, _, _, a8⟩ := attach_fresh g id t p node hn hf
      have hil := RDefine.lt_length_of_getElem? h
      have hieq : i = g.nodes.length := by omega
      subst hieq
      rw [a5] at h
      cases h
      rw [a8]
      exact ht

/-- The filters that `GetVariedFilter` adds to the graph are varied filters. -/
theorem GetVariedFilter_new (t : String) (fuel : Nat) :
    ∀ (g : RGraph α) (id i : Nat) (nd : RFilterNode α), g.nodes.length ≤ i →
      (GetVariedFilter fuel g id t).1.nodes[i]? = some nd →
      nd.state.fVariation ≠ "nominal" := by
  induction fuel with
  | zero =>
    intro g id i nd hi h
    have := RDefine.lt_length_of_getElem? h
    exact absurd this (by simp only [GetVariedFilter]; omega)
  | succ fuel ih =>
    intro g id i nd hi h
    have stay : (GetVariedFilter (fuel + 1) g id t).1 = g → nd.state.fVariation ≠ "nominal" := by
      intro e
      rw [e] at h
      have := RDefine.lt_length_of_getElem? h
      omega
    cases hn : g.nodes[id]? with
    | none =>
      apply stay
      rw [GetVariedFilter]
      simp only [hn]
    | some node =>
      by_cases hpass : node.state.fVariation = "nominal" ∧ t ≠ "nominal" ∧
          t ∈ node.state.fVariations
      · obtain ⟨hnom, ht, hdep⟩ := hpass
        cases hf : mapFind node.fVariedFilters t with
        | some ref =>
          apply stay
          rw [GetVariedFilter_memo fuel g id t node ref hn hnom ht hdep hf]
        | none =>
          have hE := resolvePrev_extends (GetVariedFilter fuel) t
            (fun g0 i0 => (GetVariedFilter_spec t fuel g0 i0).1) g node.fPrevNodePtr
          have hnew : ∀ (j : Nat) (x : RFilterNode α), g.nodes.length ≤ j →
              (resolvePrev (GetVariedFilter fuel) g node.fPrevNodePtr t).1.nodes[j]? = some x →
              x.state.fVariation ≠ "nominal" := by
            intro j x hj hx
            have stay2 : (resolvePrev (GetVariedFilter fuel) g node.fPrevNodePtr t).1 = g →
                x.state.fVariation ≠ "nominal" := by
              intro e
              rw [e] at hx
              have := RDefine.lt_length_of_getElem? hx
              omega
            cases hp : node.fPrevNodePtr with
            | loopManager =>
              apply stay2
              rw [hp]
              rfl
            | filter pid =>
              rw [hp] at hx stay2
              cases hq : g.nodes[pid]? with
              | none =>
                apply stay2
                simp only [resolvePrev, hq]
              | some prev =>
                rw [resolvePrev_filter (GetVariedFilter fuel) g t pid prev hq] at hx stay2
                by_cases hv : t ∈ prev.state.fVariations
                · rw [if_pos hv] at hx
                  exact ih g pid j x hj hx
                · rw [if_neg hv] at stay2
                  exact stay2 rfl
          cases hp : resolvePrev (GetVariedFilter fuel) g node.fPrevNodePtr t with
          | mk g1 res =>
            rw [hp] at hE hnew
            by_cases hres : ∃ p, res = VariedResult.ok p
            · obtain ⟨p, rfl⟩ := hres
              rw [GetVariedFilter_build fuel g id t node hn hnom ht hdep hf g1 p hp] at h
              by_cases hlt : i < g1.nodes.length
              · obtain ⟨x, hx⟩ : ∃ x, g1.nodes[i]? = some x :=
                  ⟨g1.nodes[i], List.getElem?_eq_getElem hlt⟩
                have hne : i ≠ id := by
                  have := RDefine.lt_length_of_getElem? hn
                  omega
                rw [attach_other g1 id t p i x hne hx] at h
                cases h
                exact hnew i _ hi hx
              · exact attach_new g1 id t p ht i nd (by omega) h
            · have hres2 : ∀ p, res ≠ VariedResult.ok p := fun p e => hres ⟨p, e⟩
              rw [GetVariedFilter_fail fuel g id t node hn hnom ht hdep hf g1 res hp hres2] at h
              exact hnew i nd hi h
      · have hc : node.state.fVariation ≠ "nominal" ∨ t = "nominal" ∨
            t ∉ node.state.fVariations := by
          by_contra hc
          push_neg at hc
          exact hpass ⟨hc.1, hc.2.1, hc.2.2⟩
        apply stay
        rw [GetVariedFilter_assert fuel g id t node hn hc]

/-- The calls of `GetVariedFilter` keep the graph as `Forward` requires. -/
theorem Forward_GetVariedFilter (g : RGraph α) (hF : Forward g) (fuel id : Nat) (t : String) :
    Forward (GetVariedFilter fuel g id t).1 := by
  obtain ⟨hlen, hE⟩ := (GetVariedFilter_spec t fuel g id).1
  intro i nd hi hnom
  by_cases hlt : i < g.nodes.length
  · obtain ⟨n1, a1, a2, a3, _⟩ := hE i g.nodes[i] (List.getElem?_eq_getElem hlt)
    rw [hi] at a1
    cases a1
    rcases Forward_prev g hF i g.nodes[i] (List.getElem?_eq_getElem hlt)
      (by rw [← a2]; exact hnom) with hlm | ⟨pid, prev, hp, hpid, hq, hpn⟩
    · rw [prevOk, a3, hlm]
    · obtain ⟨p1, b1, b2, _⟩ := hE pid prev hq
      rw [prevOk, a3, hp]
      simp only [b1, b2, hpn, hpid, decide_True, Bool.and_self]
  · exact absurd hnom (GetVariedFilter_new t fuel g id i nd (by omega) hi)

end RGraph

namespace RNode

variable {α : Type}

theorem IncrChildrenCount_unnamedFresh (node : RNode α) (h : node.UnnamedFresh) :
    node.IncrChildrenCount.1.Armed ∧ node.IncrChildrenCount.1.AllChildrenCount 1 ∧
      node.IncrChildrenCount.1.source.fNChildren = node.source.fNChildren + 1 ∧
      node.IncrChildrenCount.1.source.fNStopsReceived = node.source.fNStopsReceived ∧
      node.IncrChildrenCount.2.count (NodeCall.incrChildrenCount 0)
        = (if node.level = 0 then 0 else 1) ∧
      ∀ l, node.IncrChildrenCount.2.count (NodeCall.stopProcessing l) = 0 := by
  induction node with
  | loopManager lm =>
    simp [IncrChildrenCount, Armed, AllChildrenCount, source, level]
  | filter f prev ih =>
    obtain ⟨h1, h2, h3, h4⟩ := h
    obtain ⟨i1, i2, i3, i4, i5, i6⟩ := ih h4
    have hc : f.fNChildren + 1 = 1 ∧ f.fName = "" := ⟨by omega, h1⟩
    simp only [IncrChildrenCount]
    rw [if_pos hc]
    refine ⟨⟨by simp [h2], h3, i1⟩, ⟨by simp [h2], i2⟩, i3, i4, ?_, ?_⟩
    · simp only [level, List.count_cons, i5]
      by_cases hl : prev.level = 0 <;> simp [hl]
    · intro l
      simp only [List.count_cons, i6 l]
      simp

theorem StopProcessing_armed (node : RNode α) (h : node.Armed) :
    node.StopProcessing.1.source.fNStopsReceived = node.source.fNStopsReceived + 1 ∧
      node.StopProcessing.2.count (NodeCall.stopProcessing 0)
        = (if node.level = 0 then 0 else 1) := by
  induction node with
  | loopManager lm => simp [StopProcessing, source, level]
  | filter f prev ih =>
    obtain ⟨h1, h2, h3⟩ := h
    obtain ⟨i1, i2⟩ := ih h3
    have hc : f.fNStopsReceived + 1 = f.fNChildren := by omega
    simp only [StopProcessing]
    rw [if_pos hc]
    refine ⟨i1, ?_⟩
    simp only [level, List.count_cons, i2]
    by_cases hl : prev.level = 0 <;> simp [hl]

/-- C30: in a chain of unnamed filters whose `fNChildren` and `fNStopsReceived` are all zero, one
`IncrChildrenCount` on the last filter leaves every filter with `fNChildren = 1` and makes
exactly one `IncrChildrenCount` call on the source (the node at level 0), whose counter goes up
by one; a following `StopProcessing` on the last filter makes exactly one `StopProcessing` call
on the source; and `StopProcessing` without the prior `IncrChildrenCount` makes no call at all
and leaves the source as it was. -/
theorem C30_unnamed_chain_protocol (f : RFilter α) (prev : RNode α)
    (h : (filter f prev).UnnamedFresh) :
    (filter f prev).IncrChildrenCount.1.AllChildrenCount 1 ∧
      (filter f prev).IncrChildrenCount.2.count (NodeCall.incrChildrenCount 0) = 1 ∧
      (filter f prev).IncrChildrenCount.1.source.fNChildren
        = (filter f prev).source.fNChildren + 1 ∧
      (filter f prev).IncrChildrenCount.1.StopProcessing.2.count (NodeCall.stopProcessing 0)
        = 1 ∧
      (filter f prev).IncrChildrenCount.1.StopProcessing.1.source.fNStopsReceived
        = (filter f prev).source.fNStopsReceived + 1 ∧
      (filter f prev).StopProcessing.2 = [] ∧
      (filter f prev).StopProcessing.1.source = (filter f prev).source := by
  obtain ⟨a1, a2, a3, a4, a5, _⟩ := IncrChildrenCount_unnamedFresh (filter f prev) h
  obtain ⟨b1, b2⟩ := StopProcessing_armed _ a1
  rw [IncrChildrenCount_level] at b2
  have hl : (filter f prev).level ≠ 0 := by simp [level]
  rw [if_neg hl] at a5 b2
  obtain ⟨h1, h2, h3, _⟩ := h
  have hne : ¬ (f.fNStopsReceived + 1 = f.fNChildren) := by omega
  refine ⟨a2, a5, a3, b2, by rw [b1, a4], ?_, ?_⟩
  · simp only [StopProcessing]
    rw [if_neg hne]
  · simp only [StopProcessing]
    rw [if_neg hne]
    rfl

/-- Witness for C30: the chain of three unnamed scenario filters. -/
theorem C30_unnamed_chain_protocol_witness :
    scenarioUnnamedChain.IncrChildrenCount.1.AllChildrenCount 1 ∧
      scenarioUnnamedChain.IncrChildrenCount.2.count (NodeCall.incrChildrenCount 0) = 1 ∧
      scenarioUnnamedChain.IncrChildrenCount.1.source.fNChildren
        = scenarioUnnamedChain.source.fNChildren + 1 ∧
      scenarioUnnamedChain.IncrChildrenCount.1.StopProcessing.2.count
        (NodeCall.stopProcessing 0) = 1 ∧
      scenarioUnnamedChain.IncrChildrenCount.1.StopProcessing.1.source.fNStopsReceived
        = scenarioUnnamedChain.source.fNStopsReceived + 1 ∧
      scenarioUnnamedChain.StopProcessing.2 = [] ∧
      scenarioUnnamedChain.StopProcessing.1.source = scenarioUnnamedChain.source :=
  C30_unnamed_chain_protocol _ _
    ⟨rfl, rfl, rfl, rfl, rfl, rfl, rfl, rfl, rfl, trivial⟩

/-- The scenario chain of three unnamed filters: the calls of the activation and of the shutdown
that follows it, and the counters of the source. -/
theorem scenario_unnamed_chain :
    scenarioUnnamedChain.IncrChildrenCount.2
        = [NodeCall.incrChildrenCount 2, NodeCall.incrChildrenCount 1,
           NodeCall.incrChildrenCount 0] ∧
      scenarioUnnamedChain.IncrChildrenCount.1.StopProcessing.2
        = [NodeCall.stopProcessing 2, NodeCall.stopProcessing 1, NodeCall.stopProcessing 0] ∧
      scenarioUnnamedChain.IncrChildrenCount.1.StopProcessing.1.source.fNStopsReceived = 1 ∧
      scenarioUnnamedChain.IncrChildrenCount.1.source.fNChildren = 1 := by
  refine ⟨by decide, by decide, by decide, by decide⟩

end RNode

namespace RDefine

variable {α β : Type}

theorem loadAndDispatch_bulk (d : RDefine α β)
    (f : REventMask → List β → List α → List β) (hE : d.fExpression = DefineExpression.bulk f)
    (slot : Nat) (req : RMaskedEntryRange) (n g : Nat) (res : List β)
    (reader : RColumnReaderBase α)
    (hi : slot * d.maskStep < d.fMask.length)
    (hr : d.fLastResults[slot * d.resultsStep]? = some res)
    (hrd : d.fValueReaders[slot]? = some reader) (hp : slot < d.fValuePtrs.length) :
    loadAndDispatch d slot req n g
      = some ({ d with
          fValuePtrs := d.fValuePtrs.set slot (reader.Load req n),
          fLastResults := d.fLastResults.set (slot * d.resultsStep)
            (f ⟨req, n⟩ res ((List.range n).map (reader.Load req n))),
          fMask := d.fMask.set (slot * d.maskStep) req },
        [ExprCall.bulk ⟨req, n⟩]) := by
  simp [loadAndDispatch, hE, hrd, assignAt, hp, UpdateHelperBulk, hr, hi, REventMask.Size]

/-- The batched `Update` on a cache miss: one invocation with the event mask of the whole
request, and the requested mask becomes the cached mask. -/
theorem Update_bulk_miss (d : RDefine α β)
    (f : REventMask → List β → List α → List β) (hE : d.fExpression = DefineExpression.bulk f)
    (slot : Nat) (req vm : RMaskedEntryRange) (n : Nat) (res : List β)
    (reader : RColumnReaderBase α)
    (hm : d.fMask[slot * d.maskStep]? = some vm)
    (hr : d.fLastResults[slot * d.resultsStep]? = some res)
    (hrd : d.fValueReaders[slot]? = some reader) (hp : slot < d.fValuePtrs.length)
    (hmiss : vm.FirstEntry ≠ req.FirstEntry ∨ vm.Contains req n ≠ sizeMax) :
    d.Update slot req n
      = some ({ d with
          fValuePtrs := d.fValuePtrs.set slot (reader.Load req n),
          fLastResults := d.fLastResults.set (slot * d.resultsStep)
            (f ⟨req, n⟩ res ((List.range n).map (reader.Load req n))),
          fMask := d.fMask.set (slot * d.maskStep) req },
        [ExprCall.bulk ⟨req, n⟩]) := by
  have hi := lt_length_of_getElem? hm
  unfold Update
  simp only [hm, Option.bind_eq_bind, Option.some_bind]
  by_cases hne : vm.FirstEntry ≠ req.FirstEntry
  · rw [if_pos hne]
    have hl := loadAndDispatch_bulk
      { d with fMask := d.fMask.set (slot * d.maskStep)
                 ((vm.SetAll false).SetFirstEntry req.FirstEntry) }
      f hE slot req n 0 res reader (by simpa using hi) hr hrd hp
    rw [hl]
    simp
  · rw [if_neg hne]
    have hC : vm.Contains req n ≠ sizeMax := by
      rcases hmiss with h | h
      · exact absurd h hne
      · exact h
    rw [if_neg hC]
    exact loadAndDispatch_bulk d f hE slot req n _ res reader hi hr hrd hp

/-- C28: for a batched expression, an `Update` that is not answered from the cache (the cached
stamp differs from the requested stamp, or `Contains` reports a gap) invokes the expression
exactly once, with the event mask built from the whole requested mask and `bulkSize`, stores the
buffer the expression returns and makes the requested mask the cached mask of the slot; the same
`Update` repeated right after it invokes the expression zero times, so the two calls invoke it
once in total; and an `Update` whose request is fully covered under the cached stamp invokes it
zero times and changes nothing. -/
theorem C28_batched_update (d : RDefine α β)
    (f : REventMask → List β → List α → List β) (hE : d.fExpression = DefineExpression.bulk f)
    (slot : Nat) (req vm : RMaskedEntryRange) (n : Nat) (res : List β)
    (reader : RColumnReaderBase α)
    (hm : d.fMask[slot * d.maskStep]? = some vm)
    (hr : d.fLastResults[slot * d.resultsStep]? = some res)
    (hrd : d.fValueReaders[slot]? = some reader) (hp : slot < d.fValuePtrs.length) :
    ((vm.FirstEntry ≠ req.FirstEntry ∨ vm.Contains req n ≠ sizeMax) →
        ∃ d1, d.Update slot req n = some (d1, [ExprCall.bulk ⟨req, n⟩]) ∧
          d1.fMask[slot * d1.maskStep]? = some req ∧
          d1.fLastResults[slot * d1.resultsStep]?
            = some (f ⟨req, n⟩ res ((List.range n).map (reader.Load req n))) ∧
          d1.Update slot req n = some (d1, []) ∧
          ((d.Update slot req n).bind (fun r =>
            (r.1.Update slot req n).map (fun r1 => r.2 ++ r1.2)))
            = some [ExprCall.bulk ⟨req, n⟩]) ∧
      (vm.FirstEntry = req.FirstEntry → vm.Contains req n = sizeMax →
        d.Update slot req n = some (d, [])) := by
  have hi := lt_length_of_getElem? hm
  have hi2 := lt_length_of_getElem? hr
  refine ⟨?_, ?_⟩
  · intro hmiss
    have h1 := Update_bulk_miss d f hE slot req vm n res reader hm hr hrd hp hmiss
    have hm1 : (d.fMask.set (slot * d.maskStep) req)[slot * d.maskStep]? = some req := by
      simp [hi]
    have h2 : ∀ d1 : RDefine α β, d1.fMask[slot * d1.maskStep]? = some req →
        d1.Update slot req n = some (d1, []) := fun d1 h =>
      Update_covered d1 slot req req n h rfl (Contains_of_covered req req n (fun _ _ hb => hb))
    refine ⟨_, h1, hm1, by simp [hi2], h2 _ hm1, ?_⟩
    rw [h1]
    simp only [Option.some_bind]
    rw [h2 _ hm1]
    rfl
  · intro heq hC
    exact Update_covered d slot req vm n hm heq hC

/-- Witness for C28: the batched scenario column with the cache `[T, F, T, F]` of the bulk
stamped `0` receives the request `[T, T, F, F]` for the same bulk. -/
theorem C28_batched_update_witness :
    ∃ d1, (scenarioBulkDefine ⟨[true, false, true, false], 0⟩).Update 0
          ⟨[true, true, false, false], 0⟩ 4
        = some (d1, [ExprCall.bulk ⟨⟨[true, true, false, false], 0⟩, 4⟩]) ∧
      d1.fMask[0 * d1.maskStep]? = some ⟨[true, true, false, false], 0⟩ ∧
      d1.fLastResults[0 * d1.resultsStep]? = some [2, 4, 0, 0] ∧
      d1.Update 0 ⟨[true, true, false, false], 0⟩ 4 = some (d1, []) := by
  obtain ⟨d1, h1, h2, h3, h4, _⟩ := (C28_batched_update
    (scenarioBulkDefine ⟨[true, false, true, false], 0⟩) _ rfl 0
    ⟨[true, true, false, false], 0⟩ ⟨[true, false, true, false], 0⟩ 4 [0, 0, 0, 0]
    scenarioReader rfl rfl rfl (by decide)).1 (Or.inr (by decide))
  refine ⟨d1, h1, h2, ?_, h4⟩
  rw [h3]
  decide

/-- C25 fails: the batched scenario column has cached rows 0 and 2 of the bulk stamped `0` and
receives the request `[T, T, F, F]` for the same bulk.  The event mask handed to the expression
is the whole request, which contains the cached row 0, and the cached mask afterwards is the
request `[T, T, F, F]`, not the union `[T, T, T, F]`: the cached row 2 is forgotten. -/
theorem C25_batched_discipline_fails :
    RMaskedEntryRange.Contains ⟨[true, false, true, false], 0⟩
        ⟨[true, true, false, false], 0⟩ 4 = 1 ∧
      ((scenarioBulkDefine ⟨[true, false, true, false], 0⟩).Update 0
          ⟨[true, true, false, false], 0⟩ 4).map (fun r => (r.2, r.1.fMask))
        = some ([ExprCall.bulk ⟨⟨[true, true, false, false], 0⟩, 4⟩],
            [⟨[true, true, false, false], 0⟩]) ∧
      RMaskedEntryRange.bit ⟨[true, true, false, false], 0⟩ 0 = true ∧
      RMaskedEntryRange.bit ⟨[true, false, true, false], 0⟩ 0 = true ∧
      RMaskedEntryRange.bit ⟨[true, false, true, false], 0⟩ 2 = true ∧
      RMaskedEntryRange.bit ⟨[true, true, false, false], 0⟩ 2 = false := by
  refine ⟨by decide, by decide, by decide, by decide, by decide, by decide⟩

end RDefine

namespace RDefine

variable {α β : Type}

/-- After construction every slot is laid out for bulks of `MaxEventsPerBulk` rows. -/
theorem construct_slotReady (blank : Blank α β) (name type : String)
    (expression : DefineExpression α β) (columns variationDeps : List String)
    (lm : RLoopManager) (maskStep resultsStep : Nat) (variationName : String) (slot : Nat)
    (hslot : slot < lm.fNSlots) (hs1 : 1 ≤ maskStep) (hs2 : 1 ≤ resultsStep) :
    SlotReady (construct blank name type expression columns variationDeps lm maskStep
      resultsStep variationName) slot lm.fMaxEventsPerBulk := by
  have h1 : slot * maskStep < lm.fNSlots * maskStep := Nat.mul_lt_mul_of_pos_right hslot hs1
  have h2 : slot * resultsStep < lm.fNSlots * resultsStep :=
    Nat.mul_lt_mul_of_pos_right hslot hs2
  refine ⟨⟨RMaskedEntryRange.unset lm.fMaxEventsPerBulk, ?_, ?_⟩,
    ⟨List.replicate lm.fMaxEventsPerBulk blank.zero, ?_, ?_⟩, ?_, ?_⟩
  · simp [construct, List.getElem?_replicate, h1]
  · simp [RMaskedEntryRange.unset]
  · simp [construct, List.getElem?_replicate, h2]
  · simp
  · simp [construct, hslot]
  · simp [construct, hslot]

/-- One row-wise `Update` on a slot laid out for the capacity `cap`: it succeeds, the buffer of
the slot keeps its length, the elements from `bulkSize` on are untouched, and the slot is laid
out for `cap` afterwards. -/
theorem Update_buffer (d : RDefine α β) (slot cap : Nat) (req : RMaskedEntryRange) (n : Nat)
    (res : List β) (hready : SlotReady d slot cap) (hrow : d.fExpression.kUsingBulkAPI = false)
    (hr : d.fLastResults[slot * d.resultsStep]? = some res)
    (hreq : req.fMask.length = cap) (hn : n ≤ cap) :
    ∃ d1 calls res1, d.Update slot req n = some (d1, calls) ∧
      d1.fLastResults[slot * d1.resultsStep]? = some res1 ∧ res1.length = cap ∧
      (∀ j, n ≤ j → res1[j]? = res[j]?) ∧
      SlotReady d1 slot cap ∧ d1.fExpression = d.fExpression ∧
      d1.fLastResults.length = d.fLastResults.length ∧ d1.fMask.length = d.fMask.length := by
  have hready0 := hready
  obtain ⟨⟨vm, hvm, hvl⟩, ⟨res0, hr0, hrl⟩, hrd, hp⟩ := hready
  rw [hr] at hr0
  cases hr0
  obtain ⟨reader, hreader⟩ : ∃ r, d.fValueReaders[slot]? = some r :=
    ⟨_, List.getElem?_eq_getElem hrd⟩
  have hi2 := lt_length_of_getElem? hr
  have post : ∀ (res1 : List β) (vm1 : RMaskedEntryRange) (calls : List ExprCall)
      (view : Nat → α),
      d.Update slot req n
        = some ({ d with fValuePtrs := d.fValuePtrs.set slot view,
                         fLastResults := d.fLastResults.set (slot * d.resultsStep) res1,
                         fMask := d.fMask.set (slot * d.maskStep) vm1 }, calls) →
      res1.length = res.length → vm1.fMask.length = cap →
      (∀ j, n ≤ j → res1[j]? = res[j]?) →
      ∃ d1 calls res1, d.Update slot req n = some (d1, calls) ∧
        d1.fLastResults[slot * d1.resultsStep]? = some res1 ∧ res1.length = cap ∧
        (∀ j, n ≤ j → res1[j]? = res[j]?) ∧
        SlotReady d1 slot cap ∧ d1.fExpression = d.fExpression ∧
        d1.fLastResults.length = d.fLastResults.length ∧
        d1.fMask.length = d.fMask.length := by
    intro res1 vm1 calls view e hl1 hl2 hval
    refine ⟨_, calls, res1, e, by simp [hi2], by omega, hval,
      SlotReady_post d slot cap view res1 vm1 hready0 (by omega) hl2, rfl, by simp, by simp⟩
  by_cases hne : vm.fBegin = req.fBegin
  · by_cases hC : vm.Contains req n = sizeMax
    · exact ⟨d, [], res, Update_covered d slot req vm n hvm hne hC, hr, hrl, fun _ _ => rfl,
        hready0, rfl, rfl, rfl⟩
    · by_cases hz : vm.Contains req n = 0
      · obtain ⟨res1, e1, e2, e3⟩ := Update_gapZero d slot req vm n res reader hvm hr hreader hp
          hrow (by omega) (by omega) hne hz
        refine post res1 req _ _ e1 e2 hreq ?_
        intro j hj
        rw [e3 j, if_neg (by omega)]
      · obtain ⟨res1, vm1, e1, e2, _, e4, _, e6⟩ := Update_gapPos d slot req vm n res reader
          hvm hr hreader hp hrow (by omega) (by omega) (by omega) hne hz hC
        have hgn : vm.Contains req n < n := by
          rcases Contains_spec vm req n with ⟨h1, _⟩ | ⟨h1, _⟩
          · exact h1
          · exact absurd h1 hC
        refine post res1 vm1 _ _ e1 e2 (by omega) ?_
        intro j hj
        rw [e6 j, if_neg (by omega)]
  · obtain ⟨res1, e1, e2, e3⟩ := Update_newBulk d slot req vm n res reader hvm hr hreader hp
      hrow (by omega) (by omega) hne
    refine post res1 req _ _ e1 e2 hreq ?_
    intro j hj
    rw [e3 j, if_neg (by omega)]

theorem UpdateSeq_slotReady (slot cap : Nat) :
    ∀ (calls : List (RLoopManager × RMaskedEntryRange × Nat)) (d : RDefine α β),
      SlotReady d slot cap → d.fExpression.kUsingBulkAPI = false →
      (∀ c, c ∈ calls → c.2.1.fMask.length = cap ∧ c.2.2 ≤ cap) →
      ∃ d0, UpdateSeq d slot calls = some d0 ∧ SlotReady d0 slot cap ∧
        d0.fExpression = d.fExpression ∧ d0.fLastResults.length = d.fLastResults.length := by
  intro calls
  induction calls with
  | nil => intro d h _ _; exact ⟨d, rfl, h, rfl, rfl⟩
  | cons c rest ih =>
    intro d hready hrow hcalls
    obtain ⟨lm, m, n⟩ := c
    obtain ⟨hc1, hc2⟩ := hcalls (lm, m, n) (List.mem_cons_self _ _)
    obtain ⟨res, hr, _⟩ := hready.2.1
    obtain ⟨d1, cs, res1, e1, _, _, _, e5, e6, e7, _⟩ := Update_buffer
      { d with fLoopManager := lm } slot cap m n res hready hrow hr hc1 hc2
    obtain ⟨d0, f1, f2, f3, f4⟩ := ih d1 e5 (by rw [e6]; exact hrow)
      (fun c hc => hcalls c (List.mem_cons_of_mem _ hc))
    refine ⟨d0, ?_, f2, f3.trans e6, f4.trans e7⟩
    simp only [UpdateSeq, e1, Option.bind_eq_bind, Option.some_bind]
    exact f1

/-- C27: after construction every slot's results buffer has `MaxEventsPerBulk` elements; and on a
slot laid out for that capacity, with a row-wise expression, masks of the capacity and bulk
sizes within it, every `Update` of a sequence succeeds (no index it reads or writes in the
buffer or in the masks is out of range), keeps the length of the buffer, and leaves the
elements from `bulkSize` on as they were. -/
theorem C27_results_buffer_stable (d : RDefine α β) (slot cap : Nat)
    (hready : SlotReady d slot cap) (hrow : d.fExpression.kUsingBulkAPI = false)
    (calls : List (RLoopManager × RMaskedEntryRange × Nat))
    (hcalls : ∀ c, c ∈ calls → c.2.1.fMask.length = cap ∧ c.2.2 ≤ cap)
    (lm : RLoopManager) (req : RMaskedEntryRange) (n : Nat)
    (hreq : req.fMask.length = cap) (hn : n ≤ cap) :
    (∀ (blank : Blank α β) (name type : String) (expression : DefineExpression α β)
        (columns variationDeps : List String) (lm0 : RLoopManager) (maskStep resultsStep : Nat)
        (variationName : String) (s : Nat), s < lm0.fNSlots → 1 ≤ maskStep → 1 ≤ resultsStep →
        ∃ res, (construct blank name type expression columns variationDeps lm0 maskStep
            resultsStep variationName).fLastResults[s * resultsStep]? = some res ∧
          res.length = lm0.fMaxEventsPerBulk ∧
          SlotReady (construct blank name type expression columns variationDeps lm0 maskStep
            resultsStep variationName) s lm0.fMaxEventsPerBulk) ∧
      ∃ (d0 : RDefine α β) (res0 : List β) (d1 : RDefine α β) (calls1 : List ExprCall)
        (res1 : List β),
        UpdateSeq d slot calls = some d0 ∧
        d0.fLastResults[slot * d0.resultsStep]? = some res0 ∧ res0.length = cap ∧
        ({ d0 with fLoopManager := lm }).Update slot req n = some (d1, calls1) ∧
        d1.fLastResults[slot * d1.resultsStep]? = some res1 ∧ res1.length = cap ∧
        (∀ j, n ≤ j → res1[j]? = res0[j]?) ∧
        d1.fLastResults.length = d.fLastResults.length ∧ SlotReady d1 slot cap := by
  refine ⟨?_, ?_⟩
  · intro blank name type expression columns variationDeps lm0 maskStep resultsStep
      variationName s hs h1 h2
    have h := construct_slotReady blank name type expression columns variationDeps lm0 maskStep
      resultsStep variationName s hs h1 h2
    obtain ⟨res, hr, hl⟩ := h.2.1
    exact ⟨res, hr, hl, h⟩
  · obtain ⟨d0, e1, e2, e3, e4⟩ := UpdateSeq_slotReady slot cap calls d hready hrow hcalls
    obtain ⟨res0, hr0, hl0⟩ := e2.2.1
    obtain ⟨d1, cs, res1, f1, f2, f3, f4, f5, _, f7, _⟩ := Update_buffer
      { d0 with fLoopManager := lm } slot cap req n res0 e2 (by rw [e3]; exact hrow) hr0
      hreq hn
    exact ⟨d0, res0, d1, cs, res1, e1, hr0, hl0, f1, f2, f3, f4, f7.trans e4, f5⟩

end RDefine

namespace RDefine

variable {α β : Type}

/-- Witness for C27: the scenario column as constructed, after a first `Update` for rows 0 and
1, receives an `Update` for the first three rows of the bulk. -/
theorem C27_results_buffer_stable_witness :
    ∃ (d0 : RDefine Nat Nat) (res0 : List Nat) (d1 : RDefine Nat Nat) (calls1 : List ExprCall)
      (res1 : List Nat),
      UpdateSeq scenarioDefineNode.state 0
          [(scenarioLoopManager, ⟨[true, true, false, false], 0⟩, 4)] = some d0 ∧
        d0.fLastResults[0 * d0.resultsStep]? = some res0 ∧ res0.length = 4 ∧
        ({ d0 with fLoopManager := scenarioLoopManager }).Update 0
          ⟨[true, true, true, true], 0⟩ 3 = some (d1, calls1) ∧
        d1.fLastResults[0 * d1.resultsStep]? = some res1 ∧ res1.length = 4 ∧
        (∀ j, 3 ≤ j → res1[j]? = res0[j]?) := by
  have hready : SlotReady scenarioDefineNode.state 0 4 :=
    construct_slotReady scenarioBlank "y" "int" (DefineExpression.none (fun x => 2 * x))
      ["x"] ["x:up", "x:down"] scenarioLoopManager 1 1 "nominal" 0 (by decide) (by decide)
      (by decide)
  obtain ⟨_, d0, res0, d1, calls1, res1, h1, h2, h3, h4, h5, h6, h7, _⟩ :=
    C27_results_buffer_stable scenarioDefineNode.state 0 4 hready rfl
      [(scenarioLoopManager, ⟨[true, true, false, false], 0⟩, 4)]
      (by
        intro c hc
        simp only [List.mem_singleton] at hc
        subst hc
        exact ⟨rfl, le_refl _⟩)
      scenarioLoopManager ⟨[true, true, true, true], 0⟩ 3 rfl (by decide)
  exact ⟨d0, res0, d1, calls1, res1, h1, h2, h3, h4, h5, h6, h7⟩

end RDefine

namespace RNode

variable {α : Type}

theorem filters_length (node : RNode α) : node.filters.length = node.level := by
  induction node with
  | loopManager lm => rfl
  | filter f prev ih => simp [filters, level, ih]

/-- C26 as stated fails: in the chain of an unnamed filter followed by the filter named `"cut"`,
`PartialReport` invokes `FillReport` on both filters, the unnamed one first, but the report
holds the single entry of `"cut"`: the unnamed filter contributes no entry. -/
theorem C26_counterexample :
    scenarioReportChain.filters.length = 2 ∧
      (scenarioReportChain.PartialReport []).2 = [1, 2] ∧
      (scenarioReportChain.PartialReport []).1 = [⟨"cut", 0, 0⟩] := by
  refine ⟨by decide, by decide, by decide⟩

/-- The report in general: one entry for every named filter of the chain, in the order of the
chain, and `FillReport` invoked once on every filter in that order. -/
theorem PartialReport_spec (node : RNode α) (rep : List TCutInfo) :
    (node.PartialReport rep).1
        = rep ++ (node.filters.filter (fun f => !decide (f.fName = ""))).map RFilter.cutInfo ∧
      (node.PartialReport rep).2 = List.range' 1 node.level := by
  induction node with
  | loopManager lm => simp [PartialReport, filters, level]
  | filter f prev ih =>
    obtain ⟨i1, i2⟩ := ih
    refine ⟨?_, ?_⟩
    · simp only [PartialReport, RFilter.FillReport, filters, i1]
      by_cases hf : f.fName = ""
      · rw [if_pos hf]
        simp [List.filter_append, hf]
      · rw [if_neg hf]
        simp [List.filter_append, hf]
    · simp only [PartialReport, level, i2]
      rw [List.range'_concat]
      simp [Nat.add_comm]

/-- C26 amended: `PartialReport` on the last filter of a chain invokes `FillReport` once on
every filter, from the filter next to the source (level 1) to the last one, and the report
gains, in that order, one entry for every named filter and none for an unnamed one; when every
filter of the chain is named the report gains one entry per filter, the first filter's first and
the last filter's last; and `Report` gives what `PartialReport` gives. -/
theorem C26_report_order (node : RNode α) (rep : List TCutInfo) :
    (node.PartialReport rep).2 = List.range' 1 node.level ∧
      (node.PartialReport rep).1
        = rep ++ (node.filters.filter (fun f => !decide (f.fName = ""))).map RFilter.cutInfo ∧
      ((∀ f, f ∈ node.filters → f.fName ≠ "") →
        (node.PartialReport rep).1 = rep ++ node.filters.map RFilter.cutInfo) ∧
      node.Report rep = node.PartialReport rep := by
  obtain ⟨h1, h2⟩ := PartialReport_spec node rep
  refine ⟨h2, h1, ?_, rfl⟩
  intro hnamed
  rw [h1]
  congr 2
  rw [List.filter_eq_self]
  intro f hf
  simp [hnamed f hf]

/-- Witness for C26: the chain of the scenario filters named `"a"` and `"b"`. -/
theorem C26_report_order_witness :
    (scenarioNamedChain.PartialReport []).2 = [1, 2] ∧
      (scenarioNamedChain.PartialReport []).1 = [⟨"a", 0, 0⟩, ⟨"b", 0, 0⟩] ∧
      scenarioNamedChain.Report [] = scenarioNamedChain.PartialReport [] := by
  obtain ⟨h1, _, h3, h4⟩ := C26_report_order scenarioNamedChain []
  refine ⟨?_, ?_, h4⟩
  · rw [h1]
    decide
  · rw [h3 (by
      intro f hf
      simp only [scenarioNamedChain, scenarioConsumerChain, filters, List.nil_append,
        List.singleton_append, List.mem_cons, List.mem_singleton, List.not_mem_nil,
        or_false] at hf
      rcases hf with h | h <;> subst h <;> decide)]
    decide

end RNode

theorem RFilter.InitSlot_spec {α : Type} (f f1 : RFilter α) (readers : RColumnReaderBase α)
    (slot : Nat) (h : f.InitSlot readers slot = some f1) :
    ∃ mask, f.fMask[slot]? = some mask ∧
      f1.fMask = f.fMask.set slot (mask.SetFirstEntry (-1)) ∧ f1.maskStep = f.maskStep := by
  unfold RFilter.InitSlot at h
  cases hm : f.fMask[slot]? with
  | none => simp [hm] at h
  | some mask =>
    by_cases hs : slot < f.fValueReaders.length
    · simp only [assignAt, hs, if_true, hm, Option.bind_eq_bind, Option.some_bind,
        Option.some.injEq] at h
      subst h
      exact ⟨mask, rfl, rfl, rfl⟩
    · simp [assignAt, hs] at h

theorem RVariation.InitSlot_mask {α γ : Type} (v v1 : RVariation α γ)
    (readers : RColumnReaderBase α) (slot : Nat) (h : v.InitSlot readers slot = some v1) :
    ∃ mask, v.fMask[slot]? = some mask ∧
      v1.fMask = v.fMask.set slot (mask.SetFirstEntry (-1)) ∧ v1.maskStep = v.maskStep := by
  unfold RVariation.InitSlot at h
  cases hm : v.fMask[slot]? with
  | none => simp [hm] at h
  | some mask =>
    by_cases hs : slot < v.fValueReaders.length
    · simp only [assignAt, hs, if_true, hm, Option.bind_eq_bind, Option.some_bind,
        Option.some.injEq] at h
      subst h
      exact ⟨mask, rfl, rfl, rfl⟩
    · simp [assignAt, hs] at h

/-- What `RFilter::InitSlot(slot)` does to the mask entries that `CheckFilters` uses: the entry
`s * step` of a slot `s` is changed exactly when `s * step = slot`, and the entry of `slot`
itself is reset exactly when `slot * step = slot`, that is for a step of 1 or for slot 0. -/
theorem RFilter.InitSlot_entries {α : Type} (f f1 : RFilter α) (readers : RColumnReaderBase α)
    (slot : Nat) (h : f.InitSlot readers slot = some f1) :
    (∀ s, s * f.maskStep ≠ slot → f1.fMask[s * f1.maskStep]? = f.fMask[s * f.maskStep]?) ∧
      (∀ s mask, s * f.maskStep = slot → f.fMask[slot]? = some mask →
        f1.fMask[s * f1.maskStep]? = some (mask.SetFirstEntry (-1))) := by
  obtain ⟨mask, h1, h2, h3⟩ := RFilter.InitSlot_spec f f1 readers slot h
  have hi := RDefine.lt_length_of_getElem? h1
  refine ⟨?_, ?_⟩
  · intro s hs
    rw [h2, h3, List.getElem?_set_ne (fun e => hs e.symm)]
  · intro s m hs hm
    rw [h1] at hm
    cases hm
    rw [h2, h3, hs, List.getElem?_set_self hi]

/-- C24 fails for a cache-line step above 1.  The scenario filter and the scenario variation are
laid out for three slots with a step of 2 for the masks, so that slot `s` reads and writes the
mask entry `2 * s`; every entry holds the bulk stamped `5`.  `InitSlot(2)` resets the stamp of
entry 2, which is the entry of slot 1, and leaves entry 4, the entry of slot 2, as it was; a
`CheckFilters(2, 5, 4)` or an `Update(2, mask stamped 5, 4)` that follows is answered from the
stale cache of the earlier task: no predicate and no expression is evaluated. -/
theorem C24_init_slot_wrong_entry :
    (scenarioFilterSlots.InitSlot scenarioReader 2).map
        (fun f => f.fMask.map RMaskedEntryRange.FirstEntry) = some [5, 5, -1, 5, 5, 5] ∧
      ((scenarioFilterSlots.InitSlot scenarioReader 2).bind (fun f =>
          (RNode.filter f (RNode.loopManager scenarioLoopManager)).CheckFilters 2 5 4)).map
        (fun r => r.2) = some (⟨[false, false, true, true], 5⟩, []) ∧
      (scenarioVariationSlots.InitSlot scenarioReader 2).map
        (fun v => v.fMask.map RMaskedEntryRange.FirstEntry) = some [5, 5, -1, 5, 5, 5] ∧
      ((scenarioVariationSlots.InitSlot scenarioReader 2).bind (fun v =>
          v.Update 2 ⟨[true, true, true, true], 5⟩ 4)).map (fun r => r.2) = some [] := by
  refine ⟨by decide, by decide, by decide, by decide⟩

/-- With a cache-line step of 1 for the masks, `RFilter::InitSlot(slot)` resets the stamp of the
entry of `slot` and leaves the entry of every other slot as it was. -/
theorem RFilter.InitSlot_step_one {α : Type} (f f1 : RFilter α)
    (readers : RColumnReaderBase α) (slot : Nat) (hstep : f.maskStep = 1)
    (h : f.InitSlot readers slot = some f1) :
    (∃ mask, f.fMask[slot * f.maskStep]? = some mask ∧
        f1.fMask[slot * f1.maskStep]? = some (mask.SetFirstEntry (-1))) ∧
      ∀ s, s ≠ slot → f1.fMask[s * f1.maskStep]? = f.fMask[s * f.maskStep]? := by
  obtain ⟨h1, h2⟩ := RFilter.InitSlot_entries f f1 readers slot h
  obtain ⟨mask, hm, _, _⟩ := RFilter.InitSlot_spec f f1 readers slot h
  refine ⟨⟨mask, by rw [hstep, Nat.mul_one]; exact hm,
    h2 slot mask (by rw [hstep, Nat.mul_one]) hm⟩, ?_⟩
  intro s hs
  exact h1 s (by rw [hstep, Nat.mul_one]; exact hs)

/-- The method `RDefine::InitSlot(slot)` resets the stamp of the entry `slot * step` that
`RDefine::Update(slot, ...)` uses, whatever the step. -/
theorem RDefine.InitSlot_entry {α β : Type} (d d1 : RDefine α β)
    (readers : RColumnReaderBase α) (slot : Nat) (h : d.InitSlot readers slot = some d1) :
    ∃ mask, d.fMask[slot * d.maskStep]? = some mask ∧
      d1.fMask[slot * d1.maskStep]? = some (mask.SetFirstEntry (-1)) := by
  unfold RDefine.InitSlot at h
  cases hm : d.fMask[slot * d.maskStep]? with
  | none => simp [hm] at h
  | some mask =>
    have hi := RDefine.lt_length_of_getElem? hm
    by_cases hs : slot < d.fValueReaders.length
    · simp only [assignAt, hs, if_true, hm, Option.bind_eq_bind, Option.some_bind,
        Option.some.injEq] at h
      subst h
      exact ⟨mask, rfl, by simp [hi]⟩
    · simp [assignAt, hs] at h

theorem distanceToFind_mem (l : List String) (x : String) (h : x ∈ l) :
    distanceToFind l x < l.length ∧ l[distanceToFind l x]? = some x ∧
      ∀ j, j < distanceToFind l x → l[j]? ≠ some x := by
  induction l with
  | nil => cases h
  | cons y rest ih =>
    by_cases hy : y = x
    · simp [distanceToFind, hy]
    · have hx : x ∈ rest := by
        rcases List.mem_cons.mp h with h1 | h1
        · exact absurd h1.symm hy
        · exact h1
      obtain ⟨i1, i2, i3⟩ := ih hx
      simp only [distanceToFind, if_neg hy, List.length_cons, List.getElem?_cons_succ]
      refine ⟨by omega, i2, ?_⟩
      intro j hj
      cases j with
      | zero =>
        simp only [List.getElem?_cons_zero, ne_eq, Option.some.injEq]
        exact hy
      | succ k =>
        simp only [List.getElem?_cons_succ]
        exact i3 k (by omega)

theorem distanceToFind_not_mem (l : List String) (x : String) (h : x ∉ l) :
    distanceToFind l x = l.length := by
  induction l with
  | nil => rfl
  | cons y rest ih =>
    have hy : y ≠ x := fun e => h (by simp [e])
    have hx : x ∉ rest := fun e => h (List.mem_cons_of_mem _ e)
    simp [distanceToFind, if_neg hy, ih hx]

namespace RVariation

variable {α γ : Type}

/-- C22: on a slot whose storage has the shape given at construction for bulks of at least one
row, `GetValuePtr(slot, column, tag)` with `column` among the column names and `tag` among the
variation names returns the address of the start of the vector found in the storage of the slot
at `[t]` (single column) or at `[c][t]` (several columns), where `c` and `t` are the positions of
the first occurrences of `column` and `tag` in their lists, and that vector has the capacity of a
bulk; with a column or a tag that is not in its list, the call fails an assertion. -/
theorem C22_get_value_ptr (v : RVariation α γ) (slot cap : Nat) (storage : VaryResults γ)
    (hst : v.fLastResults[slot * v.resultsStep]? = some storage)
    (hshape : storage.Shaped v.fColNames.length v.fVariationNames.length cap)
    (hcap : 1 ≤ cap) (column variation : String) :
    (column ∈ v.fColNames → variation ∈ v.fVariationNames →
        ∃ (address : ValueAddress) (bulk : List γ),
          distanceToFind v.fColNames column < v.fColNames.length ∧
          v.fColNames[distanceToFind v.fColNames column]? = some column ∧
          (∀ j, j < distanceToFind v.fColNames column → v.fColNames[j]? ≠ some column) ∧
          distanceToFind v.fVariationNames variation < v.fVariationNames.length ∧
          v.fVariationNames[distanceToFind v.fVariationNames variation]? = some variation ∧
          (∀ j, j < distanceToFind v.fVariationNames variation →
            v.fVariationNames[j]? ≠ some variation) ∧
          v.GetValuePtr slot column variation = ValuePtrResult.ok address ∧
          v.bulkAt address = some bulk ∧ bulk.length = cap ∧
          (∀ st, storage = VaryResults.single st →
            address = ValueAddress.single (slot * v.resultsStep)
              (distanceToFind v.fVariationNames variation)) ∧
          (∀ st, storage = VaryResults.multi st →
            address = ValueAddress.multi (slot * v.resultsStep)
              (distanceToFind v.fColNames column)
              (distanceToFind v.fVariationNames variation))) ∧
      (column ∉ v.fColNames ∨ variation ∉ v.fVariationNames →
        v.GetValuePtr slot column variation = ValuePtrResult.assertion) := by
  refine ⟨?_, ?_⟩
  · intro hc ht
    obtain ⟨c1, c2, c3⟩ := distanceToFind_mem v.fColNames column hc
    obtain ⟨t1, t2, t3⟩ := distanceToFind_mem v.fVariationNames variation ht
    have hcne : distanceToFind v.fColNames column ≠ v.fColNames.length := by omega
    have htne : distanceToFind v.fVariationNames variation ≠ v.fVariationNames.length := by
      omega
    cases storage with
    | single st =>
      obtain ⟨s1, s2⟩ := hshape
      have hlt : distanceToFind v.fVariationNames variation < st.length := by omega
      have hb : st[distanceToFind v.fVariationNames variation]?
          = some st[distanceToFind v.fVariationNames variation] := List.getElem?_eq_getElem hlt
      have hbl := s2 _ (List.getElem_mem hlt)
      have h0 : (st[distanceToFind v.fVariationNames variation])[0]?
          = some (st[distanceToFind v.fVariationNames variation])[0] :=
        List.getElem?_eq_getElem (by omega)
      have hget : v.GetValuePtr slot column variation = ValuePtrResult.ok
          (ValueAddress.single (slot * v.resultsStep)
            (distanceToFind v.fVariationNames variation)) := by
        simp only [GetValuePtr, if_neg hcne, if_neg htne, hst, GetValuePtrHelper, hb,
          Option.bind_eq_bind, Option.some_bind, h0]
      have hbulk : v.bulkAt (ValueAddress.single (slot * v.resultsStep)
          (distanceToFind v.fVariationNames variation))
          = some st[distanceToFind v.fVariationNames variation] := by
        simp only [bulkAt, hst, hb]
      exact ⟨_, _, c1, c2, c3, t1, t2, t3, hget, hbulk, hbl, fun _ _ => rfl,
        fun _ e => VaryResults.noConfusion e⟩
    | multi st =>
      obtain ⟨s1, s2⟩ := hshape
      have hlc : distanceToFind v.fColNames column < st.length := by omega
      have hcol : st[distanceToFind v.fColNames column]?
          = some st[distanceToFind v.fColNames column] := List.getElem?_eq_getElem hlc
      obtain ⟨s3, s4⟩ := s2 _ (List.getElem_mem hlc)
      have hlt : distanceToFind v.fVariationNames variation
          < (st[distanceToFind v.fColNames column]).length := by omega
      have hb := List.getElem?_eq_getElem hlt
      have hbl := s4 _ (List.getElem_mem hlt)
      have h0 := List.getElem?_eq_getElem
        (show 0 < ((st[distanceToFind v.fColNames column])[distanceToFind v.fVariationNames
          variation]).length by omega)
      have hget : v.GetValuePtr slot column variation = ValuePtrResult.ok
          (ValueAddress.multi (slot * v.resultsStep) (distanceToFind v.fColNames column)
            (distanceToFind v.fVariationNames variation)) := by
        simp only [GetValuePtr, if_neg hcne, if_neg htne, hst, GetValuePtrHelper, hcol,
          Option.bind_eq_bind, Option.some_bind, hb, h0]
      have hbulk : v.bulkAt (ValueAddress.multi (slot * v.resultsStep)
          (distanceToFind v.fColNames column) (distanceToFind v.fVariationNames variation))
          = some (st[distanceToFind v.fColNames column])[distanceToFind v.fVariationNames
              variation] := by
        simp only [bulkAt, hst, hcol, Option.some_bind, hb]
      exact ⟨_, _, c1, c2, c3, t1, t2, t3, hget, hbulk, hbl,
        fun _ e => VaryResults.noConfusion e, fun _ _ => rfl⟩
  · intro h
    by_cases hc : column ∈ v.fColNames
    · have ht : variation ∉ v.fVariationNames := by
        rcases h with h | h
        · exact absurd hc h
        · exact h
      obtain ⟨c1, _, _⟩ := distanceToFind_mem v.fColNames column hc
      have hcne : distanceToFind v.fColNames column ≠ v.fColNames.length := by omega
      simp only [GetValuePtr, if_neg hcne,
        if_pos (distanceToFind_not_mem v.fVariationNames variation ht)]
    · simp only [GetValuePtr, if_pos (distanceToFind_not_mem v.fColNames column hc)]

theorem scenarioJointVariation_shaped (cached : RMaskedEntryRange) :
    (VaryResults.multi [[[0, 0, 0, 0], [0, 0, 0, 0]], [[0, 0, 0, 0], [0, 0, 0, 0]]] :
      VaryResults Nat).Shaped (scenarioJointVariation cached).fColNames.length
        (scenarioJointVariation cached).fVariationNames.length 4 := by
  simp [VaryResults.Shaped, scenarioJointVariation]

/-- Witness for C22: the joint scenario variation, column `"z"` and tag `"xz:up"`. -/
theorem C22_get_value_ptr_witness :
    (scenarioJointVariation ⟨[false, false, false, false], -1⟩).GetValuePtr 0 "z" "xz:up"
        = ValuePtrResult.ok (ValueAddress.multi 0 1 1) ∧
      (scenarioJointVariation ⟨[false, false, false, false], -1⟩).GetValuePtr 0 "y" "xz:up"
        = ValuePtrResult.assertion := by
  have h := C22_get_value_ptr (scenarioJointVariation ⟨[false, false, false, false], -1⟩) 0 4
    _ rfl (scenarioJointVariation_shaped _) (by decide)
  refine ⟨?_, (h "y" "xz:up").2 (Or.inl (by decide))⟩
  obtain ⟨address, bulk, _, _, _, _, _, _, h7, _, _, _, h11⟩ :=
    (h "z" "xz:up").1 (by decide) (by decide)
  rw [h7, h11 _ rfl]
  rfl

/-- The scenario variations: addresses for a single column and for two columns, and the
assertion on a tag that is not declared. -/
theorem scenario_get_value_ptr :
    (scenarioVariation ⟨[false, false, false, false], -1⟩).GetValuePtr 0 "x" "x:up"
        = ValuePtrResult.ok (ValueAddress.single 0 1) ∧
      (scenarioVariation ⟨[false, false, false, false], -1⟩).GetValuePtr 0 "x" "x:left"
        = ValuePtrResult.assertion ∧
      (scenarioJointVariation ⟨[false, false, false, false], -1⟩).GetValuePtr 0 "x" "xz:down"
        = ValuePtrResult.ok (ValueAddress.multi 0 0 0) := by
  refine ⟨by decide, by decide, by decide⟩

end RVariation

namespace RVariation

variable {α γ : Type}

theorem value2_set (st : List (List γ)) (i : Nat) (bulk : List γ) (hi : i < st.length)
    (t j : Nat) :
    VaryResults.value2 (st.set i bulk) t j
      = if t = i then bulk[j]? else VaryResults.value2 st t j := by
  unfold VaryResults.value2
  by_cases h : t = i
  · subst h
    simp [hi]
  · have hne : i ≠ t := fun e => h e.symm
    simp [List.getElem?_set_ne hne, h]

theorem value3_set (st : List (List (List γ))) (c : Nat) (column : List (List γ))
    (hc : c < st.length) (c1 t j : Nat) :
    VaryResults.value3 (st.set c column) c1 t j
      = if c1 = c then VaryResults.value2 column t j else VaryResults.value3 st c1 t j := by
  unfold VaryResults.value3
  by_cases h : c1 = c
  · subst h
    simp [hc]
  · have hne : c ≠ c1 := fun e => h e.symm
    simp [List.getElem?_set_ne hne, h]

/-- The values after the loop over the variations of `AssignResults`. -/
theorem assignLoop_value (value : Nat → Option γ) (bulkIdx : Nat) :
    ∀ (k i : Nat) (storage st1 : List (List γ)),
      assignLoop value bulkIdx i k storage = some st1 →
      ∀ t j, VaryResults.value2 st1 t j
        = if i ≤ t ∧ t < i + k ∧ j = bulkIdx then value t else VaryResults.value2 storage t j := by
  intro k
  induction k with
  | zero =>
    intro i storage st1 h t j
    simp only [assignLoop, Option.some.injEq] at h
    subst h
    rw [if_neg (by omega)]
  | succ k ih =>
    intro i storage st1 h t j
    rw [assignLoop] at h
    cases hx : value i with
    | none => simp [hx] at h
    | some x =>
      cases hb : storage[i]? with
      | none => simp [hx, hb] at h
      | some bulk =>
        have hi := RDefine.lt_length_of_getElem? hb
        by_cases hbi : bulkIdx < bulk.length
        · simp only [hx, hb, Option.bind_eq_bind, Option.some_bind, assignAt, hbi, if_true,
            hi] at h
          rw [ih (i + 1) _ st1 h t j, value2_set _ _ _ hi]
          by_cases hti : t = i
          · subst hti
            rw [if_neg (by omega), if_pos rfl]
            by_cases hj : j = bulkIdx
            · subst hj
              rw [if_pos ⟨le_refl _, by omega, rfl⟩, hx]
              simp [hbi]
            · rw [if_neg (fun hc => hj hc.2.2)]
              have hne : bulkIdx ≠ j := fun e => hj e.symm
              simp [VaryResults.value2, hb, List.getElem?_set_ne hne]
          · rw [if_neg hti]
            by_cases hc : i ≤ t ∧ t < i + (k + 1) ∧ j = bulkIdx
            · rw [if_pos hc, if_pos ⟨by omega, by omega, hc.2.2⟩]
            · rw [if_neg hc, if_neg]
              rintro ⟨h1, h2, h3⟩
              exact hc ⟨by omega, by omega, h3⟩
        · simp [hx, hb, assignAt, hbi] at h

/-- The values after the loop over the columns of `AssignResults`. -/
theorem assignColumnsLoop_value (tmp : List (List γ)) (bulkIdx nTags : Nat) :
    ∀ (k c : Nat) (storage st1 : List (List (List γ))),
      assignColumnsLoop tmp bulkIdx nTags c k storage = some st1 →
      ∀ c1 t j, VaryResults.value3 st1 c1 t j
        = if c ≤ c1 ∧ c1 < c + k ∧ t < nTags ∧ j = bulkIdx
          then (tmp[c1]?).bind (fun r => r[t]?) else VaryResults.value3 storage c1 t j := by
  intro k
  induction k with
  | zero =>
    intro c storage st1 h c1 t j
    simp only [assignColumnsLoop, Option.some.injEq] at h
    subst h
    rw [if_neg (by omega)]
  | succ k ih =>
    intro c storage st1 h c1 t j
    rw [assignColumnsLoop] at h
    cases hcol : storage[c]? with
    | none => simp [hcol] at h
    | some column =>
      have hc := RDefine.lt_length_of_getElem? hcol
      cases ha : assignLoop (fun i => (tmp[c]?).bind (fun t => t[i]?)) bulkIdx 0 nTags column with
      | none => simp [hcol, ha] at h
      | some column1 =>
        simp only [hcol, ha, Option.bind_eq_bind, Option.some_bind, assignAt, hc, if_true] at h
        rw [ih (c + 1) _ st1 h c1 t j, value3_set _ _ _ hc]
        by_cases hcc : c1 = c
        · subst hcc
          rw [if_neg (by omega), if_pos rfl]
          rw [assignLoop_value _ bulkIdx nTags 0 column column1 ha t j]
          by_cases hcond : t < nTags ∧ j = bulkIdx
          · rw [if_pos ⟨Nat.zero_le _, by omega, hcond.2⟩,
              if_pos ⟨le_refl _, by omega, hcond.1, hcond.2⟩]
          · rw [if_neg (fun hx => hcond ⟨by omega, hx.2.2⟩),
              if_neg (fun hx => hcond ⟨hx.2.2.1, hx.2.2.2⟩)]
            simp [VaryResults.value3, hcol]
        · rw [if_neg hcc]
          by_cases hx : c ≤ c1 ∧ c1 < c + (k + 1) ∧ t < nTags ∧ j = bulkIdx
          · rw [if_pos hx, if_pos ⟨by omega, by omega, hx.2.2.1, hx.2.2.2⟩]
          · rw [if_neg hx, if_neg]
            rintro ⟨h1, h2, h3, h4⟩
            exact hx ⟨by omega, by omega, h3, h4⟩

end RVariation

namespace RVariation

variable {α γ : Type}

/-- The storage of the slot after `UpdateHelper(slot, idx)`: the values returned by the
expression in row `idx`, the other rows as they were. -/
theorem UpdateHelper_value (v v1 : RVariation α γ) (slot idx nCols nTags cap : Nat)
    (ptrs : Nat → α) (st : VaryResults γ) (h : v.UpdateHelper slot idx = some v1)
    (hp : v.fValuePtrs[slot]? = some ptrs)
    (hst : v.fLastResults[slot * v.resultsStep]? = some st)
    (hfit : Fits v.fExpression st nCols nTags cap) :
    ∃ st1, v1.fLastResults[slot * v.resultsStep]? = some st1 ∧
      ∀ c t j, c < nCols → t < nTags → st1.value c t j
        = if j = idx then v.fExpression.returned (ptrs idx) c t else st.value c t j := by
  have hi := RDefine.lt_length_of_getElem? hst
  rw [UpdateHelper] at h
  simp only [hp, hst, Option.bind_eq_bind, Option.some_bind] at h
  cases hE : v.fExpression with
  | single f =>
    cases st with
    | multi s => simp [Fits, hE] at hfit
    | single s =>
      simp only [Fits, hE] at hfit
      obtain ⟨h1, _, _⟩ := hfit
      simp only [hE] at h
      cases ha : AssignResultsSingle s (f (ptrs idx)) idx with
      | none => simp [ha] at h
      | some s1 =>
        simp only [ha, Option.some_bind, Option.some.injEq] at h
        subst h
        refine ⟨VaryResults.single s1, by simp [hi], ?_⟩
        intro c t j _ ht
        have hv := assignLoop_value _ idx s.length 0 s s1 ha t j
        show VaryResults.value2 s1 t j = _
        rw [hv]
        by_cases hj : j = idx
        · rw [if_pos ⟨Nat.zero_le _, by omega, hj⟩, if_pos hj]
          rfl
        · rw [if_neg (fun hx => hj hx.2.2), if_neg hj]
          rfl
  | multi f =>
    cases st with
    | single s => simp [Fits, hE] at hfit
    | multi s =>
      simp only [Fits, hE] at hfit
      obtain ⟨h1, h2, h3, _⟩ := hfit
      have h0 : 0 < s.length := by omega
      have hfirst : s[0]? = some s[0] := List.getElem?_eq_getElem h0
      have hfl : s[0].length = nTags := (h3 _ (List.getElem_mem h0)).1
      simp only [hE] at h
      cases ha : AssignResultsMulti s (f (ptrs idx)) idx with
      | none => simp [ha] at h
      | some s1 =>
        simp only [ha, Option.some_bind, Option.some.injEq] at h
        subst h
        refine ⟨VaryResults.multi s1, by simp [hi], ?_⟩
        intro c t j hc ht
        simp only [AssignResultsMulti, hfirst, Option.bind_eq_bind, Option.some_bind, hfl] at ha
        have hv := assignColumnsLoop_value _ idx nTags s.length 0 s s1 ha c t j
        show VaryResults.value3 s1 c t j = _
        rw [hv]
        by_cases hj : j = idx
        · rw [if_pos ⟨Nat.zero_le _, by omega, ht, hj⟩, if_pos hj]
          rfl
        · rw [if_neg (fun hx => hj hx.2.2.2), if_neg hj]
          rfl

/-- The storage of the slot after the loop of `Update`: every row on which the expression was
invoked holds the values it returned, the other rows are as they were. -/
theorem updateLoop_value (slot nCols nTags cap : Nat) (req : RMaskedEntryRange) :
    ∀ (k i : Nat) (v : RVariation α γ) (vm : RMaskedEntryRange) (ptrs : Nat → α)
      (st : VaryResults γ),
      StorageReady v slot nCols nTags cap → i + k ≤ cap → i + k ≤ req.fMask.length →
      i + k ≤ vm.fMask.length → v.fValuePtrs[slot]? = some ptrs →
      v.fLastResults[slot * v.resultsStep]? = some st →
      ∃ v1 vm1 calls st1, updateLoop slot req i k v vm = some (v1, vm1, calls) ∧
        v1.fLastResults[slot * v.resultsStep]? = some st1 ∧
        ∀ c t j, c < nCols → t < nTags → st1.value c t j
          = if i ≤ j ∧ j < i + k ∧ req.bit j = true ∧ vm.bit j = false
            then v.fExpression.returned (ptrs j) c t else st.value c t j := by
  intro k
  induction k with
  | zero =>
    intro i v vm ptrs st _ _ _ _ _ hst
    refine ⟨v, vm, [], st, by simp [updateLoop], hst, ?_⟩
    intro c t j _ _
    rw [if_neg (by omega)]
  | succ k ih =>
    intro i v vm ptrs st hready hcap hreq hvm hptrs hst
    have hi : i < req.fMask.length := by omega
    have hi3 : i < vm.fMask.length := by omega
    have hget : req.fMask[i]? = some req.fMask[i] := List.getElem?_eq_getElem hi
    have hD : req.bit i = req.fMask[i] := RDefine.bit_of_getElem? hget
    have hgetv : vm.fMask[i]? = some vm.fMask[i] := List.getElem?_eq_getElem hi3
    have hDv : vm.bit i = vm.fMask[i] := RDefine.bit_of_getElem? hgetv
    by_cases hcond : req.fMask[i] = true ∧ vm.fMask[i] = false
    · obtain ⟨hb, hbv⟩ := hcond
      rw [hb] at hget hD
      rw [hbv] at hgetv hDv
      obtain ⟨vm0, hs0, hs1, hs2, hs3⟩ := RDefine.bit_set_true vm i hi3
      obtain ⟨v0, u1, u2, u3⟩ := UpdateHelper_ok v slot i nCols nTags cap hready (by omega)
      obtain ⟨a1, a2, a3, a4, a5, a6, a7⟩ := u2
      have hfit : Fits v.fExpression st nCols nTags cap := by
        obtain ⟨_, st0, hst0, hf⟩ := hready
        rw [hst] at hst0
        cases hst0
        exact hf
      obtain ⟨st0, w1, w2⟩ := UpdateHelper_value v v0 slot i nCols nTags cap ptrs st u1 hptrs
        hst hfit
      obtain ⟨v1, vm1, calls, st1, h1, h2, h3⟩ := ih (i + 1) v0 vm0 ptrs st0 u3 (by omega)
        (by omega) (by omega) (by rw [a3]; exact hptrs) (by rw [a6]; exact w1)
      refine ⟨v1, vm1, ExprCall.row i :: calls, st1, ?_, by rw [← a6]; exact h2, ?_⟩
      · simp [updateLoop, RMaskedEntryRange.get, hget, hgetv, u1, hs0, h1]
      · intro c t j hc ht
        rw [h3 c t j hc ht, w2 c t j hc ht, a1]
        by_cases hj : j = i
        · subst hj
          rw [if_neg (by omega), if_pos rfl, if_pos ⟨le_refl _, by omega, hD, hDv⟩]
        · rw [if_neg hj, hs3 j, if_neg hj]
          by_cases hx : i ≤ j ∧ j < i + (k + 1) ∧ req.bit j = true ∧ vm.bit j = false
          · rw [if_pos hx, if_pos ⟨by omega, by omega, hx.2.2.1, hx.2.2.2⟩]
          · rw [if_neg hx, if_neg]
            rintro ⟨h1, h2, h3, h4⟩
            exact hx ⟨by omega, by omega, h3, h4⟩
    · obtain ⟨v1, vm1, calls, st1, h1, h2, h3⟩ := ih (i + 1) v vm ptrs st hready (by omega)
        (by omega) (by omega) hptrs hst
      refine ⟨v1, vm1, calls, st1, ?_, h2, ?_⟩
      · cases hb : req.fMask[i] <;> cases hbv : vm.fMask[i] <;> simp [hb, hbv] at hcond <;>
          simp [updateLoop, RMaskedEntryRange.get, hget, hgetv, hb, hbv, h1]
      · intro c t j hc ht
        rw [h3 c t j hc ht]
        by_cases hj : j = i
        · subst hj
          rw [if_neg (by omega), if_neg]
          rintro ⟨_, _, h3, h4⟩
          rw [hD] at h3
          rw [hDv] at h4
          exact hcond ⟨h3, h4⟩
        · by_cases hx : i ≤ j ∧ j < i + (k + 1) ∧ req.bit j = true ∧ vm.bit j = false
          · rw [if_pos hx, if_pos ⟨by omega, by omega, hx.2.2.1, hx.2.2.2⟩]
          · rw [if_neg hx, if_neg]
            rintro ⟨h1, h2, h3, h4⟩
            exact hx ⟨by omega, by omega, h3, h4⟩

end RVariation

namespace RVariation

variable {α γ : Type}

theorem loadAndLoop_value (v : RVariation α γ) (slot nCols nTags cap : Nat)
    (req vm : RMaskedEntryRange) (n g : Nat) (st : VaryResults γ)
    (reader : RColumnReaderBase α)
    (hm : v.fMask[slot * v.maskStep]? = some vm) (hvl : vm.fMask.length = cap)
    (hready : StorageReady v slot nCols nTags cap)
    (hst : v.fLastResults[slot * v.resultsStep]? = some st)
    (hrd : v.fValueReaders[slot]? = some reader)
    (hn : n ≤ cap) (hreq : n ≤ req.fMask.length) (hg : g ≤ n) :
    ∃ v1 calls st1, v.loadAndLoop slot req n g = some (v1, calls) ∧
      v1.fLastResults[slot * v.resultsStep]? = some st1 ∧
      ∀ c t j, c < nCols → t < nTags → st1.value c t j
        = if g ≤ j ∧ j < n ∧ req.bit j = true ∧ vm.bit j = false
          then v.fExpression.returned (reader.Load req n j) c t else st.value c t j := by
  obtain ⟨hp, st0, hs1, hs2⟩ := hready
  have hready0 : StorageReady
      { v with fValuePtrs := v.fValuePtrs.set slot (reader.Load req n) }
      slot nCols nTags cap := ⟨by simpa using hp, st0, hs1, hs2⟩
  obtain ⟨v1, vm1, calls, st1, h1, h2, h3⟩ := updateLoop_value slot nCols nTags cap req
    (n - g) g { v with fValuePtrs := v.fValuePtrs.set slot (reader.Load req n) } vm
    (reader.Load req n) st hready0 (by omega) (by omega) (by omega) (by simp [hp]) hst
  refine ⟨{ v1 with fMask := v1.fMask.set (slot * v1.maskStep) vm1 }, calls, st1, ?_, h2, ?_⟩
  · simp only [loadAndLoop, hrd, Option.bind_eq_bind, Option.some_bind, assignAt, hp,
      if_true, hm, h1]
  · intro c t j hc ht
    rw [h3 c t j hc ht]
    have : (g ≤ j ∧ j < g + (n - g) ∧ req.bit j = true ∧ vm.bit j = false)
        ↔ (g ≤ j ∧ j < n ∧ req.bit j = true ∧ vm.bit j = false) := by
      constructor
      · rintro ⟨a, b, c, d⟩
        exact ⟨a, by omega, c, d⟩
      · rintro ⟨a, b, c, d⟩
        exact ⟨a, by omega, c, d⟩
    simp only [this]

/-- What `Update` does to the slot: it succeeds; the cached mask has the requested stamp and,
below `bulkSize`, the requested bits joined to the bits cached under that stamp; the storage
keeps its shape; every row below `bulkSize` that is requested and was not cached under the
requested stamp holds the values that the expression returns on the row's input values, and
every other element of the storage is as it was. -/
theorem Update_storage (v : RVariation α γ) (slot nCols nTags cap : Nat)
    (req vm : RMaskedEntryRange) (n : Nat) (st : VaryResults γ) (reader : RColumnReaderBase α)
    (hready : SlotReady v slot nCols nTags cap)
    (hm : v.fMask[slot * v.maskStep]? = some vm)
    (hst : v.fLastResults[slot * v.resultsStep]? = some st)
    (hrd : v.fValueReaders[slot]? = some reader)
    (hreq : n ≤ req.fMask.length) (hn : n ≤ cap) (hmax : n ≤ sizeMax) :
    ∃ v1 calls vm1 st1, v.Update slot req n = some (v1, calls) ∧
      v1.fMask[slot * v1.maskStep]? = some vm1 ∧ vm1.FirstEntry = req.FirstEntry ∧
      (∀ i, i < n → vm1.bit i
        = (req.bit i || (decide (vm.FirstEntry = req.FirstEntry) && vm.bit i))) ∧
      v1.fLastResults[slot * v1.resultsStep]? = some st1 ∧
      Fits v1.fExpression st1 nCols nTags cap ∧ v1.fExpression = v.fExpression ∧
      ∀ c t j, c < nCols → t < nTags → st1.value c t j
        = if j < n ∧ req.bit j = true ∧
              (decide (vm.FirstEntry = req.FirstEntry) && vm.bit j) = false
          then v.fExpression.returned (reader.Load req n j) c t else st.value c t j := by
  obtain ⟨⟨vm0, hm0, hvl⟩, hstr, hrdl, hp⟩ := hready
  rw [hm] at hm0
  cases hm0
  have hi1 := RDefine.lt_length_of_getElem? hm
  have hfit : Fits v.fExpression st nCols nTags cap := by
    obtain ⟨st0, hst0, hf⟩ := hstr
    rw [hst] at hst0
    cases hst0
    exact hf
  by_cases hne : vm.fBegin = req.fBegin
  · have hdec : decide (vm.FirstEntry = req.FirstEntry) = true := by
      simp [RMaskedEntryRange.FirstEntry, hne]
    simp only [hdec, Bool.true_and]
    rcases RDefine.Contains_spec vm req n with ⟨g1, g2, g3, g4⟩ | ⟨g1, g2⟩
    · have hC : vm.Contains req n ≠ sizeMax := by omega
      obtain ⟨v1, vm1, e1, e2, ⟨v0, x1, _, x3, _, _, _, x7, _⟩, e4, e5, e6, e7⟩ :=
        loadAndLoop_spec v slot nCols nTags cap req vm n (vm.Contains req n) hm hvl ⟨hp, hstr⟩
          hrdl hn hreq (by omega)
      obtain ⟨v2, calls2, st1, f1, f2, f3⟩ := loadAndLoop_value v slot nCols nTags cap req vm n
        (vm.Contains req n) st reader hm hvl ⟨hp, hstr⟩ hst hrd hn hreq (by omega)
      rw [e1] at f1
      simp only [Option.some.injEq, Prod.mk.injEq] at f1
      obtain ⟨f1a, _⟩ := f1
      subst f1a
      have hE : v1.fExpression = v.fExpression := x1.1.trans x3
      have hR : v1.resultsStep = v.resultsStep := x1.2.2.2.2.2.1.trans x7
      have hU : v.Update slot req n
          = some (v1, RDefine.rowCalls (fun j => req.bit j && !vm.bit j) (vm.Contains req n)
              (n - vm.Contains req n)) := by
        unfold Update
        simp only [hm, Option.bind_eq_bind, Option.some_bind, RMaskedEntryRange.FirstEntry,
          ne_eq, hne, not_true_eq_false, if_false, hC]
        exact e1
      have hbits : ∀ i, i < n → vm1.bit i = (req.bit i || vm.bit i) := by
        intro i hi
        rw [e7 i]
        by_cases hig : vm.Contains req n ≤ i
        · rw [decide_eq_true ⟨hig, hi⟩]
          cases vm.bit i <;> cases req.bit i <;> rfl
        · rw [decide_eq_false (fun h => hig h.1)]
          have := g4 i (by omega)
          cases hx : vm.bit i <;> cases hy : req.bit i <;> simp [hx, hy] at this ⊢
      have hstamp : vm1.FirstEntry = req.FirstEntry := by
        simp only [RMaskedEntryRange.FirstEntry]
        rw [e5, hne]
      have hfit1 : Fits v1.fExpression st1 nCols nTags cap := by
        obtain ⟨_, st2, hst2, hf⟩ := e4
        rw [hR, f2] at hst2
        cases hst2
        exact hf
      refine ⟨v1, _, vm1, st1, hU, e2, hstamp, hbits, by rw [hR]; exact f2, hfit1, hE, ?_⟩
      intro c t j hc ht
      rw [f3 c t j hc ht]
      by_cases hx : j < n ∧ req.bit j = true ∧ vm.bit j = false
      · have hig : vm.Contains req n ≤ j := by
          by_contra hlt
          exact g4 j (by omega) ⟨hx.2.1, hx.2.2⟩
        rw [if_pos hx, if_pos ⟨hig, hx.1, hx.2.1, hx.2.2⟩]
      · rw [if_neg hx, if_neg]
        rintro ⟨_, h2, h3, h4⟩
        exact hx ⟨h2, h3, h4⟩
    · have hU := Update_fully_covered v slot req vm n hm hne g1
      have hcov : ∀ i, i < n → req.bit i = true → vm.bit i = true := by
        intro i hi hr
        have := g2 i hi
        cases hx : vm.bit i
        · exact absurd ⟨hr, hx⟩ this
        · rfl
      refine ⟨v, [], vm, st, hU, hm, hne, ?_, hst, hfit, rfl, ?_⟩
      · intro i hi
        cases hy : req.bit i
        · rfl
        · rw [hcov i hi hy]
          rfl
      · intro c t j _ _
        rw [if_neg]
        rintro ⟨h1, h2, h3⟩
        have := hcov j h1 h2
        rw [h3] at this
        cases this
  · have hdec : decide (vm.FirstEntry = req.FirstEntry) = false := by
      simp [RMaskedEntryRange.FirstEntry, hne]
    simp only [hdec, Bool.false_and, Bool.or_false, and_true]
    have hm2 : (v.fMask.set (slot * v.maskStep)
        ((vm.SetAll false).SetFirstEntry req.FirstEntry))[slot * v.maskStep]?
        = some ((vm.SetAll false).SetFirstEntry req.FirstEntry) := by simp [hi1]
    have hvl2 : ((vm.SetAll false).SetFirstEntry req.FirstEntry).fMask.length = cap := by
      simp [RMaskedEntryRange.SetAll, RMaskedEntryRange.SetFirstEntry, hvl]
    obtain ⟨v1, vm1, e1, e2, ⟨v0, x1, _, x3, _, _, _, x7, _⟩, e4, e5, e6, e7⟩ :=
      loadAndLoop_spec
        { v with
          fMask := v.fMask.set (slot * v.maskStep)
                     ((vm.SetAll false).SetFirstEntry req.FirstEntry) }
        slot nCols nTags cap req ((vm.SetAll false).SetFirstEntry req.FirstEntry) n 0
        hm2 hvl2 ⟨hp, hstr⟩ hrdl hn hreq (Nat.zero_le _)
    obtain ⟨v2, calls2, st1, f1, f2, f3⟩ := loadAndLoop_value
      { v with
        fMask := v.fMask.set (slot * v.maskStep)
                   ((vm.SetAll false).SetFirstEntry req.FirstEntry) }
      slot nCols nTags cap req ((vm.SetAll false).SetFirstEntry req.FirstEntry) n 0 st reader
      hm2 hvl2 ⟨hp, hstr⟩ hst hrd hn hreq (Nat.zero_le _)
    rw [e1] at f1
    simp only [Option.some.injEq, Prod.mk.injEq] at f1
    obtain ⟨f1a, _⟩ := f1
    subst f1a
    have hE : v1.fExpression = v.fExpression := x1.1.trans x3
    have hR : v1.resultsStep = v.resultsStep := x1.2.2.2.2.2.1.trans x7
    have hU : ∃ calls, v.Update slot req n = some (v1, calls) := by
      refine ⟨RDefine.rowCalls
        (fun j => req.bit j && !((vm.SetAll false).SetFirstEntry req.FirstEntry).bit j) 0
        (n - 0), ?_⟩
      unfold Update
      simp only [hm, Option.bind_eq_bind, Option.some_bind, RMaskedEntryRange.FirstEntry,
        ne_eq, hne, not_false_eq_true, if_true]
      exact e1
    obtain ⟨calls, hU⟩ := hU
    have hbits : ∀ i, i < n → vm1.bit i = req.bit i := by
      intro i hi
      rw [e7 i, bit_SetAll_false, decide_eq_true ⟨Nat.zero_le _, hi⟩]
      simp
    have hstamp : vm1.FirstEntry = req.FirstEntry := by
      simp only [RMaskedEntryRange.FirstEntry]
      rw [e5]
      rfl
    have hfit1 : Fits v1.fExpression st1 nCols nTags cap := by
      obtain ⟨_, st2, hst2, hf⟩ := e4
      rw [hR] at hst2
      have f2b : v1.fLastResults[slot * v.resultsStep]? = some st1 := f2
      rw [f2b] at hst2
      cases hst2
      exact hf
    refine ⟨v1, calls, vm1, st1, hU, e2, hstamp, hbits, by rw [hR]; exact f2, hfit1, hE, ?_⟩
    intro c t j hc ht
    have f3b := f3 c t j hc ht
    simp only [bit_SetAll_false, and_true] at f3b
    rw [f3b]
    by_cases hx : j < n ∧ req.bit j = true
    · rw [if_pos hx, if_pos ⟨Nat.zero_le _, hx.1, hx.2⟩]
    · rw [if_neg hx, if_neg]
      rintro ⟨_, h2, h3⟩
      exact hx ⟨h2, h3⟩

end RVariation

namespace RVariation

variable {α γ : Type}

theorem Fits_shaped (e : VaryExpression α γ) (st : VaryResults γ) (nCols nTags cap : Nat)
    (h : Fits e st nCols nTags cap) : st.Shaped nCols nTags cap := by
  cases e with
  | single f =>
    cases st with
    | single s => exact ⟨h.1, h.2.1⟩
    | multi s => exact absurd h (by simp [Fits])
  | multi f =>
    cases st with
    | single s => exact absurd h (by simp [Fits])
    | multi s => exact ⟨h.1, h.2.2.1⟩

/-- After construction the storage of every slot has the shape `[tags][maxBulk]` for a single
column and `[columns][tags][maxBulk]` for several columns. -/
theorem construct_shaped (blank : Blank α γ) (colNames variationNames : List String)
    (expression : VaryExpression α γ) (type : String) (lm : RLoopManager)
    (inputColNames : List String) (maskStep resultsStep : Nat) (slot : Nat)
    (hslot : slot < lm.fNSlots) (hs : 1 ≤ resultsStep) :
    ∃ st, (construct blank colNames variationNames expression type lm inputColNames maskStep
        resultsStep).fLastResults[slot * resultsStep]? = some st ∧
      st.Shaped colNames.length variationNames.length lm.fMaxEventsPerBulk := by
  have h2 : slot * resultsStep < lm.fNSlots * resultsStep :=
    Nat.mul_lt_mul_of_pos_right hslot hs
  refine ⟨_, by simp only [construct, List.getElem?_replicate, h2, if_true]; rfl, ?_⟩
  cases expression with
  | single f =>
    simp only [ResizeResults, VaryResults.Shaped, List.length_replicate, true_and]
    intro bulk hb
    rw [List.eq_of_mem_replicate hb, List.length_replicate]
  | multi f =>
    simp only [ResizeResults, VaryResults.Shaped, List.length_replicate, true_and]
    intro column hc
    rw [List.eq_of_mem_replicate hc, List.length_replicate]
    refine ⟨rfl, ?_⟩
    intro bulk hb
    rw [List.eq_of_mem_replicate hb, List.length_replicate]

/-- C21: the storage of a slot has the shape `[tags][maxBulk]` or `[columns][tags][maxBulk]`
after construction; and on a slot laid out with that shape, for an expression that returns a
value for every tag (every column and tag), `Update` succeeds and keeps the shape, every row
below `bulkSize` that is requested and not cached under the requested stamp holds, for every
column `c` and tag `t`, the value the expression returned at `[t]` (at `[c][t]`) on the input
values of the row, and every other row holds the value it held before. -/
theorem C21_results_assigned (v : RVariation α γ) (slot cap : Nat)
    (req vm : RMaskedEntryRange) (n : Nat) (st : VaryResults γ) (reader : RColumnReaderBase α)
    (hready : SlotReady v slot v.fColNames.length v.fVariationNames.length cap)
    (hm : v.fMask[slot * v.maskStep]? = some vm)
    (hst : v.fLastResults[slot * v.resultsStep]? = some st)
    (hrd : v.fValueReaders[slot]? = some reader)
    (hreq : n ≤ req.fMask.length) (hn : n ≤ cap) (hmax : n ≤ sizeMax) :
    (∀ (blank : Blank α γ) (colNames variationNames : List String)
        (expression : VaryExpression α γ) (type : String) (lm : RLoopManager)
        (inputColNames : List String) (maskStep resultsStep : Nat) (s : Nat),
        s < lm.fNSlots → 1 ≤ resultsStep →
        ∃ st0, (construct blank colNames variationNames expression type lm inputColNames
            maskStep resultsStep).fLastResults[s * resultsStep]? = some st0 ∧
          st0.Shaped colNames.length variationNames.length lm.fMaxEventsPerBulk) ∧
      ∃ (v1 : RVariation α γ) (calls : List ExprCall) (st1 : VaryResults γ),
        v.Update slot req n = some (v1, calls) ∧
        v1.fLastResults[slot * v1.resultsStep]? = some st1 ∧
        st1.Shaped v.fColNames.length v.fVariationNames.length cap ∧
        ∀ c t j, c < v.fColNames.length → t < v.fVariationNames.length →
          st1.value c t j
            = if j < n ∧ req.bit j = true ∧
                  (decide (vm.FirstEntry = req.FirstEntry) && vm.bit j) = false
              then v.fExpression.returned (reader.Load req n j) c t else st.value c t j := by
  refine ⟨?_, ?_⟩
  · intro blank colNames variationNames expression type lm inputColNames maskStep resultsStep s
      hs h1
    exact construct_shaped blank colNames variationNames expression type lm inputColNames
      maskStep resultsStep s hs h1
  · obtain ⟨v1, calls, vm1, st1, h1, _, _, _, h5, h6, _, h8⟩ := Update_storage v slot
      v.fColNames.length v.fVariationNames.length cap req vm n st reader hready hm hst hrd hreq
      hn hmax
    exact ⟨v1, calls, st1, h1, h5, Fits_shaped _ _ _ _ _ h6, h8⟩

theorem scenarioJointVariation_ready (cached : RMaskedEntryRange)
    (h : cached.fMask.length = 4) :
    SlotReady (scenarioJointVariation cached) 0 (scenarioJointVariation cached).fColNames.length
      (scenarioJointVariation cached).fVariationNames.length 4 := by
  refine ⟨⟨cached, rfl, h⟩, ⟨_, rfl, ?_⟩, Nat.zero_lt_one, Nat.zero_lt_one⟩
  simp only [Fits, scenarioJointVariation]
  refine ⟨rfl, by decide, ?_, ?_⟩
  · intro column hc
    simp only [List.mem_cons, List.mem_singleton, List.not_mem_nil, or_false] at hc
    rcases hc with rfl | rfl
    · refine ⟨rfl, ?_⟩
      intro bulk hb
      simp only [List.mem_cons, List.mem_singleton, List.not_mem_nil, or_false] at hb
      rcases hb with rfl | rfl <;> rfl
    · refine ⟨rfl, ?_⟩
      intro bulk hb
      simp only [List.mem_cons, List.mem_singleton, List.not_mem_nil, or_false] at hb
      rcases hb with rfl | rfl <;> rfl
  · intro x c hc
    match c, hc with
    | 0, _ => exact ⟨_, rfl, le_refl _⟩
    | 1, _ => exact ⟨_, rfl, le_refl _⟩

/-- Witness for C21: the joint scenario variation has row 0 of the bulk stamped `0` cached and
receives the request `[T, T, F, F]`: row 1, whose input is `x = 2`, is computed, and column
`"z"`, tag `"xz:up"` holds `20 * 2` there, while rows 0 and 2 keep their value. -/
theorem C21_results_assigned_witness :
    ∃ (v1 : RVariation Nat Nat) (calls : List ExprCall) (st1 : VaryResults Nat),
      (scenarioJointVariation ⟨[true, false, false, false], 0⟩).Update 0
          ⟨[true, true, false, false], 0⟩ 4 = some (v1, calls) ∧
        v1.fLastResults[0 * v1.resultsStep]? = some st1 ∧
        st1.Shaped 2 2 4 ∧
        st1.value 1 1 1 = some 40 ∧ st1.value 1 1 0 = some 0 ∧ st1.value 1 1 2 = some 0 := by
  obtain ⟨_, v1, calls, st1, h1, h2, h3, h4⟩ := C21_results_assigned
    (scenarioJointVariation ⟨[true, false, false, false], 0⟩) 0 4
    ⟨[true, true, false, false], 0⟩ ⟨[true, false, false, false], 0⟩ 4 _ scenarioReader
    (scenarioJointVariation_ready _ rfl) rfl rfl rfl (by decide) (by decide) (by decide)
  refine ⟨v1, calls, st1, h1, h2, h3, ?_, ?_, ?_⟩
  · rw [h4 1 1 1 (by decide) (by decide)]
    decide
  · rw [h4 1 1 0 (by decide) (by decide)]
    decide
  · rw [h4 1 1 2 (by decide) (by decide)]
    decide

end RVariation

namespace RVariation

variable {α γ : Type}

/-- A value that the expression did not return makes the loop of `AssignResults` fail at the
read of the returned vector. -/
theorem assignLoop_none (value : Nat → Option γ) (bulkIdx : Nat) :
    ∀ (k i : Nat) (storage : List (List γ)),
      (∃ j, i ≤ j ∧ j < i + k ∧ value j = none) →
      assignLoop value bulkIdx i k storage = none := by
  intro k
  induction k with
  | zero =>
    rintro i storage ⟨j, h1, h2, _⟩
    omega
  | succ k ih =>
    rintro i storage ⟨j, h1, h2, h3⟩
    rw [assignLoop]
    cases hx : value i with
    | none => rfl
    | some x =>
      have hji : j ≠ i := by
        intro e
        rw [e, hx] at h3
        cases h3
      have hrec : ∀ s, assignLoop value bulkIdx (i + 1) k s = none := fun s =>
        ih (i + 1) s ⟨j, by omega, by omega, h3⟩
      cases hb : storage[i]? with
      | none => rfl
      | some bulk =>
        simp only [Option.bind_eq_bind, Option.some_bind]
        cases ha : assignAt bulk bulkIdx x with
        | none => rfl
        | some bulk1 =>
          simp only [Option.some_bind]
          cases hs : assignAt storage i bulk1 with
          | none => rfl
          | some s1 => exact hrec s1

theorem AssignResultsSingle_none_iff (st : List (List γ)) (tmp : List γ) (idx cap : Nat)
    (hshape : ∀ bulk, bulk ∈ st → bulk.length = cap) (hidx : idx < cap) :
    AssignResultsSingle st tmp idx = none ↔ tmp.length < st.length := by
  constructor
  · intro h
    by_contra hc
    obtain ⟨s1, e1, _⟩ := assignLoop_ok (fun i => tmp[i]?) idx cap hidx st.length 0 st
      (fun j _ hj => ⟨tmp[j], List.getElem?_eq_getElem (by omega)⟩) (by omega) hshape
    rw [AssignResultsSingle, e1] at h
    cases h
  · intro h
    exact assignLoop_none _ idx st.length 0 st
      ⟨tmp.length, Nat.zero_le _, by omega, List.getElem?_eq_none (le_refl _)⟩

/-- C23: in single-column mode, on a slot laid out for `nTags` tags and bulks of capacity `cap`,
`Update` does not check the number of values the expression returns.  When the expression
returns more than `nTags` values, `Update` succeeds, the storage keeps its `nTags` vectors, and
every row it computes is marked cached and holds at `[t]`, for each `t` below `nTags`, the
`t`-th value returned for the row: the values from `nTags` on are dropped.  With fewer values
than `nTags`, the assignment of the results fails exactly at the read of the returned vector out
of its range: `AssignResults`, and with it `UpdateHelper`, fails if and only if the returned
vector is shorter than `nTags`. -/
theorem C23_result_count_unchecked (v : RVariation α γ) (f : α → List γ)
    (hE : v.fExpression = VaryExpression.single f) (slot nTags cap : Nat)
    (req vm : RMaskedEntryRange) (n : Nat) (st : List (List γ)) (reader : RColumnReaderBase α)
    (hm : v.fMask[slot * v.maskStep]? = some vm) (hvl : vm.fMask.length = cap)
    (hst : v.fLastResults[slot * v.resultsStep]? = some (VaryResults.single st))
    (hlen : st.length = nTags) (hshape : ∀ bulk, bulk ∈ st → bulk.length = cap)
    (hrd : v.fValueReaders[slot]? = some reader) (hp : slot < v.fValuePtrs.length)
    (hreq : n ≤ req.fMask.length) (hn : n ≤ cap) (hmax : n ≤ sizeMax) :
    ((∀ x, nTags < (f x).length) →
        ∃ (v1 : RVariation α γ) (calls : List ExprCall) (vm1 : RMaskedEntryRange)
          (st1 : List (List γ)),
          v.Update slot req n = some (v1, calls) ∧
          v1.fMask[slot * v1.maskStep]? = some vm1 ∧
          v1.fLastResults[slot * v1.resultsStep]? = some (VaryResults.single st1) ∧
          st1.length = nTags ∧
          ∀ j, j < n → req.bit j = true →
            (decide (vm.FirstEntry = req.FirstEntry) && vm.bit j) = false →
            vm1.bit j = true ∧
              ∀ t, t < nTags →
                VaryResults.value2 st1 t j = (f (reader.Load req n j))[t]? ∧
                ((f (reader.Load req n j))[t]?).isSome = true) ∧
      (∀ (tmp : List γ) (idx : Nat), idx < cap →
        (AssignResultsSingle st tmp idx = none ↔ tmp.length < nTags)) ∧
      ∀ (ptrs : Nat → α) (idx : Nat), idx < cap → v.fValuePtrs[slot]? = some ptrs →
        (v.UpdateHelper slot idx = none ↔ (f (ptrs idx)).length < nTags) := by
  refine ⟨?_, ?_, ?_⟩
  · intro hsurplus
    have hready : SlotReady v slot 1 nTags cap := by
      refine ⟨⟨vm, hm, hvl⟩, ⟨_, hst, ?_⟩, RDefine.lt_length_of_getElem? hrd, hp⟩
      simp only [Fits, hE]
      exact ⟨hlen, hshape, fun x => Nat.le_of_lt (hsurplus x)⟩
    obtain ⟨v1, calls, vm1, st1, h1, h2, _, h4, h5, h6, h7, h8⟩ := Update_storage v slot 1
      nTags cap req vm n _ reader hready hm hst hrd hreq hn hmax
    cases st1 with
    | multi s =>
      rw [h7, hE] at h6
      simp [Fits] at h6
    | single s1 =>
      rw [h7, hE] at h6
      simp only [Fits] at h6
      refine ⟨v1, calls, vm1, s1, h1, h2, h5, h6.1, ?_⟩
      intro j hj hr hc
      refine ⟨?_, ?_⟩
      · rw [h4 j hj, hr]
        rfl
      · intro t ht
        have hv := h8 0 t j Nat.zero_lt_one ht
        rw [if_pos ⟨hj, hr, hc⟩, hE] at hv
        refine ⟨hv, ?_⟩
        have := hsurplus (reader.Load req n j)
        rw [List.getElem?_eq_getElem (by omega)]
        rfl
  · intro tmp idx hidx
    rw [AssignResultsSingle_none_iff st tmp idx cap hshape hidx, hlen]
  · intro ptrs idx hidx hptrs
    rw [← hlen, ← AssignResultsSingle_none_iff st (f (ptrs idx)) idx cap hshape hidx]
    rw [UpdateHelper]
    simp only [hptrs, hst, hE, Option.bind_eq_bind, Option.some_bind]
    cases AssignResultsSingle st (f (ptrs idx)) idx <;> simp

/-- Witness for C23: the scenario variation with an expression that returns three values for
its two tags, rows 0 and 1 cached, receives the request for the four rows. -/
theorem C23_result_count_unchecked_witness :
    (∃ (v1 : RVariation Nat Nat) (calls : List ExprCall) (vm1 : RMaskedEntryRange)
        (st1 : List (List Nat)),
        (scenarioSurplusVariation ⟨[true, true, false, false], 0⟩).Update 0
            ⟨[true, true, true, true], 0⟩ 4 = some (v1, calls) ∧
          v1.fMask[0 * v1.maskStep]? = some vm1 ∧
          v1.fLastResults[0 * v1.resultsStep]? = some (VaryResults.single st1) ∧
          st1.length = 2 ∧ vm1.bit 2 = true ∧ VaryResults.value2 st1 1 2 = some 4) ∧
      AssignResultsSingle [[0, 0, 0, 0], [0, 0, 0, 0]] [7] 1 = none := by
  obtain ⟨h1, h2, _⟩ := C23_result_count_unchecked
    (scenarioSurplusVariation ⟨[true, true, false, false], 0⟩) _ rfl 0 2 4
    ⟨[true, true, true, true], 0⟩ ⟨[true, true, false, false], 0⟩ 4
    [[0, 0, 0, 0], [0, 0, 0, 0]] scenarioReader rfl rfl rfl rfl
    (by
      intro bulk hb
      simp only [List.mem_cons, List.mem_singleton, List.not_mem_nil, or_false] at hb
      rcases hb with rfl | rfl <;> rfl)
    rfl Nat.zero_lt_one (by decide) (by decide) (by decide)
  refine ⟨?_, (h2 [7] 1 (by decide)).mpr (by decide)⟩
  obtain ⟨v1, calls, vm1, st1, a1, a2, a3, a4, a5⟩ := h1 (fun x => by simp)
  obtain ⟨b1, b2⟩ := a5 2 (by decide) (by decide) (by decide)
  refine ⟨v1, calls, vm1, st1, a1, a2, a3, a4, b1, ?_⟩
  rw [(b2 1 (by decide)).1]
  decide

/-- The scenarios of C23: with three values returned for two tags the third one is dropped, and
with one value returned for two tags `Update` ends in the read out of the range of the returned
vector. -/
theorem scenario_result_count :
    ((scenarioSurplusVariation ⟨[true, true, false, false], 0⟩).Update 0
        ⟨[true, true, true, true], 0⟩ 4).map (fun r =>
      (r.1.fLastResults.map VaryResults.singleStorage, r.1.fMask))
      = some ([[[0, 0, 2, 3], [0, 0, 4, 5]]], [⟨[true, true, true, true], 0⟩]) ∧
    ((scenarioShortVariation ⟨[true, true, false, false], 0⟩).Update 0
        ⟨[true, true, true, true], 0⟩ 4).isNone = true := by
  refine ⟨by decide, by decide⟩

end RVariation

namespace RNode

variable {α : Type}

theorem passed_le_of_flow (slot S : Nat) :
    ∀ node : RNode α, node.Flow slot S → node.passed slot S ≤ S := by
  intro node
  induction node with
  | loopManager lm => intro _; exact le_refl _
  | filter f prev ih =>
    rintro ⟨⟨a, r, ha, _, hs⟩, hprev⟩
    have := ih hprev
    simp only [passed, ha, Option.getD_some]
    omega

theorem StampsAvoid_of_allStamped (slot : Nat) (e : Int) (l : List Int) (he : e ∉ l) :
    ∀ node : RNode α, node.AllStamped slot e → node.StampsAvoid slot l := by
  intro node
  induction node with
  | loopManager lm => intro _; trivial
  | filter f prev ih =>
    rintro ⟨⟨m, hm, hs⟩, h2⟩
    refine ⟨?_, ih h2⟩
    intro m1 hm1
    rw [hm] at hm1
    cases hm1
    rw [hs]
    exact he

/-- One `CheckFilters` call with a stamp that no filter of the chain has cached: every filter
processes the bulk, and the counters stay consistent along the chain. -/
theorem CheckFilters_flow (slot cap : Nat) (e : Int) (n : Nat) (hn : n ≤ cap) (S : Nat) :
    ∀ node : RNode α, node.ChainReady slot cap e n →
      (node.source.CheckFilters slot e n).FirstEntry = e →
      node.StampsAvoid slot [e] → node.Flow slot S →
      S + (node.source.CheckFilters slot e n).Count n < 2 ^ 64 →
      ∃ node1 m evs, node.CheckFilters slot e n = some (node1, m, evs) ∧
        m.FirstEntry = e ∧ m.fMask.length = cap ∧ node1.AllStamped slot e ∧
        node1.source = node.source ∧
        (∀ e1 n1, node.ChainReady slot cap e1 n1 → node1.ChainReady slot cap e1 n1) ∧
        node1.Flow slot (S + (node.source.CheckFilters slot e n).Count n) ∧
        node1.passed slot (S + (node.source.CheckFilters slot e n).Count n)
          = node.passed slot S + m.Count n := by
  intro node
  induction node with
  | loopManager lm =>
    intro hready hsrc _ _ _
    exact ⟨loopManager lm, lm.CheckFilters slot e n, [], rfl, hsrc, hready, trivial, rfl,
      fun _ _ h => h, trivial, rfl⟩
  | filter f prev ih =>
    intro hready hsrc havoid hflow hsum
    simp only [source] at hsrc hsum ⊢
    obtain ⟨⟨⟨c, hm, hcl⟩, hrd, hp, ha, hr⟩, hprevReady⟩ := hready
    obtain ⟨hav1, hav2⟩ := havoid
    obtain ⟨⟨a, r, hacc, hrej, hsumf⟩, hflowp⟩ := hflow
    have hc : e ≠ c.FirstEntry := by
      intro hx
      exact hav1 c hm (by simp [hx])
    obtain ⟨prev1, pm, pevs, p1, p2, p3, p4, p5, p6, p7, p8⟩ :=
      ih hprevReady hsrc hav2 hflowp hsum
    obtain ⟨reader, hreader⟩ : ∃ rd, f.fValueReaders[slot]? = some rd :=
      ⟨_, List.getElem?_eq_getElem hrd⟩
    obtain ⟨mask1, h1, h2, h3, h4⟩ := CheckFilters_miss f prev prev1 slot e n c pm pevs
      reader a r hm hc p1 hreader hp hacc hrej (by omega)
    have hi1 := RDefine.lt_length_of_getElem? hm
    have hK : mask1.Count n = ((List.range' 0 n).filter
        (fun j => pm.bit j && f.fFilter (reader.Load pm n j))).length :=
      Count_after pm mask1 _ n h4
    obtain ⟨hle1, _⟩ := acceptedCount_le f pm (reader.Load pm n) n
    rw [← hK] at hle1 h1
    have hbound := passed_le_of_flow slot _ prev1 p7
    rw [p8] at hbound
    have hw0 : wrap64 (0 + mask1.Count n) = mask1.Count n := by
      rw [Nat.zero_add]
      exact RFilter.wrap64_of_lt (by omega)
    have hw1 : wrap64 (a + mask1.Count n) = a + mask1.Count n :=
      RFilter.wrap64_of_lt (by omega)
    have hw2 : wrap64 (pm.Count n + 2 ^ 64 - mask1.Count n) = pm.Count n - mask1.Count n :=
      wrap64_sub _ _ hle1 (by omega)
    have hw3 : wrap64 (r + (pm.Count n - mask1.Count n)) = r + (pm.Count n - mask1.Count n) :=
      RFilter.wrap64_of_lt (by omega)
    rw [hw0, hw1, hw2, hw3] at h1
    have hst : mask1.FirstEntry = e := by
      simp only [RMaskedEntryRange.FirstEntry] at p2 ⊢
      rw [h2, p2]
    refine ⟨_, mask1, _, h1, hst, by omega, ⟨⟨mask1, by simp [hi1], hst⟩, p4⟩, p5, ?_, ?_, ?_⟩
    · intro e1 n1 hr1
      obtain ⟨_, hr2⟩ := hr1
      exact ⟨⟨⟨mask1, by simp [hi1], by omega⟩, hrd, by simpa using hp, by simpa using ha,
        by simpa using hr⟩, p6 e1 n1 hr2⟩
    · refine ⟨⟨a + mask1.Count n, r + (pm.Count n - mask1.Count n), by simp [ha], by simp [hr],
        ?_⟩, p7⟩
      rw [p8]
      omega
    · simp only [passed, List.getElem?_set_self ha, hacc, Option.getD_some]

end RNode

namespace RNode

variable {α : Type}

theorem Flow_of_countersZero (slot : Nat) :
    ∀ node : RNode α, node.CountersZero slot → node.Flow slot 0 := by
  intro node
  induction node with
  | loopManager lm => intro _; trivial
  | filter f prev ih =>
    rintro ⟨h1, h2, h3⟩
    refine ⟨⟨0, 0, h1, h2, ?_⟩, ih h3⟩
    cases prev with
    | loopManager lm => rfl
    | filter g p =>
      obtain ⟨g1, _, _⟩ := h3
      simp [passed, g1]

theorem CutFlowOk_of_flow (slot S : Nat) :
    ∀ node : RNode α, node.Flow slot S → node.CutFlowOk slot := by
  intro node
  induction node with
  | loopManager lm => intro _; trivial
  | filter f prev ih =>
    rintro ⟨⟨a, r, ha, hr, hs⟩, hprev⟩
    refine ⟨?_, ih hprev⟩
    cases prev with
    | loopManager lm => trivial
    | filter g p =>
      obtain ⟨⟨b, _, hb, _, _⟩, _⟩ := hprev
      simp only [passed, hb, Option.getD_some] at hs
      exact ⟨a, r, b, ha, hr, hb, hs, by omega⟩

theorem sourceRows_cons (lm : RLoopManager) (slot : Nat) (c : Int × Nat)
    (rest : List (Int × Nat)) :
    sourceRows lm slot (c :: rest)
      = (lm.CheckFilters slot c.1 c.2).Count c.2 + sourceRows lm slot rest := by
  simp [sourceRows]

theorem CheckFilters_allStamped_hit (slot : Nat) (e : Int) (n : Nat) (node : RNode α)
    (h : node.AllStamped slot e) : ∃ m, node.CheckFilters slot e n = some (node, m, []) := by
  cases node with
  | loopManager lm => exact ⟨_, rfl⟩
  | filter f prev =>
    obtain ⟨⟨m, hm, hs⟩, _⟩ := h
    exact ⟨m, by simp [CheckFilters, hm, hs]⟩

/-- A sequence of `CheckFilters` calls on a chain whose filters all hold the same cached stamp
keeps the counters consistent along the chain. -/
theorem CheckFiltersSeq_flow (slot cap : Nat) :
    ∀ (calls : List (Int × Nat)) (node : RNode α) (S : Nat) (e0 : Int),
      (∀ c, c ∈ calls → node.ChainReady slot cap c.1 c.2 ∧ c.2 ≤ cap ∧
        (node.source.CheckFilters slot c.1 c.2).FirstEntry = c.1) →
      node.AllStamped slot e0 → node.Flow slot S →
      S + sourceRows node.source slot calls < 2 ^ 64 →
      ∃ node1 S1 e1, CheckFiltersSeq slot node calls = some node1 ∧ node1.Flow slot S1 ∧
        S1 ≤ S + sourceRows node.source slot calls ∧ node1.AllStamped slot e1 ∧
        node1.source = node.source := by
  intro calls
  induction calls with
  | nil =>
    intro node S e0 _ hst hflow _
    exact ⟨node, S, e0, rfl, hflow, Nat.le_add_right _ _, hst, rfl⟩
  | cons c rest ih =>
    intro node S e0 hcalls hst hflow hsum
    obtain ⟨hc1, hc2, hc3⟩ := hcalls c (List.mem_cons_self _ _)
    rw [sourceRows_cons] at hsum ⊢
    by_cases he : c.1 = e0
    · obtain ⟨m, hm⟩ := CheckFilters_allStamped_hit slot c.1 c.2 node (by rw [he]; exact hst)
      obtain ⟨node2, S2, e2, t1, t2, t3, t4, t5⟩ := ih node S e0
        (fun d hd => hcalls d (List.mem_cons_of_mem _ hd)) hst hflow (by omega)
      refine ⟨node2, S2, e2, ?_, t2, by omega, t4, t5⟩
      simp only [CheckFiltersSeq, hm, Option.some_bind]
      exact t1
    · obtain ⟨node1, m, evs, s1, _, _, s4, s5, s6, s7, _⟩ := CheckFilters_flow slot cap c.1
        c.2 hc2 S node hc1 hc3
        (StampsAvoid_of_allStamped slot e0 [c.1] (by
          simp only [List.mem_singleton]
          exact fun hx => he hx.symm) node hst)
        hflow (by omega)
      obtain ⟨node2, S2, e2, t1, t2, t3, t4, t5⟩ := ih node1
        (S + (node.source.CheckFilters slot c.1 c.2).Count c.2) c.1
        (fun d hd => by
          obtain ⟨d1, d2, d3⟩ := hcalls d (List.mem_cons_of_mem _ hd)
          exact ⟨s6 d.1 d.2 d1, d2, by rw [s5]; exact d3⟩)
        s4 s7 (by rw [s5]; omega)
      refine ⟨node2, S2, e2, ?_, t2, ?_, t4, t5.trans s5⟩
      · simp only [CheckFiltersSeq, s1, Option.some_bind]
        exact t1
      · rw [s5] at t3
        omega

/-- C29: a chain of filters whose accepted and rejected counters of a slot are zero and whose
filters all hold the same cached stamp for the slot (the unset stamp after `InitSlot`) is driven
through `CheckFilters` on its last filter by a sequence of bulks; the chain is laid out for the
capacity of the bulks, the source answers every call with a mask of that capacity carrying the
stamp asked for, and the source lets through fewer than `2 ^ 64` rows in total (the counters are
`ULong64_t`).  Then every call succeeds, and afterwards, for every filter whose predecessor is a
filter, accepted plus rejected is the accepted counter of the predecessor and accepted is not
above it; for the first filter accepted plus rejected is the number of rows the source was asked
for and let through, which is at most the total over the sequence.  Pairwise distinct stamps are
a particular case: a stamp that comes again is answered from the cache and changes no counter. -/
theorem C29_cut_flow_consistency (node : RNode α) (slot cap : Nat) (calls : List (Int × Nat))
    (e0 : Int) (hzero : node.CountersZero slot) (hstamp : node.AllStamped slot e0)
    (hcalls : ∀ c, c ∈ calls → node.ChainReady slot cap c.1 c.2 ∧ c.2 ≤ cap ∧
      (node.source.CheckFilters slot c.1 c.2).FirstEntry = c.1)
    (hrows : sourceRows node.source slot calls < 2 ^ 64) :
    ∃ node1 S, CheckFiltersSeq slot node calls = some node1 ∧ node1.CutFlowOk slot ∧
      node1.Flow slot S ∧ S ≤ sourceRows node.source slot calls := by
  obtain ⟨node1, S, _, h1, h2, h3, _⟩ := CheckFiltersSeq_flow slot cap calls node 0 e0 hcalls
    hstamp (Flow_of_countersZero slot node hzero) (by omega)
  rw [Nat.zero_add] at h3
  exact ⟨node1, S, h1, CutFlowOk_of_flow slot _ node1 h2, h2, h3⟩

/-- Witness for C29: the chain of the scenario filters `x > 2` and `x > 3` after `InitSlot`
processes the bulks stamped `0` and `4` of four rows each. -/
theorem C29_cut_flow_consistency_witness :
    ∃ node1, CheckFiltersSeq 0 scenarioCutFlowChain [(0, 4), (4, 4)] = some node1 ∧
      node1.CutFlowOk 0 := by
  obtain ⟨node1, _, h1, h2, _⟩ := C29_cut_flow_consistency scenarioCutFlowChain 0 4
    [(0, 4), (4, 4)] (-1) ⟨rfl, rfl, rfl, rfl, trivial⟩
    ⟨⟨_, rfl, rfl⟩, ⟨_, rfl, rfl⟩, trivial⟩
    (by
      intro c hc
      simp only [List.mem_cons, List.mem_singleton, List.not_mem_nil, or_false] at hc
      rcases hc with rfl | rfl
      · exact ⟨⟨⟨⟨_, rfl, rfl⟩, by decide, by decide, by decide, by decide⟩,
          ⟨⟨_, rfl, rfl⟩, by decide, by decide, by decide, by decide⟩, rfl⟩, by decide, rfl⟩
      · exact ⟨⟨⟨⟨_, rfl, rfl⟩, by decide, by decide, by decide, by decide⟩,
          ⟨⟨_, rfl, rfl⟩, by decide, by decide, by decide, by decide⟩, rfl⟩, by decide, rfl⟩)
    (by decide)
  exact ⟨node1, h1, h2⟩

/-- The scenario of C29: after the bulks stamped `0` and `4`, the filter `x > 2` has accepted 4
rows and rejected 4, and the filter `x > 3` has accepted 2 rows and rejected 2. -/
theorem scenario_cut_flow :
    (CheckFiltersSeq 0 scenarioCutFlowChain [(0, 4), (4, 4)]).map
        (fun node => node.filters.map (fun f => (f.fAccepted, f.fRejected)))
      = some [([4], [4]), ([2], [2])] := by
  decide

end RNode

namespace RNode

variable {α : Type}

/-- C32 (names of the chain, root to leaf): `AddFilterName` on the last filter of a chain yields
the initial list followed by one entry per filter of the chain, in the order of the chain from
the filter next to the source to the last one; the entry of a filter is its name when it is
named and `"Unnamed Filter"` when it is not; the result has one more entry per filter, the
entries of the initial list keep their positions, and the entry after them at position `i` is
the one of the filter at position `i` of the chain. -/
theorem C32_add_filter_name (node : RNode α) (L : List String) :
    node.AddFilterName L
        = L ++ node.filters.map (fun f => if f.HasName then f.fName else "Unnamed Filter") ∧
      (node.AddFilterName L).length = L.length + node.level ∧
      (node.AddFilterName L).take L.length = L ∧
      (∀ i, i < L.length → (node.AddFilterName L)[i]? = L[i]?) ∧
      ∀ i, (node.AddFilterName L)[L.length + i]?
        = (node.filters[i]?).map (fun f => if f.fName = "" then "Unnamed Filter" else f.fName) := by
  have h : node.AddFilterName L
      = L ++ node.filters.map (fun f => if f.HasName then f.fName else "Unnamed Filter") := by
    induction node with
    | loopManager lm => simp [AddFilterName, RLoopManager.AddFilterName, filters]
    | filter f prev ih => simp [AddFilterName, filters, ih]
  refine ⟨h, ?_, ?_, ?_, ?_⟩
  · rw [h, List.length_append, List.length_map, filters_length]
  · rw [h, List.take_left]
  · intro i hi
    rw [h, List.getElem?_append_left hi]
  · intro i
    rw [h, List.getElem?_append_right (Nat.le_add_right _ _), Nat.add_sub_cancel_left,
      List.getElem?_map]
    cases node.filters[i]? with
    | none => rfl
    | some f =>
      by_cases hf : f.fName = "" <;> simp [RFilter.HasName, hf]

/-- Witness for C32: on the chain of the scenario filters `"a"`, unnamed, `"b"` and the initial
list `["x"]` the result is `["x", "a", "Unnamed Filter", "b"]`. -/
theorem C32_add_filter_name_witness :
    scenarioMixedChain.AddFilterName ["x"] = ["x", "a", "Unnamed Filter", "b"] ∧
      scenarioMixedChain.level = 3 :=
  ⟨(C32_add_filter_name scenarioMixedChain ["x"]).1.trans (by decide), by decide⟩

end RNode

namespace RDefineNode

variable {α β : Type}

/-- The keys of the registry after a sequence of `MakeVariations` calls: those present before and
the tags of the calls that the column depends on; the other members are unchanged. -/
theorem MakeVariationsSeq_keys (blank : Blank α β) :
    ∀ (calls : List (List String)) (n : RDefineNode α β),
      (MakeVariationsSeq blank n calls).state = n.state ∧
        ∀ k, (mapFind (MakeVariationsSeq blank n calls).fVariedDefines k).isSome
          ↔ ((mapFind n.fVariedDefines k).isSome ∨
            (k ∈ n.state.fVariationDeps ∧ ∃ tags, tags ∈ calls ∧ k ∈ tags)) := by
  intro calls
  induction calls with
  | nil =>
    intro n
    refine ⟨rfl, fun k => ?_⟩
    simp [MakeVariationsSeq]
  | cons tags rest ih =>
    intro n
    obtain ⟨s1, f1, _, _⟩ := MakeVariations_spec blank tags n
    obtain ⟨s2, f2⟩ := ih (MakeVariations blank n tags).1
    refine ⟨by rw [MakeVariationsSeq, s2, s1], fun k => ?_⟩
    rw [MakeVariationsSeq, f2 k, s1, f1 k]
    by_cases hc : (mapFind n.fVariedDefines k).isNone ∧ k ∈ tags ∧ k ∈ n.state.fVariationDeps
    · rw [if_pos hc]
      simp only [Option.isSome_some, true_or, true_iff]
      exact Or.inr ⟨hc.2.2, tags, List.mem_cons_self _ _, hc.2.1⟩
    · rw [if_neg hc]
      constructor
      · rintro (h | ⟨hd, t, ht, hk⟩)
        · exact Or.inl h
        · exact Or.inr ⟨hd, t, List.mem_cons_of_mem _ ht, hk⟩
      · rintro (h | ⟨hd, t, ht, hk⟩)
        · exact Or.inl h
        · rcases List.mem_cons.1 ht with rfl | ht
          · left
            cases hf : mapFind n.fVariedDefines k with
            | some x => rfl
            | none => exact absurd ⟨by simp [hf], hk, hd⟩ hc
          · exact Or.inr ⟨hd, t, ht, hk⟩

/-- The outcome of `GetVariedDefine` on any state: the assertion fails when the tag is a
dependency without an entry in the registry; otherwise the state is returned as it was, with the
reference to the entry when there is one and to the define itself when there is none. -/
theorem GetVariedDefine_eq (n : RDefineNode α β) (tag : String) :
    n.GetVariedDefine tag
      = if tag ∈ n.state.fVariationDeps ∧ (mapFind n.fVariedDefines tag).isNone then none
        else some (n, if (mapFind n.fVariedDefines tag).isSome then DefineRef.varied tag
          else DefineRef.self) := by
  unfold GetVariedDefine
  cases hf : mapFind n.fVariedDefines tag with
  | none =>
    by_cases hd : tag ∈ n.state.fVariationDeps <;> simp [hd]
  | some x => simp

/-- C31 (no silent substitution of the nominal define): in every state reached from a define `d`
with an empty registry by `MakeVariations` calls, `GetVariedDefine(tag)` fails its assertion
exactly when `d` depends on the tag and no call listed the tag, that is, no varied define was
built for it; in every other case it returns, with the state, registry included, as it was, the
reference to the varied define when `d` depends on the tag and the reference to the define
itself when it does not; and on any state whatever the registry is returned unchanged, the
failure being exactly the case of a dependency without an entry. -/
theorem C31_get_varied_define_assertion (blank : Blank α β) (d : RDefine α β)
    (calls : List (List String)) (tag : String) :
    ((MakeVariationsSeq blank ⟨d, []⟩ calls).GetVariedDefine tag = none
        ↔ (tag ∈ d.fVariationDeps ∧ ¬ ∃ tags, tags ∈ calls ∧ tag ∈ tags)) ∧
      (MakeVariationsSeq blank ⟨d, []⟩ calls).GetVariedDefine tag
        = (if tag ∈ d.fVariationDeps ∧ ¬ ∃ tags, tags ∈ calls ∧ tag ∈ tags then none
          else some (MakeVariationsSeq blank ⟨d, []⟩ calls,
            if tag ∈ d.fVariationDeps then DefineRef.varied tag else DefineRef.self)) ∧
      ∀ n : RDefineNode α β,
        n.GetVariedDefine tag
          = if tag ∈ n.state.fVariationDeps ∧ (mapFind n.fVariedDefines tag).isNone then none
            else some (n, if (mapFind n.fVariedDefines tag).isSome then DefineRef.varied tag
              else DefineRef.self) := by
  obtain ⟨hs, hk⟩ := MakeVariationsSeq_keys blank calls ⟨d, []⟩
  have hkey : (mapFind (MakeVariationsSeq blank ⟨d, []⟩ calls).fVariedDefines tag).isSome
      ↔ (tag ∈ d.fVariationDeps ∧ ∃ tags, tags ∈ calls ∧ tag ∈ tags) := by
    rw [hk tag]
    simp [mapFind]
  have heq : (MakeVariationsSeq blank ⟨d, []⟩ calls).GetVariedDefine tag
      = (if tag ∈ d.fVariationDeps ∧ ¬ ∃ tags, tags ∈ calls ∧ tag ∈ tags then none
        else some (MakeVariationsSeq blank ⟨d, []⟩ calls,
          if tag ∈ d.fVariationDeps then DefineRef.varied tag else DefineRef.self)) := by
    rw [GetVariedDefine_eq, hs]
    by_cases hd : tag ∈ d.fVariationDeps
    · by_cases hb : ∃ tags, tags ∈ calls ∧ tag ∈ tags
      · have h1 := hkey.2 ⟨hd, hb⟩
        have h2 : ¬ (mapFind (MakeVariationsSeq blank ⟨d, []⟩ calls).fVariedDefines tag).isNone := by
          cases hf : mapFind (MakeVariationsSeq blank ⟨d, []⟩ calls).fVariedDefines tag with
          | none => rw [hf] at h1; cases h1
          | some x => simp
        rw [if_neg (fun h => h2 h.2), if_pos h1, if_neg (fun h => h.2 hb), if_pos hd]
      · have h1 : (mapFind (MakeVariationsSeq blank ⟨d, []⟩ calls).fVariedDefines tag).isNone := by
          cases hf : mapFind (MakeVariationsSeq blank ⟨d, []⟩ calls).fVariedDefines tag with
          | none => rfl
          | some x => exact absurd (hkey.1 (by rw [hf]; rfl)).2 hb
        rw [if_pos ⟨hd, h1⟩, if_pos ⟨hd, hb⟩]
    · have h1 : ¬ (mapFind (MakeVariationsSeq blank ⟨d, []⟩ calls).fVariedDefines tag).isSome :=
        fun h => hd (hkey.1 h).1
      rw [if_neg (fun h => hd h.1), if_neg h1, if_neg (fun h => hd h.1), if_neg hd]
  refine ⟨?_, heq, fun n => GetVariedDefine_eq n tag⟩
  rw [heq]
  by_cases hc : tag ∈ d.fVariationDeps ∧ ¬ ∃ tags, tags ∈ calls ∧ tag ∈ tags
  · rw [if_pos hc]
    exact ⟨fun _ => hc, fun _ => rfl⟩
  · rw [if_neg hc]
    exact ⟨fun h => Option.noConfusion h, fun h => absurd h hc⟩

/-- Witness for C31: the scenario column depends on `"x:up"` and `"x:down"`; after
`MakeVariations(["x:up", "z:up"])` the tag `"x:down"` fails the assertion, the tag `"x:up"` is
resolved to its varied define and the tag `"z:up"` to the column itself. -/
theorem C31_get_varied_define_assertion_witness :
    (MakeVariationsSeq scenarioBlank ⟨scenarioDefineNode.state, []⟩
        [["x:up", "z:up"]]).GetVariedDefine "x:down" = none ∧
      ((MakeVariationsSeq scenarioBlank ⟨scenarioDefineNode.state, []⟩
        [["x:up", "z:up"]]).GetVariedDefine "x:up").map (fun r => r.2)
          = some (DefineRef.varied "x:up") ∧
      ((MakeVariationsSeq scenarioBlank ⟨scenarioDefineNode.state, []⟩
        [["x:up", "z:up"]]).GetVariedDefine "z:up").map (fun r => r.2)
          = some DefineRef.self := by
  refine ⟨?_, ?_, ?_⟩
  · exact (C31_get_varied_define_assertion scenarioBlank scenarioDefineNode.state
      [["x:up", "z:up"]] "x:down").1.2 (by decide)
  · decide
  · decide

end RDefineNode

end ROOT
